import Mathlib

open Filter Topology Set

/-!
# Gin dynamics processor: envelope detector and static gain curve

A shallow embedding of `modules/gin_dsp/dsp/gin_dynamics.cpp`.

Modelling conventions.

* Two models of the arithmetic are used.  In the exact model the C++
  `float`/`double` values are elements of an arbitrary linearly ordered field `K`
  (no rounding, no NaN, no infinities).  The definitions are computable for
  `K = ℚ`, and are used at `K = ℝ` where a claim speaks about limits and
  derivatives.
* In the binary32 model (`FloatingPoint`, `EnvelopeDetector32`) a `float` is an
  IEEE 754 binary32 value: finite, infinite or NaN.  Every operation is computed
  exactly in `K` and rounded to nearest, ties to even, with overflow to an infinity;
  `double` operations round to binary64.  Operations are rounded one by one (no fused
  multiply-add), the two zeros are not told apart, and `sampleRate` is a `double`,
  as the conversion `float (sampleRate)` on line 55 indicates.  The statements that
  depend on rounding (the attack step, the envelope bounds, the hold duration, the
  rms mode and the range of the stored coefficients) are made in this model.
* `std::pow (x, 2.0f)` is `x ^ 2`.
* Library functions that are called but are not part of this repository
  (`std::pow (·, 0.5f)`, `std::exp`, `juce::Decibels::gainToDecibels` and
  `decibelsToGain`, the member functions of `juce::dsp::BallisticsFilter`) are
  parameters of the operations that call them.
* The audio buffer handed to `Dynamics::process` is the list of its frames, one frame
  per sample index holding that index's sample of every channel.
* A member function that mutates the object is a function returning the new
  object (and the returned value, when there is one).
-/

namespace Gin

/-! ## Data model -/

/-- The processor kinds, `Dynamics::Type`. -/
inductive DynamicsType where
  | compressor
  | limiter
  | expander
  | gate
  deriving DecidableEq, Repr

/-- The fields of `Dynamics` that `calcCurve` reads. -/
structure Dynamics (K : Type) where
  type : DynamicsType
  threshold : K
  ratio : K
  kneeWidth : K

/-- The detection modes, `EnvelopeDetector::Mode`. -/
inductive Mode where
  | peak
  | ms
  | rms
  deriving DecidableEq, Repr

/-- The state of an `EnvelopeDetector`. -/
structure EnvelopeDetector (K : Type) where
  sampleRate : K
  envelope : K
  attackTime : K
  releaseTime : K
  holdTime : K
  holdRemaining : K
  analogTC : Bool
  logDetector : Bool
  mode : Mode

/-! ## `Dynamics::calcCurve` -/

section Curve

variable {K : Type} [LinearOrderedField K]

/-- `Dynamics::calcCurve` (gin_dynamics.cpp, lines 171-233).  Every branch starts
from `dbOut = dbIn`; the final `else` of each branch is that untouched value. -/
def Dynamics.calcCurve (d : Dynamics K) (dbIn : K) : K :=
  match d.type with
  | DynamicsType.compressor =>
    if d.kneeWidth > 0 ∧ dbIn ≥ d.threshold - d.kneeWidth / 2
        ∧ dbIn ≤ d.threshold + d.kneeWidth / 2 then
      dbIn + ((1 / d.ratio - 1) * (dbIn - d.threshold + d.kneeWidth / 2) ^ 2
                / (2 * d.kneeWidth))
    else if dbIn > d.threshold + d.kneeWidth / 2 then
      d.threshold + (dbIn - d.threshold) / d.ratio
    else
      dbIn
  | DynamicsType.limiter =>
    if d.kneeWidth > 0 ∧ dbIn ≥ d.threshold - d.kneeWidth / 2
        ∧ dbIn ≤ d.threshold + d.kneeWidth / 2 then
      dbIn + (1 * (dbIn - d.threshold + d.kneeWidth / 2) ^ 2 / (2 * d.kneeWidth))
    else if dbIn > d.threshold + d.kneeWidth / 2 then
      d.threshold
    else
      dbIn
  | DynamicsType.expander =>
    if d.kneeWidth > 0 ∧ dbIn ≥ d.threshold - d.kneeWidth / 2
        ∧ dbIn ≤ d.threshold + d.kneeWidth / 2 then
      dbIn - ((d.ratio - 1) * (dbIn - d.threshold - d.kneeWidth / 2) ^ 2)
                / (2 * d.kneeWidth)
    else if dbIn < d.threshold + d.kneeWidth / 2 then
      d.threshold + (dbIn - d.threshold) * d.ratio
    else
      dbIn
  | DynamicsType.gate =>
    if d.kneeWidth > 0 ∧ dbIn ≥ d.threshold - d.kneeWidth / 2
        ∧ dbIn ≤ d.threshold + d.kneeWidth / 2 then
      dbIn - ((100 - 1) * (dbIn - d.threshold - d.kneeWidth / 2) ^ 2)
                / (2 * d.kneeWidth)
    else if dbIn < d.threshold - d.kneeWidth / 2 then
      -1000
    else
      dbIn

/-- The expander branch of `calcCurve` as the specification's reading of it would
have it: the linear expansion is selected by a comparison against the LOWER knee
edge `threshold - kneeWidth / 2` instead of the upper one.  Not source code: the
comparison partner of `Dynamics.calcCurve` for the expander. -/
def expanderLowerEdgeCurve (d : Dynamics K) (dbIn : K) : K :=
  if d.kneeWidth > 0 ∧ dbIn ≥ d.threshold - d.kneeWidth / 2
      ∧ dbIn ≤ d.threshold + d.kneeWidth / 2 then
    dbIn - ((d.ratio - 1) * (dbIn - d.threshold - d.kneeWidth / 2) ^ 2)
              / (2 * d.kneeWidth)
  else if dbIn < d.threshold - d.kneeWidth / 2 then
    d.threshold + (dbIn - d.threshold) * d.ratio
  else
    dbIn

end Curve

/-! ## `EnvelopeDetector` -/

section Detector

variable {K : Type} [LinearOrderedField K]

/-- `EnvelopeDetector::reset` (line 7). -/
def EnvelopeDetector.reset (s : EnvelopeDetector K) : EnvelopeDetector K :=
  { s with envelope := 0 }

/-- `EnvelopeDetector::setHoldTime` (line 21). -/
def EnvelopeDetector.setHoldTime (s : EnvelopeDetector K) (holdS : K) :
    EnvelopeDetector K :=
  { s with holdTime := holdS }

/-- The `switch (mode)` at the head of `EnvelopeDetector::process` (lines 41-46):
the rectified input.  `powHalf` stands for `std::pow (·, 0.5f)`. -/
def EnvelopeDetector.rectify (powHalf : K → K) (mode : Mode) (input : K) : K :=
  match mode with
  | Mode.peak => |input|
  | Mode.ms => |input| * |input|
  | Mode.rms => powHalf (|input| * |input|)

/-- The attack / hold / release update of `EnvelopeDetector::process` (lines 48-60)
on an already rectified input. -/
def EnvelopeDetector.ballistics (s : EnvelopeDetector K) (input : K) :
    EnvelopeDetector K :=
  if input > s.envelope then
    { s with envelope := s.attackTime * (s.envelope - input) + input
             holdRemaining := s.holdTime }
  else if s.holdTime > 0 ∧ s.holdRemaining > 0 then
    { s with holdRemaining := s.holdRemaining - 1 / s.sampleRate }
  else
    { s with envelope := s.releaseTime * (s.envelope - input) + input }

/-- `EnvelopeDetector::process` (lines 39-73): the new detector state and the
returned value.  `powHalf` stands for `std::pow (·, 0.5f)` and `gainToDecibels`
for `juce::Decibels::gainToDecibels`. -/
def EnvelopeDetector.process (powHalf gainToDecibels : K → K)
    (s : EnvelopeDetector K) (input : K) : EnvelopeDetector K × K :=
  let input := EnvelopeDetector.rectify powHalf s.mode input
  let s1 := s.ballistics input
  let s2 := { s1 with envelope := max 0 s1.envelope }
  if s2.logDetector then
    if s2.envelope = 0 then
      (s2, -100)
    else
      (s2, gainToDecibels s2.envelope)
  else
    (s2, s2.envelope)

/-- The constant `DIGITAL_TC` (line 3). -/
def DIGITAL_TC : K := -2

/-- The constant `ANALOG_TC` (line 4), the decimal literal of the source. -/
def ANALOG_TC : K :=
  -(43533393574791066201247090699309 / 100000000000000000000000000000000)

/-- `EnvelopeDetector::setAttackTime` (lines 23-29).  `exp` stands for `std::exp`. -/
def EnvelopeDetector.setAttackTime (exp : K → K) (s : EnvelopeDetector K) (attackS : K) :
    EnvelopeDetector K :=
  if s.analogTC then
    { s with attackTime := exp (ANALOG_TC / (attackS * s.sampleRate)) }
  else
    { s with attackTime := exp (DIGITAL_TC / (attackS * s.sampleRate)) }

/-- `EnvelopeDetector::setReleaseTime` (lines 31-37).  `exp` stands for `std::exp`. -/
def EnvelopeDetector.setReleaseTime (exp : K → K) (s : EnvelopeDetector K) (releaseS : K) :
    EnvelopeDetector K :=
  if s.analogTC then
    { s with releaseTime := exp (ANALOG_TC / (releaseS * s.sampleRate)) }
  else
    { s with releaseTime := exp (DIGITAL_TC / (releaseS * s.sampleRate)) }

end Detector

/-- Modelled from the spec: `juce::Decibels::gainToDecibels` is a library function that
is not among the sources; the specification gives the decibel conversion of a
positive gain as `20·log10(gain)`.  The predicate says that `gainToDecibels` is that
conversion. -/
def IsDecibelConversion (gainToDecibels : ℝ → ℝ) : Prop :=
  ∀ gain : ℝ, 0 < gain → gainToDecibels gain = 20 * Real.logb 10 gain

/-! ## `Dynamics::process` -/

/-- The part of `juce::dsp::BallisticsFilter<float>` that `Dynamics::process` uses.
The member `Dynamics::envelope` is an object of that library class, which is not among
the sources, so it is a parameter: a state of type `σ`, the member function
`processSample (channel, value)`, which returns the detected level and updates the
state, and the member function `snapToZero ()`. -/
structure BallisticsFilter (σ K : Type) where
  processSample : σ → Nat → K → K × σ
  snapToZero : σ → σ

/-- The fields of `Dynamics` that `process` reads: the curve parameters and the gains,
the link flag and the channel count. -/
structure DynamicsProcessor (K : Type) extends Dynamics K where
  inputGain : K
  outputGain : K
  channelsLinked : Bool
  channels : Nat

/-- What one pass of the sample loop of `Dynamics::process` (lines 123-166) produces for
a sample index `i`: the values written to `output[c][i]` in channel order, the values
written to `envelopeOut` when it is given, the values taken by the local variable
`gain` in the order they are computed, and the value passed to
`reductionTracker.trackSample`. -/
structure SampleResult (K : Type) where
  output : List K
  env : List K
  gains : List K
  peakReduction : K

section Process

variable {K σ : Type} [LinearOrderedField K]

/-- The first inner loop of the linked branch (lines 129-133): every channel's sample
goes through the filter and the returned levels are added up.  `c` is the channel
index of the head of the remaining frame. -/
def linkedSum (F : BallisticsFilter σ K) : Nat → List K → σ → K → K × σ
  | _, [], st, linked => (linked, st)
  | c, x :: xs, st, linked =>
    linkedSum F (c + 1) xs (F.processSample st c x).2 (linked + (F.processSample st c x).1)

/-- The linked branch of the sample loop (lines 126-147) on the frame
`input[0][i], …, input[channels-1][i]`.  `peakReduction` starts at 1 (line 125). -/
def DynamicsProcessor.linkedSample (d : DynamicsProcessor K) (F : BallisticsFilter σ K)
    (gainToDecibels decibelsToGain : K → K) (st : σ) (frame : List K) :
    SampleResult K × σ :=
  let r := linkedSum F 0 frame st 0
  let linked := r.1 / (d.channels : K)
  let linkedDb := gainToDecibels linked
  let gain := decibelsToGain (d.toDynamics.calcCurve linkedDb - linkedDb)
  ({ output := frame.map (fun x => gain * x * d.outputGain)
     env := [linked]
     gains := [gain]
     peakReduction := min 1 gain }, r.2)

/-- The unlinked branch of the sample loop (lines 148-163): the loop over the channels
of the frame, `c` being the channel index of the head of the remaining frame and
`peak` the current value of `peakReduction`. -/
def DynamicsProcessor.unlinkedLoop (d : DynamicsProcessor K) (F : BallisticsFilter σ K)
    (decibelsToGain : K → K) : Nat → List K → σ → K → SampleResult K × σ
  | _, [], st, peak => ({ output := [], env := [], gains := [], peakReduction := peak }, st)
  | c, x :: xs, st, peak =>
    let r := F.processSample st c (d.inputGain * x)
    let gain := decibelsToGain (d.toDynamics.calcCurve r.1 - r.1)
    let rest := DynamicsProcessor.unlinkedLoop d F decibelsToGain (c + 1) xs r.2
      (min peak gain)
    ({ output := (d.inputGain * gain * x * d.outputGain) :: rest.1.output
       env := decibelsToGain r.1 :: rest.1.env
       gains := gain :: rest.1.gains
       peakReduction := rest.1.peakReduction }, rest.2)

/-- The body of the sample loop for one sample index (lines 125-165): the linked or the
unlinked branch, then `envelope.snapToZero ()`. -/
def DynamicsProcessor.sampleStep (d : DynamicsProcessor K) (F : BallisticsFilter σ K)
    (gainToDecibels decibelsToGain : K → K) (st : σ) (frame : List K) :
    SampleResult K × σ :=
  let r := if d.channelsLinked then
      d.linkedSample F gainToDecibels decibelsToGain st frame
    else
      d.unlinkedLoop F decibelsToGain 0 frame st 1
  (r.1, F.snapToZero r.2)

/-- The sample loop (lines 123-166) over the frames of the buffer, in sample order. -/
def DynamicsProcessor.sampleLoop (d : DynamicsProcessor K) (F : BallisticsFilter σ K)
    (gainToDecibels decibelsToGain : K → K) : σ → List (List K) → List (SampleResult K) × σ
  | st, [] => ([], st)
  | st, frame :: frames =>
    let r := d.sampleStep F gainToDecibels decibelsToGain st frame
    let rest := DynamicsProcessor.sampleLoop d F gainToDecibels decibelsToGain r.2 frames
    (r.1 :: rest.1, rest.2)

/-- `Dynamics::process` (lines 112-169).  The audio buffer, a library type, is the list
of its frames: entry `i` holds the samples `buffer[0][i], …, buffer[channels-1][i]`.
`buffer.applyGain (inputGain)` scales every sample first; the level trackers only read
the buffer and are left out, except for the values handed to
`reductionTracker.trackSample`, which are the `peakReduction` entries of the result. -/
def DynamicsProcessor.process (d : DynamicsProcessor K) (F : BallisticsFilter σ K)
    (gainToDecibels decibelsToGain : K → K) (st : σ) (buffer : List (List K)) :
    List (SampleResult K) × σ :=
  d.sampleLoop F gainToDecibels decibelsToGain st
    (buffer.map (fun frame => frame.map (fun x => x * d.inputGain)))

end Process

/-! ## Concrete configurations used to evaluate the definitions -/

/-- A filter without memory that reports the absolute value of its input: a stand-in
for the library filter on which `process` can be run. -/
def absFilter (K : Type) [LinearOrderedField K] : BallisticsFilter Unit K :=
  { processSample := fun st _ x => (|x|, st), snapToZero := fun st => st }

/-- A processor whose curve is the identity (compressor, ratio 1, hard knee) with input
gain 2 and output gain 1 on two channels. -/
def processorUnityCurve (K : Type) [LinearOrderedField K] (linked : Bool) :
    DynamicsProcessor K :=
  { type := DynamicsType.compressor, threshold := 0, ratio := 1, kneeWidth := 0,
    inputGain := 2, outputGain := 1, channelsLinked := linked, channels := 2 }

/-- An expander with threshold 10 dB, ratio 1/2 and a hard knee, unit gains, linked,
on one channel. -/
def processorExpanding (K : Type) [LinearOrderedField K] : DynamicsProcessor K :=
  { type := DynamicsType.expander, threshold := 10, ratio := 1 / 2, kneeWidth := 0,
    inputGain := 1, outputGain := 1, channelsLinked := true, channels := 1 }

/-- A compressor with threshold 1/2 dB, ratio 2 and a hard knee, unit gains, on one
channel. -/
def processorCompressing (K : Type) [LinearOrderedField K] (linked : Bool) :
    DynamicsProcessor K :=
  { type := DynamicsType.compressor, threshold := 1 / 2, ratio := 2, kneeWidth := 0,
    inputGain := 1, outputGain := 1, channelsLinked := linked, channels := 1 }

/-- Compressor with threshold -10 dB, ratio 4 and a hard knee. -/
def compressorHard : Dynamics ℚ :=
  { type := DynamicsType.compressor, threshold := -10, ratio := 4, kneeWidth := 0 }

/-- Limiter with threshold 0 dB and a hard knee. -/
def limiterHard : Dynamics ℚ :=
  { type := DynamicsType.limiter, threshold := 0, ratio := 4, kneeWidth := 0 }

/-- Limiter with threshold 0 dB and a 6 dB knee. -/
def limiterSoft : Dynamics ℚ :=
  { type := DynamicsType.limiter, threshold := 0, ratio := 4, kneeWidth := 6 }

/-- Gate with threshold -40 dB and a hard knee. -/
def gateHard : Dynamics ℚ :=
  { type := DynamicsType.gate, threshold := -40, ratio := 4, kneeWidth := 0 }

/-- Compressor with threshold -10 dB, ratio 4 and a 6 dB knee (edges -13 and -7). -/
def compressorSoft (K : Type) [LinearOrderedField K] : Dynamics K :=
  { type := DynamicsType.compressor, threshold := -10, ratio := 4, kneeWidth := 6 }

/-- Expander with threshold -40 dB, ratio 2 and a 10 dB knee (edges -45 and -35). -/
def expanderSoft (K : Type) [LinearOrderedField K] : Dynamics K :=
  { type := DynamicsType.expander, threshold := -40, ratio := 2, kneeWidth := 10 }

/-- Gate with threshold -40 dB and a 10 dB knee (edges -45 and -35). -/
def gateSoft (K : Type) [LinearOrderedField K] : Dynamics K :=
  { type := DynamicsType.gate, threshold := -40, ratio := 4, kneeWidth := 10 }

/-- A detector in peak mode with linear output at 4 samples per second: envelope
1/2, attack coefficient 1/2, release coefficient 3/4, hold time 1 s of which 1/2 s
remain. -/
def detectorHolding : EnvelopeDetector ℚ :=
  { sampleRate := 4, envelope := 1 / 2, attackTime := 1 / 2, releaseTime := 3 / 4,
    holdTime := 1, holdRemaining := 1 / 2, analogTC := false, logDetector := false,
    mode := Mode.peak }

/-- A detector with logarithmic output in peak mode whose hold is active: envelope
`e`, hold time 1 s of which 1/2 s remain, 4 samples per second. -/
def detectorLog (K : Type) [LinearOrderedField K] (e : K) : EnvelopeDetector K :=
  { sampleRate := 4, envelope := e, attackTime := 1 / 2, releaseTime := 3 / 4,
    holdTime := 1, holdRemaining := 1 / 2, analogTC := false, logDetector := true,
    mode := Mode.peak }

/-- A detector at 1 sample per second with the given time-constant flag. -/
def detectorUnit (K : Type) [LinearOrderedField K] (analog : Bool) : EnvelopeDetector K :=
  { sampleRate := 1, envelope := 0, attackTime := 0, releaseTime := 0,
    holdTime := 0, holdRemaining := 0, analogTC := analog, logDetector := false,
    mode := Mode.peak }

/-! ## Binary32 model of `EnvelopeDetector`

The envelope detector once more, with its `float` members as IEEE 754 binary32 values:
every arithmetic operation rounds to nearest (ties to even), overflows to an infinity
and propagates NaN. -/

/-- An IEEE 754 binary format: `prec` stored significand bits, smallest normal exponent
`emin`, and overflow at magnitude `2 ^ emax`. -/
structure Format where
  prec : ℕ
  emin : ℤ
  emax : ℕ

/-- The format of a C++ `float`. -/
def binary32 : Format := ⟨23, -126, 128⟩

/-- The format of a C++ `double`. -/
def binary64 : Format := ⟨52, -1022, 1024⟩

/-- The values of a C++ `float` or `double`: a finite value, an infinity with its
sign, or a NaN.  The two zeros are not told apart. -/
inductive FloatingPoint (K : Type) where
  | fin (q : K)
  | inf (negative : Bool)
  | nan

namespace FloatingPoint

variable {K : Type} [LinearOrderedField K] [FloorRing K]

/-- The binary exponent of the binade of `x`, not below the smallest normal exponent
(zero is placed with the subnormal values). -/
def exponent (f : Format) (x : K) : ℤ :=
  if x = 0 then f.emin else max (Int.log 2 |x|) f.emin

/-- The spacing of the values of the format in the binade of `x`. -/
def ulp (f : Format) (x : K) : K := (2 : K) ^ (exponent f x - f.prec)

/-- Rounding to the nearest integer, ties to the even one. -/
def roundHalfEven (r : K) : ℤ :=
  if r - ⌊r⌋ < 1 / 2 then ⌊r⌋
  else if 1 / 2 < r - ⌊r⌋ then ⌊r⌋ + 1
  else if ⌊r⌋ % 2 = 0 then ⌊r⌋ else ⌊r⌋ + 1

/-- The value of the format nearest to `x` (ties to even), exponent range unbounded
above. -/
def nearest (f : Format) (x : K) : K := (roundHalfEven (x / ulp f x) : K) * ulp f x

/-- Rounding of an exact result to the format: to the nearest value, ties to even, and
to an infinity when the rounded magnitude reaches `2 ^ emax`. -/
def roundTo (f : Format) (x : K) : FloatingPoint K :=
  if (2 : K) ^ f.emax ≤ |nearest f x| then inf (decide (x < 0)) else fin (nearest f x)

/-- The number `x` is a finite value of the format: rounding leaves it as it is. -/
def Representable (f : Format) (x : K) : Prop := roundTo f x = fin x

/-- The number `y` is an integer multiple of the smallest positive value of the
format. -/
def OnGrid (f : Format) (y : K) : Prop := ∃ m : ℤ, y = m * (2 : K) ^ (f.emin - f.prec)

/-- Conversion to the format `f`, as in `float (sampleRate)` and `(float) std::exp (..)`. -/
def convert (f : Format) : FloatingPoint K → FloatingPoint K
  | fin q => roundTo f q
  | inf s => inf s
  | nan => nan

/-- Negation. -/
def fneg : FloatingPoint K → FloatingPoint K
  | fin q => fin (-q)
  | inf s => inf (!s)
  | nan => nan

/-- `std::fabs`. -/
def fabs : FloatingPoint K → FloatingPoint K
  | fin q => fin |q|
  | inf _ => inf false
  | nan => nan

/-- Addition in the format `f`. -/
def fadd (f : Format) : FloatingPoint K → FloatingPoint K → FloatingPoint K
  | fin a, fin b => roundTo f (a + b)
  | fin _, inf s => inf s
  | inf s, fin _ => inf s
  | inf s, inf t => if s = t then inf s else nan
  | nan, _ => nan
  | _, nan => nan

/-- Subtraction in the format `f`. -/
def fsub (f : Format) (a b : FloatingPoint K) : FloatingPoint K := fadd f a (fneg b)

/-- Multiplication in the format `f`. -/
def fmul (f : Format) : FloatingPoint K → FloatingPoint K → FloatingPoint K
  | fin a, fin b => roundTo f (a * b)
  | fin a, inf s => if a = 0 then nan else inf (xor (decide (a < 0)) s)
  | inf s, fin b => if b = 0 then nan else inf (xor s (decide (b < 0)))
  | inf s, inf t => inf (xor s t)
  | nan, _ => nan
  | _, nan => nan

/-- Division in the format `f` (a finite nonzero value divided by zero gives an
infinity with the sign of the dividend). -/
def fdiv (f : Format) : FloatingPoint K → FloatingPoint K → FloatingPoint K
  | fin a, fin b =>
    if b = 0 then (if a = 0 then nan else inf (decide (a < 0))) else roundTo f (a / b)
  | fin _, inf _ => fin 0
  | inf s, fin b => inf (xor s (decide (b < 0)))
  | inf _, inf _ => nan
  | nan, _ => nan
  | _, nan => nan

/-- The comparison `a < b`; it is false when an operand is a NaN. -/
def flt : FloatingPoint K → FloatingPoint K → Bool
  | fin a, fin b => decide (a < b)
  | fin _, inf s => !s
  | inf s, fin _ => s
  | inf s, inf t => s && !t
  | nan, _ => false
  | _, nan => false

/-- `std::max (a, b)`, which is `(a < b) ? b : a`. -/
def fmax (a b : FloatingPoint K) : FloatingPoint K := if flt a b then b else a

/-- The comparison `a == 0.0f`. -/
def isZero : FloatingPoint K → Bool
  | fin q => decide (q = 0)
  | _ => false

end FloatingPoint

/-- The state of an `EnvelopeDetector` with its `float` members as binary32 values and
`sampleRate` as a `double`. -/
structure EnvelopeDetector32 (K : Type) where
  sampleRate : FloatingPoint K
  envelope : FloatingPoint K
  attackTime : FloatingPoint K
  releaseTime : FloatingPoint K
  holdTime : FloatingPoint K
  holdRemaining : FloatingPoint K
  analogTC : Bool
  logDetector : Bool
  mode : Mode

namespace EnvelopeDetector32

open FloatingPoint

variable {K : Type} [LinearOrderedField K] [FloorRing K]

/-- The `switch (mode)` of `EnvelopeDetector::process` (lines 41-46) in binary32.
`powHalf` stands for `std::pow (·, 0.5f)`. -/
def rectify (powHalf : FloatingPoint K → FloatingPoint K) (mode : Mode)
    (input : FloatingPoint K) : FloatingPoint K :=
  match mode with
  | Mode.peak => fabs input
  | Mode.ms => fmul binary32 (fabs input) (fabs input)
  | Mode.rms => powHalf (fmul binary32 (fabs input) (fabs input))

/-- The attack / hold / release update of `EnvelopeDetector::process` (lines 48-60) in
binary32, every operation rounded on its own. -/
def ballistics (s : EnvelopeDetector32 K) (input : FloatingPoint K) : EnvelopeDetector32 K :=
  if flt s.envelope input then
    { s with envelope := fadd binary32 (fmul binary32 s.attackTime
                           (fsub binary32 s.envelope input)) input
             holdRemaining := s.holdTime }
  else if flt (fin 0) s.holdTime ∧ flt (fin 0) s.holdRemaining then
    { s with holdRemaining := fsub binary32 s.holdRemaining
                                (fdiv binary32 (fin 1) (convert binary32 s.sampleRate)) }
  else
    { s with envelope := fadd binary32 (fmul binary32 s.releaseTime
                           (fsub binary32 s.envelope input)) input }

/-- `EnvelopeDetector::process` (lines 39-73) in binary32. -/
def process (powHalf gainToDecibels : FloatingPoint K → FloatingPoint K)
    (s : EnvelopeDetector32 K) (input : FloatingPoint K) :
    EnvelopeDetector32 K × FloatingPoint K :=
  let input := rectify powHalf s.mode input
  let s1 := s.ballistics input
  let s2 := { s1 with envelope := fmax (fin 0) s1.envelope }
  if s2.logDetector then
    if isZero s2.envelope then
      (s2, fin (-100))
    else
      (s2, gainToDecibels s2.envelope)
  else
    (s2, s2.envelope)

/-- The detector state after `process` has been called on each sample of `inputs`. -/
def processAll (powHalf gainToDecibels : FloatingPoint K → FloatingPoint K)
    (s : EnvelopeDetector32 K) (inputs : List (FloatingPoint K)) : EnvelopeDetector32 K :=
  inputs.foldl (fun t x => (t.process powHalf gainToDecibels x).1) s

/-- The value of the `float` constant `ANALOG_TC` (line 4): the binary32 value nearest
to the decimal literal. -/
def ANALOG_TC : K := -(14607383 / 33554432)

/-- The value of the `float` constant `DIGITAL_TC` (line 3). -/
def DIGITAL_TC : K := -2

/-- `EnvelopeDetector::setAttackTime` (lines 23-29).  The `float` argument and constant
are promoted to `double`, the product, the quotient and `std::exp` (here `exp`) are
`double` operations, and the result is cast to `float`. -/
def setAttackTime (exp : FloatingPoint K → FloatingPoint K) (s : EnvelopeDetector32 K)
    (attackS : FloatingPoint K) : EnvelopeDetector32 K :=
  if s.analogTC then
    { s with attackTime :=
        convert binary32 (exp (fdiv binary64 (fin ANALOG_TC)
          (fmul binary64 attackS s.sampleRate))) }
  else
    { s with attackTime :=
        convert binary32 (exp (fdiv binary64 (fin DIGITAL_TC)
          (fmul binary64 attackS s.sampleRate))) }

/-- `EnvelopeDetector::setReleaseTime` (lines 31-37), with the same conversions. -/
def setReleaseTime (exp : FloatingPoint K → FloatingPoint K) (s : EnvelopeDetector32 K)
    (releaseS : FloatingPoint K) : EnvelopeDetector32 K :=
  if s.analogTC then
    { s with releaseTime :=
        convert binary32 (exp (fdiv binary64 (fin ANALOG_TC)
          (fmul binary64 releaseS s.sampleRate))) }
  else
    { s with releaseTime :=
        convert binary32 (exp (fdiv binary64 (fin DIGITAL_TC)
          (fmul binary64 releaseS s.sampleRate))) }

end EnvelopeDetector32

/-- The hold countdown `holdRemaining` after `k` hold steps that start from `h`, each
of them subtracting the sample period `δ` in binary32 (line 55). -/
def holdCountdown {K : Type} [LinearOrderedField K] [FloorRing K] (δ h : K) : ℕ → K
  | 0 => h
  | k + 1 => FloatingPoint.nearest binary32 (holdCountdown δ h k - δ)

/-- A stand-in for `std::exp` on `double` values with the properties of the
exponential function that matter for a decay coefficient: `1 / (1 - y)` lies in
`(0, 1]` for `y ≤ 0`, and the value at `-inf` is 0. -/
def expStandIn : FloatingPoint ℚ → FloatingPoint ℚ
  | FloatingPoint.fin y => FloatingPoint.fin (if y ≤ 0 then 1 / (1 - y) else 1 + y)
  | FloatingPoint.inf s => if s then FloatingPoint.fin 0 else FloatingPoint.inf false
  | FloatingPoint.nan => FloatingPoint.nan

/-- A binary32 detector with linear output whose attack and release coefficients are
1/2 and whose hold countdown is fully loaded. -/
def detector32 (K : Type) [LinearOrderedField K] (mode : Mode) (analog : Bool)
    (sampleRate envelope holdTime : K) : EnvelopeDetector32 K :=
  { sampleRate := FloatingPoint.fin sampleRate, envelope := FloatingPoint.fin envelope,
    attackTime := FloatingPoint.fin (1 / 2), releaseTime := FloatingPoint.fin (1 / 2),
    holdTime := FloatingPoint.fin holdTime, holdRemaining := FloatingPoint.fin holdTime,
    analogTC := analog, logDetector := false, mode := mode }

/-! ## Theorems -/

section CurveTheorems

variable {K : Type} [LinearOrderedField K]

/-- C1. Compressor with a hard knee (`kneeWidth = 0`, `ratio > 0`): above the
threshold `calcCurve in = threshold + (in - threshold) / ratio`, and at or below
the threshold the input is returned unchanged. -/
theorem calcCurve_compressor_hard_knee (d : Dynamics K)
    (htype : d.type = DynamicsType.compressor) (_hratio : 0 < d.ratio)
    (hknee : d.kneeWidth = 0) (dbIn : K) :
    (d.threshold < dbIn →
        d.calcCurve dbIn = d.threshold + (dbIn - d.threshold) / d.ratio)
      ∧ (dbIn ≤ d.threshold → d.calcCurve dbIn = dbIn) := by
  constructor
  · intro h
    simp [Dynamics.calcCurve, htype, hknee, h]
  · intro h
    simp [Dynamics.calcCurve, htype, hknee, not_lt.mpr h]

/-- Witness for C1: threshold -10, ratio 4, hard knee; -5 dB maps to -8.75 dB and
-20 dB is unchanged. -/
theorem calcCurve_compressor_hard_knee_witness :
    compressorHard.calcCurve (-5) = -875 / 100
      ∧ compressorHard.calcCurve (-20) = -20 := by
  refine ⟨?_, ?_⟩
  · have h := (calcCurve_compressor_hard_knee compressorHard rfl
      (by norm_num [compressorHard]) rfl (-5)).1 (by norm_num [compressorHard])
    rw [h]; norm_num [compressorHard]
  · exact (calcCurve_compressor_hard_knee compressorHard rfl
      (by norm_num [compressorHard]) rfl (-20)).2 (by norm_num [compressorHard])

/-- C2. Limiter ceiling: for `kneeWidth ≥ 0` every input above
`threshold + kneeWidth / 2` is mapped to exactly `threshold`; with `kneeWidth = 0`
every input above the threshold is mapped to the threshold and every input at or
below it is returned unchanged. -/
theorem calcCurve_limiter_ceiling (d : Dynamics K)
    (htype : d.type = DynamicsType.limiter) (_hknee : 0 ≤ d.kneeWidth) (dbIn : K) :
    (d.threshold + d.kneeWidth / 2 < dbIn → d.calcCurve dbIn = d.threshold)
      ∧ (d.kneeWidth = 0 →
          (d.threshold < dbIn → d.calcCurve dbIn = d.threshold)
            ∧ (dbIn ≤ d.threshold → d.calcCurve dbIn = dbIn)) := by
  refine ⟨?_, ?_⟩
  · intro h
    have hnot : ¬ (d.kneeWidth > 0 ∧ dbIn ≥ d.threshold - d.kneeWidth / 2
        ∧ dbIn ≤ d.threshold + d.kneeWidth / 2) := fun hk => absurd h (not_lt.mpr hk.2.2)
    simp only [Dynamics.calcCurve, htype, if_neg hnot]
    exact if_pos h
  · intro h0
    constructor
    · intro h
      simp [Dynamics.calcCurve, htype, h0, h]
    · intro h
      simp [Dynamics.calcCurve, htype, h0, not_lt.mpr h]

/-- Witness for C2: threshold 0 with a hard knee sends every positive input to 0
and leaves -3 dB alone; with a 6 dB knee, 4 dB (above the knee) is sent to 0. -/
theorem calcCurve_limiter_ceiling_witness :
    (∀ x : ℚ, 0 < x → limiterHard.calcCurve x = 0)
      ∧ limiterHard.calcCurve 7 = 0
      ∧ limiterHard.calcCurve (-3) = -3
      ∧ limiterSoft.calcCurve 4 = 0 := by
  refine ⟨fun x hx => ?_, ?_, ?_, ?_⟩
  · exact ((calcCurve_limiter_ceiling limiterHard rfl (le_refl _) x).2 rfl).1 hx
  · exact ((calcCurve_limiter_ceiling limiterHard rfl (le_refl _) 7).2 rfl).1
      (by norm_num [limiterHard])
  · exact ((calcCurve_limiter_ceiling limiterHard rfl (le_refl _) (-3)).2 rfl).2
      (by norm_num [limiterHard])
  · exact (calcCurve_limiter_ceiling limiterSoft rfl (by norm_num [limiterSoft]) 4).1
      (by norm_num [limiterSoft])

/-- C3. Gate with a hard knee (`kneeWidth = 0`): every input below the threshold is
mapped to -1000, every input at or above the threshold is returned unchanged, and
the result does not depend on `ratio`. -/
theorem calcCurve_gate_hard_knee (d : Dynamics K)
    (htype : d.type = DynamicsType.gate) (hknee : d.kneeWidth = 0) (dbIn : K) :
    (dbIn < d.threshold → d.calcCurve dbIn = -1000)
      ∧ (d.threshold ≤ dbIn → d.calcCurve dbIn = dbIn)
      ∧ (∀ r : K, Dynamics.calcCurve { d with ratio := r } dbIn = d.calcCurve dbIn) := by
  refine ⟨?_, ?_, ?_⟩
  · intro h
    simp [Dynamics.calcCurve, htype, hknee, h]
  · intro h
    simp [Dynamics.calcCurve, htype, hknee, not_lt.mpr h]
  · intro r
    simp [Dynamics.calcCurve, htype]

/-- Witness for C3: threshold -40 with a hard knee sends -60 dB to -1000 dB and
leaves -20 dB alone. -/
theorem calcCurve_gate_hard_knee_witness :
    gateHard.calcCurve (-60) = -1000 ∧ gateHard.calcCurve (-20) = -20 :=
  ⟨(calcCurve_gate_hard_knee gateHard rfl rfl (-60)).1 (by norm_num [gateHard]),
   (calcCurve_gate_hard_knee gateHard rfl rfl (-20)).2.1 (by norm_num [gateHard])⟩

/-- C4. Expander regions, for `kneeWidth ≥ 0` and `half = kneeWidth / 2`: strictly
below the lower knee edge `calcCurve in = threshold + (in - threshold) * ratio`, at or
above the upper knee edge `calcCurve in = in`; and although the code compares against
the upper edge, the linear branch is selected for exactly the inputs below the lower
edge, so the curve equals the one written with the lower-edge comparison. -/
theorem calcCurve_expander_regions (d : Dynamics K)
    (htype : d.type = DynamicsType.expander) (hknee : 0 ≤ d.kneeWidth) (dbIn : K) :
    (dbIn < d.threshold - d.kneeWidth / 2 →
        d.calcCurve dbIn = d.threshold + (dbIn - d.threshold) * d.ratio)
      ∧ (d.threshold + d.kneeWidth / 2 ≤ dbIn → d.calcCurve dbIn = dbIn)
      ∧ ((¬ (d.kneeWidth > 0 ∧ dbIn ≥ d.threshold - d.kneeWidth / 2
              ∧ dbIn ≤ d.threshold + d.kneeWidth / 2)
            ∧ dbIn < d.threshold + d.kneeWidth / 2)
          ↔ dbIn < d.threshold - d.kneeWidth / 2)
      ∧ d.calcCurve dbIn = expanderLowerEdgeCurve d dbIn := by
  have hhalf : 0 ≤ d.kneeWidth / 2 := by positivity
  have hsel : (¬ (d.kneeWidth > 0 ∧ dbIn ≥ d.threshold - d.kneeWidth / 2
              ∧ dbIn ≤ d.threshold + d.kneeWidth / 2)
            ∧ dbIn < d.threshold + d.kneeWidth / 2)
          ↔ dbIn < d.threshold - d.kneeWidth / 2 := by
    constructor
    · rintro ⟨hnk, hlt⟩
      rcases hknee.lt_or_eq with hpos | hzero
      · by_contra hge
        exact hnk ⟨hpos, not_lt.mp hge, hlt.le⟩
      · rw [← hzero] at hlt ⊢
        simpa using hlt
    · intro hlt
      exact ⟨fun hk => absurd hlt (not_lt.mpr hk.2.1), by linarith⟩
  refine ⟨?_, ?_, hsel, ?_⟩
  · intro h
    have hk := (hsel.mpr h)
    simp only [Dynamics.calcCurve, htype, if_neg hk.1]
    exact if_pos hk.2
  · intro h
    by_cases hk : d.kneeWidth > 0 ∧ dbIn ≥ d.threshold - d.kneeWidth / 2
              ∧ dbIn ≤ d.threshold + d.kneeWidth / 2
    · have heq : dbIn = d.threshold + d.kneeWidth / 2 := le_antisymm hk.2.2 h
      simp only [Dynamics.calcCurve, htype, if_pos hk]
      have hz : dbIn - d.threshold - d.kneeWidth / 2 = 0 := by rw [heq]; ring
      rw [hz]; simp
    · simp only [Dynamics.calcCurve, htype, if_neg hk]
      exact if_neg (not_lt.mpr h)
  · by_cases hk : d.kneeWidth > 0 ∧ dbIn ≥ d.threshold - d.kneeWidth / 2
              ∧ dbIn ≤ d.threshold + d.kneeWidth / 2
    · simp only [Dynamics.calcCurve, expanderLowerEdgeCurve, htype, if_pos hk]
    · simp only [Dynamics.calcCurve, expanderLowerEdgeCurve, htype, if_neg hk]
      by_cases hlt : dbIn < d.threshold + d.kneeWidth / 2
      · rw [if_pos hlt, if_pos (hsel.mp ⟨hk, hlt⟩)]
      · rw [if_neg hlt, if_neg (fun h => hlt (hsel.mpr h).2)]

/-- Witness for C4: threshold -40, ratio 2, 10 dB knee; -50 dB (below the knee) maps
to -60 dB and -30 dB (above the knee) is unchanged. -/
theorem calcCurve_expander_regions_witness :
    (expanderSoft ℚ).calcCurve (-50) = -60 ∧ (expanderSoft ℚ).calcCurve (-30) = -30 := by
  refine ⟨?_, ?_⟩
  · have h := (calcCurve_expander_regions (expanderSoft ℚ) rfl
      (by norm_num [expanderSoft]) (-50)).1 (by norm_num [expanderSoft])
    rw [h]; norm_num [expanderSoft]
  · exact (calcCurve_expander_regions (expanderSoft ℚ) rfl
      (by norm_num [expanderSoft]) (-30)).2.1 (by norm_num [expanderSoft])

end CurveTheorems

/-! ### Knee edges: values, slopes and continuity over the reals -/

section KneeTheorems

/-- Two differentiable pieces `g₁` (left of `a`) and `g₂` (right of `a`) that agree
with `f` near `a` and have the same slope at `a` make `f` differentiable at `a`. -/
theorem hasDerivAt_of_glue {f g₁ g₂ u v : ℝ → ℝ} {a lo hi : ℝ}
    (hlo : lo < a) (hhi : a < hi)
    (hl : ∀ x, lo < x → x ≤ a → f x = g₁ x)
    (hr : ∀ x, a ≤ x → x < hi → f x = g₂ x)
    (h1 : ∀ x, HasDerivAt g₁ (u x) x) (h2 : ∀ x, HasDerivAt g₂ (v x) x)
    (hd : u a = v a) :
    HasDerivAt f (u a) a := by
  have evl : ∀ᶠ x in 𝓝[Iic a] a, f x = g₁ x := by
    filter_upwards [mem_nhdsWithin_of_mem_nhds (Ioi_mem_nhds hlo), self_mem_nhdsWithin]
      with x hx1 hx2 using hl x hx1 hx2
  have evr : ∀ᶠ x in 𝓝[Ici a] a, f x = g₂ x := by
    filter_upwards [mem_nhdsWithin_of_mem_nhds (Iio_mem_nhds hhi), self_mem_nhdsWithin]
      with x hx1 hx2 using hr x hx2 hx1
  have L : HasDerivWithinAt f (u a) (Iic a) a :=
    (h1 a).hasDerivWithinAt.congr_of_eventuallyEq evl (hl a hlo le_rfl)
  have R : HasDerivWithinAt f (u a) (Ici a) a := by
    rw [hd]
    exact (h2 a).hasDerivWithinAt.congr_of_eventuallyEq evr (hr a le_rfl hhi)
  have U := L.union R
  rw [Iic_union_Ici] at U
  exact hasDerivWithinAt_univ.mp U

/-- In the situation of `hasDerivAt_of_glue`, with continuous slope functions, the
derivative of `f` is continuous at `a`. -/
theorem deriv_continuousAt_of_glue {f g₁ g₂ u v : ℝ → ℝ} {a lo hi : ℝ}
    (hlo : lo < a) (hhi : a < hi)
    (hl : ∀ x, lo < x → x ≤ a → f x = g₁ x)
    (hr : ∀ x, a ≤ x → x < hi → f x = g₂ x)
    (h1 : ∀ x, HasDerivAt g₁ (u x) x) (h2 : ∀ x, HasDerivAt g₂ (v x) x)
    (hd : u a = v a) (c1 : Continuous u) (c2 : Continuous v) :
    ContinuousAt (deriv f) a := by
  have hG : Continuous (fun x => if x ≤ a then u x else v x) :=
    Continuous.if_le c1 c2 continuous_id continuous_const
      (fun x hx => by have hxa : x = a := hx; rw [hxa]; exact hd)
  have hev : (fun x => if x ≤ a then u x else v x) =ᶠ[𝓝 a] deriv f := by
    filter_upwards [Ioo_mem_nhds hlo hhi] with x hx
    rcases lt_trichotomy x a with hxa | hxa | hxa
    · have e : f =ᶠ[𝓝 x] g₁ := by
        filter_upwards [Ioo_mem_nhds hx.1 hxa] with y hy using hl y hy.1 hy.2.le
      rw [if_pos hxa.le, e.deriv_eq, (h1 x).deriv]
    · subst hxa
      rw [if_pos le_rfl, (hasDerivAt_of_glue hlo hhi hl hr h1 h2 hd).deriv]
    · have e : f =ᶠ[𝓝 x] g₂ := by
        filter_upwards [Ioo_mem_nhds hxa hx.2] with y hy using hr y hy.1.le hy.2
      rw [if_neg (not_le.mpr hxa), e.deriv_eq, (h2 x).deriv]
  exact hG.continuousAt.congr hev

/-- The derivative of a quadratic knee blend `y + c (y - s)² / (2 w)`. -/
theorem hasDerivAt_quad (c s w x : ℝ) :
    HasDerivAt (fun y => y + c * (y - s) ^ 2 / (2 * w)) (1 + c * (2 * (x - s)) / (2 * w)) x := by
  have h1 : HasDerivAt (fun y => (y - s) ^ 2) (2 * (x - s)) x := by
    have := ((hasDerivAt_id x).sub_const s).pow 2
    simpa using this
  exact (hasDerivAt_id x).add ((h1.const_mul c).div_const (2 * w))

/-- The derivative of a straight segment `t + (y - t) m`. -/
theorem hasDerivAt_line (t m x : ℝ) :
    HasDerivAt (fun y => t + (y - t) * m) m x := by
  have := (((hasDerivAt_id x).sub_const t).mul_const m).const_add t
  simpa using this

/-- The slope of a quadratic knee blend is continuous. -/
theorem continuous_quad_deriv (c s w : ℝ) :
    Continuous (fun x : ℝ => 1 + c * (2 * (x - s)) / (2 * w)) := by
  fun_prop

/-- Compressor, soft knee: below the knee the input is returned unchanged. -/
theorem compressor_below (d : Dynamics ℝ) (htype : d.type = DynamicsType.compressor)
    (x : ℝ) (hx : x < d.threshold - d.kneeWidth / 2) (hk : 0 < d.kneeWidth) :
    d.calcCurve x = d.threshold + (x - d.threshold) * 1 := by
  have h1 : ¬ (d.kneeWidth > 0 ∧ x ≥ d.threshold - d.kneeWidth / 2
      ∧ x ≤ d.threshold + d.kneeWidth / 2) := fun h => absurd hx (not_lt.mpr h.2.1)
  have h2 : ¬ x > d.threshold + d.kneeWidth / 2 := by
    have : 0 < d.kneeWidth / 2 := by positivity
    exact not_lt.mpr (by linarith)
  simp only [Dynamics.calcCurve, htype, if_neg h1, if_neg h2]
  ring

/-- Compressor, soft knee: the quadratic blend on the closed knee window. -/
theorem compressor_knee (d : Dynamics ℝ) (htype : d.type = DynamicsType.compressor)
    (x : ℝ) (hk : 0 < d.kneeWidth) (h1 : d.threshold - d.kneeWidth / 2 ≤ x)
    (h2 : x ≤ d.threshold + d.kneeWidth / 2) :
    d.calcCurve x
      = x + (1 / d.ratio - 1) * (x - (d.threshold - d.kneeWidth / 2)) ^ 2
          / (2 * d.kneeWidth) := by
  have h : d.kneeWidth > 0 ∧ x ≥ d.threshold - d.kneeWidth / 2
      ∧ x ≤ d.threshold + d.kneeWidth / 2 := ⟨hk, h1, h2⟩
  simp only [Dynamics.calcCurve, htype, if_pos h]
  ring

/-- Compressor: the compressed line above the knee. -/
theorem compressor_above (d : Dynamics ℝ) (htype : d.type = DynamicsType.compressor)
    (x : ℝ) (hx : d.threshold + d.kneeWidth / 2 < x) :
    d.calcCurve x = d.threshold + (x - d.threshold) * (1 / d.ratio) := by
  have h1 : ¬ (d.kneeWidth > 0 ∧ x ≥ d.threshold - d.kneeWidth / 2
      ∧ x ≤ d.threshold + d.kneeWidth / 2) := fun h => absurd hx (not_lt.mpr h.2.2)
  simp only [Dynamics.calcCurve, htype, if_neg h1]
  rw [if_pos hx]
  ring

/-- C5. Compressor knee continuity (`ratio > 0`, `kneeWidth > 0`): at the lower knee
edge `threshold - kneeWidth / 2` the curve takes the value of the unchanged input, is
continuous, has slope 1 and a continuous derivative; at the upper knee edge
`threshold + kneeWidth / 2` it takes the value of the compressed line
`threshold + (in - threshold) / ratio`, is continuous, has slope `1 / ratio` and a
continuous derivative. -/
theorem calcCurve_compressor_knee_smooth (d : Dynamics ℝ)
    (htype : d.type = DynamicsType.compressor) (hratio : 0 < d.ratio)
    (hknee : 0 < d.kneeWidth) :
    (d.calcCurve (d.threshold - d.kneeWidth / 2) = d.threshold - d.kneeWidth / 2
      ∧ ContinuousAt d.calcCurve (d.threshold - d.kneeWidth / 2)
      ∧ HasDerivAt d.calcCurve 1 (d.threshold - d.kneeWidth / 2)
      ∧ ContinuousAt (deriv d.calcCurve) (d.threshold - d.kneeWidth / 2))
    ∧ (d.calcCurve (d.threshold + d.kneeWidth / 2)
          = d.threshold + (d.threshold + d.kneeWidth / 2 - d.threshold) / d.ratio
      ∧ ContinuousAt d.calcCurve (d.threshold + d.kneeWidth / 2)
      ∧ HasDerivAt d.calcCurve (1 / d.ratio) (d.threshold + d.kneeWidth / 2)
      ∧ ContinuousAt (deriv d.calcCurve) (d.threshold + d.kneeWidth / 2)) := by
  have hw : d.kneeWidth ≠ 0 := hknee.ne'
  have hr : d.ratio ≠ 0 := hratio.ne'
  have hlohi : d.threshold - d.kneeWidth / 2 < d.threshold + d.kneeWidth / 2 := by linarith
  -- lower edge: identity below, knee above
  have hlL : ∀ x, d.threshold - d.kneeWidth / 2 - 1 < x → x ≤ d.threshold - d.kneeWidth / 2 →
      d.calcCurve x = d.threshold + (x - d.threshold) * 1 := by
    intro x _ hx
    rcases hx.lt_or_eq with hlt | heq
    · exact compressor_below d htype x hlt hknee
    · rw [compressor_knee d htype x hknee heq.ge (by linarith), heq]
      ring
  have hrL : ∀ x, d.threshold - d.kneeWidth / 2 ≤ x → x < d.threshold + d.kneeWidth / 2 →
      d.calcCurve x = x + (1 / d.ratio - 1) * (x - (d.threshold - d.kneeWidth / 2)) ^ 2
          / (2 * d.kneeWidth) :=
    fun x h1 h2 => compressor_knee d htype x hknee h1 h2.le
  have hdL : (fun _ : ℝ => (1 : ℝ)) (d.threshold - d.kneeWidth / 2)
      = (fun x : ℝ => 1 + (1 / d.ratio - 1) * (2 * (x - (d.threshold - d.kneeWidth / 2)))
          / (2 * d.kneeWidth)) (d.threshold - d.kneeWidth / 2) := by
    simp
  -- upper edge: knee below, line above
  have hlU : ∀ x, d.threshold - d.kneeWidth / 2 < x → x ≤ d.threshold + d.kneeWidth / 2 →
      d.calcCurve x = x + (1 / d.ratio - 1) * (x - (d.threshold - d.kneeWidth / 2)) ^ 2
          / (2 * d.kneeWidth) :=
    fun x h1 h2 => compressor_knee d htype x hknee h1.le h2
  have hrU : ∀ x, d.threshold + d.kneeWidth / 2 ≤ x → x < d.threshold + d.kneeWidth / 2 + 1 →
      d.calcCurve x = d.threshold + (x - d.threshold) * (1 / d.ratio) := by
    intro x hx _
    rcases hx.lt_or_eq with hlt | heq
    · exact compressor_above d htype x hlt
    · rw [compressor_knee d htype x hknee (by linarith) heq.ge, ← heq]
      field_simp
      ring
  have hdU : (fun x : ℝ => 1 + (1 / d.ratio - 1) * (2 * (x - (d.threshold - d.kneeWidth / 2)))
          / (2 * d.kneeWidth)) (d.threshold + d.kneeWidth / 2)
      = (fun _ : ℝ => 1 / d.ratio) (d.threshold + d.kneeWidth / 2) := by
    simp only
    field_simp
    ring
  have DL : HasDerivAt d.calcCurve 1 (d.threshold - d.kneeWidth / 2) :=
    hasDerivAt_of_glue (u := fun _ => 1) (by linarith) hlohi hlL hrL
      (fun x => hasDerivAt_line _ _ x) (fun x => hasDerivAt_quad _ _ _ x) hdL
  have DU : HasDerivAt d.calcCurve (1 / d.ratio) (d.threshold + d.kneeWidth / 2) := by
    have := hasDerivAt_of_glue (v := fun _ => 1 / d.ratio) hlohi (by linarith) hlU hrU
      (fun x => hasDerivAt_quad _ _ _ x) (fun x => hasDerivAt_line _ _ x) hdU
    exact this.congr_deriv hdU
  refine ⟨⟨?_, DL.continuousAt, DL, ?_⟩, ⟨?_, DU.continuousAt, DU, ?_⟩⟩
  · rw [hlL _ (by linarith) le_rfl]; ring
  · exact deriv_continuousAt_of_glue (u := fun _ => 1) (by linarith) hlohi hlL hrL
      (fun x => hasDerivAt_line _ _ x) (fun x => hasDerivAt_quad _ _ _ x) hdL
      continuous_const (continuous_quad_deriv _ _ _)
  · rw [hrU _ le_rfl (by linarith)]; ring
  · exact deriv_continuousAt_of_glue (v := fun _ => 1 / d.ratio) hlohi (by linarith) hlU hrU
      (fun x => hasDerivAt_quad _ _ _ x) (fun x => hasDerivAt_line _ _ x) hdU
      (continuous_quad_deriv _ _ _) continuous_const

/-- Witness for C5: threshold -10, ratio 4, 6 dB knee; slope 1 at the lower edge -13
and slope 1/4 at the upper edge -7, where the values are -13 and -37/4. -/
theorem calcCurve_compressor_knee_smooth_witness :
    HasDerivAt (compressorSoft ℝ).calcCurve 1 (-13)
      ∧ HasDerivAt (compressorSoft ℝ).calcCurve (1 / 4) (-7)
      ∧ (compressorSoft ℚ).calcCurve (-13) = -13
      ∧ (compressorSoft ℚ).calcCurve (-7) = -37 / 4 := by
  have h := calcCurve_compressor_knee_smooth (compressorSoft ℝ) rfl
    (by norm_num [compressorSoft]) (by norm_num [compressorSoft])
  have elo : (compressorSoft ℝ).threshold - (compressorSoft ℝ).kneeWidth / 2 = -13 := by
    norm_num [compressorSoft]
  have ehi : (compressorSoft ℝ).threshold + (compressorSoft ℝ).kneeWidth / 2 = -7 := by
    norm_num [compressorSoft]
  have er : (compressorSoft ℝ).ratio = 4 := rfl
  rw [elo, ehi, er] at h
  refine ⟨h.1.2.2.1, h.2.2.2.1, ?_, ?_⟩
  · norm_num [compressorSoft, Dynamics.calcCurve]
  · norm_num [compressorSoft, Dynamics.calcCurve]

/-- Expander, soft knee: the expanded line below the knee. -/
theorem expander_below (d : Dynamics ℝ) (htype : d.type = DynamicsType.expander)
    (x : ℝ) (hk : 0 < d.kneeWidth) (hx : x < d.threshold - d.kneeWidth / 2) :
    d.calcCurve x = d.threshold + (x - d.threshold) * d.ratio := by
  have h1 : ¬ (d.kneeWidth > 0 ∧ x ≥ d.threshold - d.kneeWidth / 2
      ∧ x ≤ d.threshold + d.kneeWidth / 2) := fun h => absurd hx (not_lt.mpr h.2.1)
  have h2 : x < d.threshold + d.kneeWidth / 2 := by linarith
  simp only [Dynamics.calcCurve, htype, if_neg h1, if_pos h2]

/-- Expander, soft knee: the quadratic blend on the closed knee window. -/
theorem expander_knee (d : Dynamics ℝ) (htype : d.type = DynamicsType.expander)
    (x : ℝ) (hk : 0 < d.kneeWidth) (h1 : d.threshold - d.kneeWidth / 2 ≤ x)
    (h2 : x ≤ d.threshold + d.kneeWidth / 2) :
    d.calcCurve x
      = x + (1 - d.ratio) * (x - (d.threshold + d.kneeWidth / 2)) ^ 2
          / (2 * d.kneeWidth) := by
  have h : d.kneeWidth > 0 ∧ x ≥ d.threshold - d.kneeWidth / 2
      ∧ x ≤ d.threshold + d.kneeWidth / 2 := ⟨hk, h1, h2⟩
  simp only [Dynamics.calcCurve, htype, if_pos h]
  ring

/-- Expander: above the knee the input is returned unchanged. -/
theorem expander_above (d : Dynamics ℝ) (htype : d.type = DynamicsType.expander)
    (x : ℝ) (hx : d.threshold + d.kneeWidth / 2 < x) :
    d.calcCurve x = d.threshold + (x - d.threshold) * 1 := by
  have h1 : ¬ (d.kneeWidth > 0 ∧ x ≥ d.threshold - d.kneeWidth / 2
      ∧ x ≤ d.threshold + d.kneeWidth / 2) := fun h => absurd hx (not_lt.mpr h.2.2)
  simp only [Dynamics.calcCurve, htype, if_neg h1, if_neg (not_lt.mpr hx.le)]
  ring

/-- C6. Expander knee continuity (`ratio > 0`, `kneeWidth > 0`): at the lower knee
edge `threshold - kneeWidth / 2` the curve takes the value of the expanded line
`threshold + (in - threshold) * ratio`, is continuous, has slope `ratio` and a
continuous derivative; at the upper knee edge `threshold + kneeWidth / 2` it takes the
value of the unchanged input, is continuous, has slope 1 and a continuous derivative. -/
theorem calcCurve_expander_knee_smooth (d : Dynamics ℝ)
    (htype : d.type = DynamicsType.expander) (_hratio : 0 < d.ratio)
    (hknee : 0 < d.kneeWidth) :
    (d.calcCurve (d.threshold - d.kneeWidth / 2)
          = d.threshold + (d.threshold - d.kneeWidth / 2 - d.threshold) * d.ratio
      ∧ ContinuousAt d.calcCurve (d.threshold - d.kneeWidth / 2)
      ∧ HasDerivAt d.calcCurve d.ratio (d.threshold - d.kneeWidth / 2)
      ∧ ContinuousAt (deriv d.calcCurve) (d.threshold - d.kneeWidth / 2))
    ∧ (d.calcCurve (d.threshold + d.kneeWidth / 2) = d.threshold + d.kneeWidth / 2
      ∧ ContinuousAt d.calcCurve (d.threshold + d.kneeWidth / 2)
      ∧ HasDerivAt d.calcCurve 1 (d.threshold + d.kneeWidth / 2)
      ∧ ContinuousAt (deriv d.calcCurve) (d.threshold + d.kneeWidth / 2)) := by
  have hw : d.kneeWidth ≠ 0 := hknee.ne'
  have hlohi : d.threshold - d.kneeWidth / 2 < d.threshold + d.kneeWidth / 2 := by linarith
  have hlL : ∀ x, d.threshold - d.kneeWidth / 2 - 1 < x → x ≤ d.threshold - d.kneeWidth / 2 →
      d.calcCurve x = d.threshold + (x - d.threshold) * d.ratio := by
    intro x _ hx
    rcases hx.lt_or_eq with hlt | heq
    · exact expander_below d htype x hknee hlt
    · rw [expander_knee d htype x hknee heq.ge (by linarith), heq]
      field_simp
      ring
  have hrL : ∀ x, d.threshold - d.kneeWidth / 2 ≤ x → x < d.threshold + d.kneeWidth / 2 →
      d.calcCurve x = x + (1 - d.ratio) * (x - (d.threshold + d.kneeWidth / 2)) ^ 2
          / (2 * d.kneeWidth) :=
    fun x h1 h2 => expander_knee d htype x hknee h1 h2.le
  have hdL : (fun _ : ℝ => d.ratio) (d.threshold - d.kneeWidth / 2)
      = (fun x : ℝ => 1 + (1 - d.ratio) * (2 * (x - (d.threshold + d.kneeWidth / 2)))
          / (2 * d.kneeWidth)) (d.threshold - d.kneeWidth / 2) := by
    simp only
    field_simp
    ring
  have hlU : ∀ x, d.threshold - d.kneeWidth / 2 < x → x ≤ d.threshold + d.kneeWidth / 2 →
      d.calcCurve x = x + (1 - d.ratio) * (x - (d.threshold + d.kneeWidth / 2)) ^ 2
          / (2 * d.kneeWidth) :=
    fun x h1 h2 => expander_knee d htype x hknee h1.le h2
  have hrU : ∀ x, d.threshold + d.kneeWidth / 2 ≤ x → x < d.threshold + d.kneeWidth / 2 + 1 →
      d.calcCurve x = d.threshold + (x - d.threshold) * 1 := by
    intro x hx _
    rcases hx.lt_or_eq with hlt | heq
    · exact expander_above d htype x hlt
    · rw [expander_knee d htype x hknee (by linarith) heq.ge, ← heq]
      ring
  have hdU : (fun x : ℝ => 1 + (1 - d.ratio) * (2 * (x - (d.threshold + d.kneeWidth / 2)))
          / (2 * d.kneeWidth)) (d.threshold + d.kneeWidth / 2)
      = (fun _ : ℝ => (1 : ℝ)) (d.threshold + d.kneeWidth / 2) := by
    simp
  have DL : HasDerivAt d.calcCurve d.ratio (d.threshold - d.kneeWidth / 2) :=
    hasDerivAt_of_glue (u := fun _ => d.ratio) (by linarith) hlohi hlL hrL
      (fun x => hasDerivAt_line _ _ x) (fun x => hasDerivAt_quad _ _ _ x) hdL
  have DU : HasDerivAt d.calcCurve 1 (d.threshold + d.kneeWidth / 2) := by
    have := hasDerivAt_of_glue (v := fun _ => 1) hlohi (by linarith) hlU hrU
      (fun x => hasDerivAt_quad _ _ _ x) (fun x => hasDerivAt_line _ _ x) hdU
    exact this.congr_deriv hdU
  refine ⟨⟨?_, DL.continuousAt, DL, ?_⟩, ⟨?_, DU.continuousAt, DU, ?_⟩⟩
  · rw [hlL _ (by linarith) le_rfl]
  · exact deriv_continuousAt_of_glue (u := fun _ => d.ratio) (by linarith) hlohi hlL hrL
      (fun x => hasDerivAt_line _ _ x) (fun x => hasDerivAt_quad _ _ _ x) hdL
      continuous_const (continuous_quad_deriv _ _ _)
  · rw [hrU _ le_rfl (by linarith)]; ring
  · exact deriv_continuousAt_of_glue (v := fun _ => 1) hlohi (by linarith) hlU hrU
      (fun x => hasDerivAt_quad _ _ _ x) (fun x => hasDerivAt_line _ _ x) hdU
      (continuous_quad_deriv _ _ _) continuous_const

/-- Witness for C6: threshold -40, ratio 2, 10 dB knee; slope 2 at the lower edge -45
and slope 1 at the upper edge -35, where the values are -50 and -35. -/
theorem calcCurve_expander_knee_smooth_witness :
    HasDerivAt (expanderSoft ℝ).calcCurve 2 (-45)
      ∧ HasDerivAt (expanderSoft ℝ).calcCurve 1 (-35)
      ∧ (expanderSoft ℚ).calcCurve (-45) = -50
      ∧ (expanderSoft ℚ).calcCurve (-35) = -35 := by
  have h := calcCurve_expander_knee_smooth (expanderSoft ℝ) rfl
    (by norm_num [expanderSoft]) (by norm_num [expanderSoft])
  have elo : (expanderSoft ℝ).threshold - (expanderSoft ℝ).kneeWidth / 2 = -45 := by
    norm_num [expanderSoft]
  have ehi : (expanderSoft ℝ).threshold + (expanderSoft ℝ).kneeWidth / 2 = -35 := by
    norm_num [expanderSoft]
  have er : (expanderSoft ℝ).ratio = 2 := rfl
  rw [elo, ehi, er] at h
  refine ⟨h.1.2.2.1, h.2.2.2.1, ?_, ?_⟩
  · norm_num [expanderSoft, Dynamics.calcCurve]
  · norm_num [expanderSoft, Dynamics.calcCurve]

/-- Gate: the floor -1000 strictly below the lower knee edge. -/
theorem gate_below (d : Dynamics ℝ) (htype : d.type = DynamicsType.gate)
    (x : ℝ) (hx : x < d.threshold - d.kneeWidth / 2) :
    d.calcCurve x = -1000 := by
  have h1 : ¬ (d.kneeWidth > 0 ∧ x ≥ d.threshold - d.kneeWidth / 2
      ∧ x ≤ d.threshold + d.kneeWidth / 2) := fun h => absurd hx (not_lt.mpr h.2.1)
  simp only [Dynamics.calcCurve, htype, if_neg h1, if_pos hx]

/-- Gate, soft knee: the quadratic blend (ratio 100) on the closed knee window. -/
theorem gate_knee (d : Dynamics ℝ) (htype : d.type = DynamicsType.gate)
    (x : ℝ) (hk : 0 < d.kneeWidth) (h1 : d.threshold - d.kneeWidth / 2 ≤ x)
    (h2 : x ≤ d.threshold + d.kneeWidth / 2) :
    d.calcCurve x
      = x + (-99) * (x - (d.threshold + d.kneeWidth / 2)) ^ 2 / (2 * d.kneeWidth) := by
  have h : d.kneeWidth > 0 ∧ x ≥ d.threshold - d.kneeWidth / 2
      ∧ x ≤ d.threshold + d.kneeWidth / 2 := ⟨hk, h1, h2⟩
  simp only [Dynamics.calcCurve, htype, if_pos h]
  ring

/-- Gate, soft knee: above the knee the input is returned unchanged. -/
theorem gate_above (d : Dynamics ℝ) (htype : d.type = DynamicsType.gate)
    (x : ℝ) (hk : 0 < d.kneeWidth) (hx : d.threshold + d.kneeWidth / 2 < x) :
    d.calcCurve x = d.threshold + (x - d.threshold) * 1 := by
  have h1 : ¬ (d.kneeWidth > 0 ∧ x ≥ d.threshold - d.kneeWidth / 2
      ∧ x ≤ d.threshold + d.kneeWidth / 2) := fun h => absurd hx (not_lt.mpr h.2.2)
  have h2 : ¬ x < d.threshold - d.kneeWidth / 2 := not_lt.mpr (by linarith)
  simp only [Dynamics.calcCurve, htype, if_neg h1, if_neg h2]
  ring

/-- Gate, soft knee: the value at the lower knee edge is `threshold - 50 kneeWidth`. -/
theorem gate_lower_edge_value (d : Dynamics ℝ) (htype : d.type = DynamicsType.gate)
    (hk : 0 < d.kneeWidth) :
    d.calcCurve (d.threshold - d.kneeWidth / 2) = d.threshold - 50 * d.kneeWidth := by
  rw [gate_knee d htype _ hk le_rfl (by linarith)]
  have hw : d.kneeWidth ≠ 0 := hk.ne'
  field_simp
  ring

/-- Gate: the limit of the curve from below the lower knee edge is -1000. -/
theorem gate_tendsto_below (d : Dynamics ℝ) (htype : d.type = DynamicsType.gate) :
    Tendsto d.calcCurve (𝓝[<] (d.threshold - d.kneeWidth / 2)) (𝓝 (-1000)) := by
  have hev : (fun _ : ℝ => (-1000 : ℝ)) =ᶠ[𝓝[<] (d.threshold - d.kneeWidth / 2)]
      d.calcCurve := by
    filter_upwards [self_mem_nhdsWithin] with x hx using (gate_below d htype x hx).symm
  exact tendsto_const_nhds.congr' hev

/-- Gate: continuity at the lower knee edge forces the value -1000 there. -/
theorem gate_continuousAt_lower_imp (d : Dynamics ℝ) (htype : d.type = DynamicsType.gate)
    (hc : ContinuousAt d.calcCurve (d.threshold - d.kneeWidth / 2)) :
    d.calcCurve (d.threshold - d.kneeWidth / 2) = -1000 :=
  tendsto_nhds_unique (hc.tendsto.mono_left nhdsWithin_le_nhds) (gate_tendsto_below d htype)

/-- Gate, soft knee: the slope from the right at the lower knee edge is 100. -/
theorem gate_hasDerivWithinAt_right (d : Dynamics ℝ) (htype : d.type = DynamicsType.gate)
    (hk : 0 < d.kneeWidth) :
    HasDerivWithinAt d.calcCurve 100 (Ici (d.threshold - d.kneeWidth / 2))
      (d.threshold - d.kneeWidth / 2) := by
  have hw : d.kneeWidth ≠ 0 := hk.ne'
  have hhi : d.threshold - d.kneeWidth / 2 < d.threshold + d.kneeWidth / 2 := by linarith
  have evr : ∀ᶠ x in 𝓝[Ici (d.threshold - d.kneeWidth / 2)] (d.threshold - d.kneeWidth / 2),
      d.calcCurve x
        = x + (-99) * (x - (d.threshold + d.kneeWidth / 2)) ^ 2 / (2 * d.kneeWidth) := by
    filter_upwards [mem_nhdsWithin_of_mem_nhds (Iio_mem_nhds hhi), self_mem_nhdsWithin]
      with x hx1 hx2 using gate_knee d htype x hk hx2 (le_of_lt hx1)
  have hq := (hasDerivAt_quad (-99) (d.threshold + d.kneeWidth / 2) d.kneeWidth
    (d.threshold - d.kneeWidth / 2)).hasDerivWithinAt (s := Ici (d.threshold - d.kneeWidth / 2))
  have h100 : 1 + (-99) * (2 * (d.threshold - d.kneeWidth / 2
      - (d.threshold + d.kneeWidth / 2))) / (2 * d.kneeWidth) = 100 := by
    field_simp
    ring
  rw [h100] at hq
  exact hq.congr_of_eventuallyEq evr (gate_knee d htype _ hk le_rfl hhi.le)

/-- Gate, soft knee: the curve is not differentiable at the lower knee edge. -/
theorem gate_not_differentiableAt_lower (d : Dynamics ℝ) (htype : d.type = DynamicsType.gate)
    (hk : 0 < d.kneeWidth) :
    ¬ DifferentiableAt ℝ d.calcCurve (d.threshold - d.kneeWidth / 2) := by
  intro hdiff
  have hval := gate_continuousAt_lower_imp d htype hdiff.continuousAt
  have hD := hdiff.hasDerivAt
  have hR := (uniqueDiffOn_Ici _ _ left_mem_Ici).eq_deriv _ hD.hasDerivWithinAt
    (gate_hasDerivWithinAt_right d htype hk)
  have hL0 : HasDerivWithinAt d.calcCurve 0 (Iic (d.threshold - d.kneeWidth / 2))
      (d.threshold - d.kneeWidth / 2) := by
    have hc : HasDerivWithinAt (fun _ : ℝ => (-1000 : ℝ)) 0
        (Iic (d.threshold - d.kneeWidth / 2)) (d.threshold - d.kneeWidth / 2) :=
      hasDerivWithinAt_const _ _ _
    refine hc.congr (fun x hx => ?_) hval
    rcases (mem_Iic.mp hx).lt_or_eq with hlt | heq
    · exact gate_below d htype x hlt
    · rw [heq]; exact hval
  have hL := (uniqueDiffOn_Iic _ _ right_mem_Iic).eq_deriv _ hD.hasDerivWithinAt hL0
  rw [hR] at hL
  norm_num at hL

/-- Gate, soft knee: the curve is continuous at the lower knee edge exactly when
`threshold - 50 kneeWidth = -1000`. -/
theorem gate_continuousAt_lower_iff (d : Dynamics ℝ) (htype : d.type = DynamicsType.gate)
    (hk : 0 < d.kneeWidth) :
    ContinuousAt d.calcCurve (d.threshold - d.kneeWidth / 2)
      ↔ d.threshold - 50 * d.kneeWidth = -1000 := by
  constructor
  · intro hc
    rw [← gate_lower_edge_value d htype hk]
    exact gate_continuousAt_lower_imp d htype hc
  · intro hv
    have hval : d.calcCurve (d.threshold - d.kneeWidth / 2) = -1000 := by
      rw [gate_lower_edge_value d htype hk]; exact hv
    rw [continuousAt_iff_continuous_left_right]
    refine ⟨?_, (gate_hasDerivWithinAt_right d htype hk).continuousWithinAt⟩
    have hc : ContinuousWithinAt (fun _ : ℝ => (-1000 : ℝ))
        (Iic (d.threshold - d.kneeWidth / 2)) (d.threshold - d.kneeWidth / 2) :=
      continuousWithinAt_const
    refine hc.congr (fun x hx => ?_) hval
    rcases (mem_Iic.mp hx).lt_or_eq with hlt | heq
    · exact gate_below d htype x hlt
    · rw [heq]; exact hval

/-- Gate, soft knee: value, slope and continuity of the derivative at the upper knee
edge. -/
theorem gate_upper_edge_smooth (d : Dynamics ℝ) (htype : d.type = DynamicsType.gate)
    (hknee : 0 < d.kneeWidth) :
    d.calcCurve (d.threshold + d.kneeWidth / 2) = d.threshold + d.kneeWidth / 2
      ∧ HasDerivAt d.calcCurve 1 (d.threshold + d.kneeWidth / 2)
      ∧ ContinuousAt (deriv d.calcCurve) (d.threshold + d.kneeWidth / 2) := by
  have hlohi : d.threshold - d.kneeWidth / 2 < d.threshold + d.kneeWidth / 2 := by linarith
  have hlU : ∀ x, d.threshold - d.kneeWidth / 2 < x → x ≤ d.threshold + d.kneeWidth / 2 →
      d.calcCurve x = x + (-99) * (x - (d.threshold + d.kneeWidth / 2)) ^ 2
          / (2 * d.kneeWidth) :=
    fun x h1 h2 => gate_knee d htype x hknee h1.le h2
  have hrU : ∀ x, d.threshold + d.kneeWidth / 2 ≤ x → x < d.threshold + d.kneeWidth / 2 + 1 →
      d.calcCurve x = d.threshold + (x - d.threshold) * 1 := by
    intro x hx _
    rcases hx.lt_or_eq with hlt | heq
    · exact gate_above d htype x hknee hlt
    · rw [gate_knee d htype x hknee (by linarith) heq.ge, ← heq]
      ring
  have hdU : (fun x : ℝ => 1 + (-99) * (2 * (x - (d.threshold + d.kneeWidth / 2)))
          / (2 * d.kneeWidth)) (d.threshold + d.kneeWidth / 2)
      = (fun _ : ℝ => (1 : ℝ)) (d.threshold + d.kneeWidth / 2) := by
    simp
  refine ⟨?_, ?_, ?_⟩
  · rw [hrU _ le_rfl (by linarith)]; ring
  · have := hasDerivAt_of_glue (v := fun _ => 1) hlohi (by linarith) hlU hrU
      (fun x => hasDerivAt_quad _ _ _ x) (fun x => hasDerivAt_line _ _ x) hdU
    exact this.congr_deriv hdU
  · exact deriv_continuousAt_of_glue (v := fun _ => 1) hlohi (by linarith) hlU hrU
      (fun x => hasDerivAt_quad _ _ _ x) (fun x => hasDerivAt_line _ _ x) hdU
      (continuous_quad_deriv _ _ _) continuous_const

/-- C7 (amended). Gate knee (`kneeWidth > 0`). At the upper knee edge
`threshold + kneeWidth / 2` the knee formula gives the unchanged input, and the curve is
continuous there with slope 1 and a continuous derivative. At the lower knee edge
`threshold - kneeWidth / 2` the knee formula gives `threshold - 50 kneeWidth` with slope
100 from the right, whereas the limit of the curve from below is -1000: the curve is
continuous there exactly when `threshold - 50 kneeWidth = -1000`, and it is never
differentiable there. -/
theorem calcCurve_gate_knee_edges (d : Dynamics ℝ)
    (htype : d.type = DynamicsType.gate) (hknee : 0 < d.kneeWidth) :
    (d.calcCurve (d.threshold + d.kneeWidth / 2) = d.threshold + d.kneeWidth / 2
      ∧ ContinuousAt d.calcCurve (d.threshold + d.kneeWidth / 2)
      ∧ HasDerivAt d.calcCurve 1 (d.threshold + d.kneeWidth / 2)
      ∧ ContinuousAt (deriv d.calcCurve) (d.threshold + d.kneeWidth / 2))
    ∧ (d.calcCurve (d.threshold - d.kneeWidth / 2) = d.threshold - 50 * d.kneeWidth
      ∧ HasDerivWithinAt d.calcCurve 100 (Ici (d.threshold - d.kneeWidth / 2))
          (d.threshold - d.kneeWidth / 2)
      ∧ Tendsto d.calcCurve (𝓝[<] (d.threshold - d.kneeWidth / 2)) (𝓝 (-1000))
      ∧ (ContinuousAt d.calcCurve (d.threshold - d.kneeWidth / 2)
          ↔ d.threshold - 50 * d.kneeWidth = -1000)
      ∧ ¬ DifferentiableAt ℝ d.calcCurve (d.threshold - d.kneeWidth / 2)) := by
  obtain ⟨hv, hD, hC⟩ := gate_upper_edge_smooth d htype hknee
  exact ⟨⟨hv, hD.continuousAt, hD, hC⟩,
    ⟨gate_lower_edge_value d htype hknee, gate_hasDerivWithinAt_right d htype hknee,
      gate_tendsto_below d htype, gate_continuousAt_lower_iff d htype hknee,
      gate_not_differentiableAt_lower d htype hknee⟩⟩

/-- Witness for C7 (amended): threshold -40 with a 10 dB knee; slope 1 at the upper edge
-35, and at the lower edge -45 the value is -540 while the limit from below is -1000. -/
theorem calcCurve_gate_knee_edges_witness :
    HasDerivAt (gateSoft ℝ).calcCurve 1 (-35)
      ∧ (gateSoft ℝ).calcCurve (-45) = -540
      ∧ Tendsto (gateSoft ℝ).calcCurve (𝓝[<] (-45)) (𝓝 (-1000))
      ∧ ¬ DifferentiableAt ℝ (gateSoft ℝ).calcCurve (-45) := by
  have h := calcCurve_gate_knee_edges (gateSoft ℝ) rfl (by norm_num [gateSoft])
  have elo : (gateSoft ℝ).threshold - (gateSoft ℝ).kneeWidth / 2 = -45 := by
    norm_num [gateSoft]
  have ehi : (gateSoft ℝ).threshold + (gateSoft ℝ).kneeWidth / 2 = -35 := by
    norm_num [gateSoft]
  have ev : (gateSoft ℝ).threshold - 50 * (gateSoft ℝ).kneeWidth = -540 := by
    norm_num [gateSoft]
  rw [elo, ehi, ev] at h
  exact ⟨h.1.2.2.1, h.2.1, h.2.2.2.1, h.2.2.2.2.2⟩

/-- Counterexample to C7 as stated: for the gate with threshold -40 and a 10 dB knee
the knee formula gives -540 at the lower knee edge -45, the curve is -1000 just below
(at -46, and in the limit from below), so the curve is not continuous at -45. -/
theorem calcCurve_gate_knee_lower_edge_jump :
    (gateSoft ℚ).calcCurve (-45) = -540
      ∧ (gateSoft ℚ).calcCurve (-46) = -1000
      ∧ Tendsto (gateSoft ℝ).calcCurve (𝓝[<] (-45)) (𝓝 (-1000))
      ∧ (gateSoft ℝ).calcCurve (-45) = -540
      ∧ ¬ ContinuousAt (gateSoft ℝ).calcCurve (-45) := by
  have elo : (gateSoft ℝ).threshold - (gateSoft ℝ).kneeWidth / 2 = -45 := by
    norm_num [gateSoft]
  have hk : 0 < (gateSoft ℝ).kneeWidth := by norm_num [gateSoft]
  have hv : (gateSoft ℝ).calcCurve (-45) = -540 := by
    have := gate_lower_edge_value (gateSoft ℝ) rfl hk
    rw [elo] at this
    rw [this]; norm_num [gateSoft]
  have ht := gate_tendsto_below (gateSoft ℝ) rfl
  rw [elo] at ht
  refine ⟨?_, ?_, ht, hv, ?_⟩
  · norm_num [gateSoft, Dynamics.calcCurve]
  · norm_num [gateSoft, Dynamics.calcCurve]
  · intro hc
    have h1000 := tendsto_nhds_unique (hc.tendsto.mono_left nhdsWithin_le_nhds) ht
    rw [hv] at h1000
    norm_num at h1000

end KneeTheorems

/-! ### Envelope detector -/

section DetectorTheorems

variable {K : Type} [LinearOrderedField K]

/-- The state left by `process`: the ballistic update followed by the clamp at 0. -/
theorem process_fst (powHalf gainToDecibels : K → K) (s : EnvelopeDetector K) (input : K) :
    (s.process powHalf gainToDecibels input).1
      = { s.ballistics (EnvelopeDetector.rectify powHalf s.mode input) with
          envelope := max 0
            (s.ballistics (EnvelopeDetector.rectify powHalf s.mode input)).envelope } := by
  unfold EnvelopeDetector.process
  simp only
  split_ifs <;> rfl

/-- The ballistic update does not touch `logDetector`. -/
theorem ballistics_logDetector (s : EnvelopeDetector K) (x : K) :
    (s.ballistics x).logDetector = s.logDetector := by
  unfold EnvelopeDetector.ballistics
  split_ifs <;> rfl

/-- With `logDetector = false`, `process` returns the envelope it stores. -/
theorem process_snd_linear (powHalf gainToDecibels : K → K) (s : EnvelopeDetector K)
    (input : K) (hlog : s.logDetector = false) :
    (s.process powHalf gainToDecibels input).2
      = (s.process powHalf gainToDecibels input).1.envelope := by
  unfold EnvelopeDetector.process
  simp only [ballistics_logDetector, hlog]
  rfl

/-- C8. Envelope non-negativity: for every detector state and every input sample the
envelope stored by `process` is `≥ 0`; with `logDetector = false` the returned value is
that envelope and hence `≥ 0`; `reset` sets the envelope to 0, which is `≥ 0`. -/
theorem process_envelope_nonneg (powHalf gainToDecibels : K → K)
    (s : EnvelopeDetector K) (input : K) :
    0 ≤ (s.process powHalf gainToDecibels input).1.envelope
      ∧ (s.logDetector = false →
          (s.process powHalf gainToDecibels input).2
              = (s.process powHalf gainToDecibels input).1.envelope
            ∧ 0 ≤ (s.process powHalf gainToDecibels input).2)
      ∧ s.reset.envelope = 0
      ∧ 0 ≤ s.reset.envelope := by
  have h0 : 0 ≤ (s.process powHalf gainToDecibels input).1.envelope := by
    rw [process_fst]
    exact le_max_left _ _
  refine ⟨h0, fun hlog => ?_, rfl, le_refl _⟩
  have hret := process_snd_linear powHalf gainToDecibels s input hlog
  exact ⟨hret, hret ▸ h0⟩

/-- Evaluation of C8 on a concrete run: from envelope 1/2 in peak mode with linear
output, input 1 stores and returns the envelope 3/4, which is `≥ 0`. -/
theorem process_envelope_nonneg_witness :
    (∀ p g : ℚ → ℚ, (detectorHolding.process p g 1).2 = 3 / 4)
      ∧ (∀ p g : ℚ → ℚ, 0 ≤ (detectorHolding.process p g 1).1.envelope) := by
  refine ⟨fun p g => ?_, fun p g => (process_envelope_nonneg p g detectorHolding 1).1⟩
  rw [((process_envelope_nonneg p g detectorHolding 1).2.1 rfl).1, process_fst]
  norm_num [detectorHolding, EnvelopeDetector.ballistics, EnvelopeDetector.rectify]

end DetectorTheorems

/-! ### Envelope detector: output conversion, coefficients, modes, bounds -/

section DetectorOutputTheorems

variable {K : Type} [LinearOrderedField K]

/-- With `logDetector = true`, `process` returns -100 for a zero envelope and the
decibel conversion of the envelope otherwise. -/
theorem process_snd_log (powHalf gainToDecibels : K → K) (s : EnvelopeDetector K)
    (input : K) (hlog : s.logDetector = true) :
    (s.process powHalf gainToDecibels input).2
      = if (s.process powHalf gainToDecibels input).1.envelope = 0 then -100
        else gainToDecibels (s.process powHalf gainToDecibels input).1.envelope := by
  unfold EnvelopeDetector.process
  simp only [ballistics_logDetector, hlog, if_true]
  split_ifs <;> rfl

/-- C11. Log detector output: with `logDetector = true` and `gainToDecibels` the
decibel conversion `20·log10` of the specification, `process` returns exactly -100 when
the envelope it stores is 0, and otherwise that envelope is positive and `process`
returns `20·log10(envelope)`. -/
theorem process_log_output (powHalf gainToDecibels : ℝ → ℝ) (s : EnvelopeDetector ℝ)
    (input : ℝ) (hlog : s.logDetector = true)
    (hdb : IsDecibelConversion gainToDecibels) :
    ((s.process powHalf gainToDecibels input).1.envelope = 0 →
        (s.process powHalf gainToDecibels input).2 = -100)
      ∧ ((s.process powHalf gainToDecibels input).1.envelope ≠ 0 →
          0 < (s.process powHalf gainToDecibels input).1.envelope
            ∧ (s.process powHalf gainToDecibels input).2
                = 20 * Real.logb 10 (s.process powHalf gainToDecibels input).1.envelope) := by
  have hret := process_snd_log powHalf gainToDecibels s input hlog
  have hnn : 0 ≤ (s.process powHalf gainToDecibels input).1.envelope := by
    rw [process_fst]
    exact le_max_left _ _
  refine ⟨fun h0 => ?_, fun hne => ?_⟩
  · rw [hret, if_pos h0]
  · have hpos := lt_of_le_of_ne hnn (Ne.symm hne)
    refine ⟨hpos, ?_⟩
    rw [hret, if_neg hne]
    exact hdb _ hpos

/-- Witness for C11: a held envelope of 1 is returned as 0 dB, a held envelope of 1/10
as -20 dB, and a zero envelope as -100. -/
theorem process_log_output_witness :
    ((detectorLog ℝ 1).process Real.sqrt (fun g => 20 * Real.logb 10 g) 0).2 = 0
      ∧ ((detectorLog ℝ (1 / 10)).process Real.sqrt (fun g => 20 * Real.logb 10 g) 0).2
          = -20
      ∧ ((detectorLog ℝ 0).process Real.sqrt (fun g => 20 * Real.logb 10 g) 0).2
          = -100 := by
  have hdb : IsDecibelConversion (fun g => 20 * Real.logb 10 g) := fun _ _ => rfl
  have henv : ∀ e : ℝ, 0 ≤ e →
      ((detectorLog ℝ e).process Real.sqrt (fun g => 20 * Real.logb 10 g) 0).1.envelope
        = e := by
    intro e he
    rw [process_fst]
    simp [EnvelopeDetector.ballistics, EnvelopeDetector.rectify, detectorLog, not_lt.mpr he,
      he]
  refine ⟨?_, ?_, ?_⟩
  · have h := (process_log_output Real.sqrt _ (detectorLog ℝ 1) 0 rfl hdb).2
      (by rw [henv 1 zero_le_one]; exact one_ne_zero)
    rw [h.2, henv 1 zero_le_one]
    simp
  · have h := (process_log_output Real.sqrt _ (detectorLog ℝ (1 / 10)) 0 rfl hdb).2
      (by rw [henv _ (by norm_num)]; norm_num)
    rw [h.2, henv _ (by norm_num)]
    have h10 : Real.logb 10 (1 / 10) = -1 := by
      rw [one_div, Real.logb_inv, Real.logb_self_eq_one (by norm_num)]
    rw [h10]; norm_num
  · exact (process_log_output Real.sqrt _ (detectorLog ℝ 0) 0 rfl hdb).1
      (henv 0 le_rfl)

end DetectorOutputTheorems

/-! ### Time-to-coefficient conversion -/

section CoefficientTheorems

/-- The coefficient stored by `setAttackTime`, as one expression. -/
theorem setAttackTime_attackTime (exp : ℝ → ℝ) (s : EnvelopeDetector ℝ) (seconds : ℝ) :
    (s.setAttackTime exp seconds).attackTime
      = exp ((if s.analogTC then ANALOG_TC else DIGITAL_TC) / (seconds * s.sampleRate)) := by
  unfold EnvelopeDetector.setAttackTime
  split_ifs <;> rfl

/-- The coefficient stored by `setReleaseTime`, as one expression. -/
theorem setReleaseTime_releaseTime (exp : ℝ → ℝ) (s : EnvelopeDetector ℝ) (seconds : ℝ) :
    (s.setReleaseTime exp seconds).releaseTime
      = exp ((if s.analogTC then ANALOG_TC else DIGITAL_TC) / (seconds * s.sampleRate)) := by
  unfold EnvelopeDetector.setReleaseTime
  split_ifs <;> rfl

/-- The thousandth power of 367 lies above `10 ^ 2564`. -/
theorem pow_367_lower : (10 : ℕ) ^ 2564 < 367 ^ 1000 := by norm_num

/-- The thousandth power of 367 lies below `10 ^ 2565`. -/
theorem pow_367_upper : (367 : ℕ) ^ 1000 < 10 ^ 2565 := by norm_num

/-- A lower bound for the base-10 logarithm of 0.367. -/
theorem logb_367_lower : (-436 / 1000 : ℝ) < Real.logb 10 (367 / 1000) := by
  rw [Real.lt_logb_iff_rpow_lt (by norm_num) (by norm_num)]
  refine lt_of_pow_lt_pow_left₀ 1000 (by norm_num) ?_
  rw [← Real.rpow_natCast, ← Real.rpow_mul (by norm_num)]
  have e : (-436 / 1000 : ℝ) * ((1000:ℕ) : ℝ) = ((-436 : ℤ) : ℝ) := by norm_num
  rw [e, Real.rpow_intCast]
  rw [div_pow, lt_div_iff₀ (by positivity), zpow_neg, ← div_eq_inv_mul, div_lt_iff₀ (by positivity)]
  have h : (1000:ℝ)^1000 = 10^2564 * 10^436 := by norm_num
  rw [h]
  have h2 : ((10:ℝ))^2564 < 367^1000 := by exact_mod_cast pow_367_lower
  exact mul_lt_mul_of_pos_right h2 (by positivity)


/-- An upper bound for the base-10 logarithm of 0.367. -/
theorem logb_367_upper : Real.logb 10 (367 / 1000) < (-435 / 1000 : ℝ) := by
  rw [Real.logb_lt_iff_lt_rpow (by norm_num) (by norm_num)]
  refine lt_of_pow_lt_pow_left₀ 1000 (Real.rpow_pos_of_pos (by norm_num) _).le ?_
  have hp : ((10:ℝ) ^ (-435 / 1000 : ℝ)) ^ 1000 = (10:ℝ) ^ (-435 : ℤ) := by
    rw [← Real.rpow_natCast, ← Real.rpow_mul (by norm_num)]
    have e : (-435 / 1000 : ℝ) * ((1000:ℕ) : ℝ) = ((-435 : ℤ) : ℝ) := by norm_num
    rw [e, Real.rpow_intCast]
  rw [hp, div_pow, div_lt_iff₀ (by positivity), zpow_neg, ← div_eq_inv_mul,
    lt_div_iff₀ (by positivity)]
  have h : (1000:ℝ)^1000 = 10^2565 * 10^435 := by norm_num
  rw [h]
  have h2 : ((367:ℝ))^1000 < 10^2565 := by exact_mod_cast pow_367_upper
  exact mul_lt_mul_of_pos_right h2 (by positivity)

/-- C15 (amended). Time-to-coefficient conversion: for `seconds > 0` and
`sampleRate > 0`, `setAttackTime` and `setReleaseTime` store
`exp (timeConstant / (seconds * sampleRate))`, where `timeConstant` is the constant
`DIGITAL_TC = -2`, the base-10 logarithm of 0.01, when `analogTC` is false, and the
constant `ANALOG_TC = -0.43533393574791066201247090699309`, within 0.001 of the
base-10 logarithm of 0.367, when `analogTC` is true. -/
theorem setTime_coefficient_formula (s : EnvelopeDetector ℝ) (seconds : ℝ)
    (_hs : 0 < seconds) (_hsr : 0 < s.sampleRate) :
    (s.setAttackTime Real.exp seconds).attackTime
        = Real.exp ((if s.analogTC then ANALOG_TC else DIGITAL_TC)
            / (seconds * s.sampleRate))
      ∧ (s.setReleaseTime Real.exp seconds).releaseTime
        = Real.exp ((if s.analogTC then ANALOG_TC else DIGITAL_TC)
            / (seconds * s.sampleRate))
      ∧ (DIGITAL_TC : ℝ) = -2
      ∧ (DIGITAL_TC : ℝ) = Real.logb 10 (1 / 100)
      ∧ (ANALOG_TC : ℝ)
          = -(43533393574791066201247090699309 / 100000000000000000000000000000000)
      ∧ |(ANALOG_TC : ℝ) - Real.logb 10 (367 / 1000)| < 1 / 1000 := by
  refine ⟨setAttackTime_attackTime _ s seconds, setReleaseTime_releaseTime _ s seconds,
    rfl, ?_, rfl, ?_⟩
  · have h100 : (1 / 100 : ℝ) = ((10 : ℝ) ^ 2)⁻¹ := by norm_num
    rw [h100, Real.logb_inv, Real.logb_pow, Real.logb_self_eq_one (by norm_num)]
    norm_num [DIGITAL_TC]
  · have h1 := logb_367_lower
    have h2 := logb_367_upper
    rw [abs_lt]
    constructor
    · norm_num [ANALOG_TC] at h2 ⊢
      linarith
    · norm_num [ANALOG_TC] at h1 ⊢
      linarith

/-- Witness for C15 (amended): at 1 sample per second and a time of 1 s the digital
attack coefficient is `exp (-2)`. -/
theorem setTime_coefficient_formula_witness :
    ((detectorUnit ℝ false).setAttackTime Real.exp 1).attackTime = Real.exp (-2) := by
  have h := (setTime_coefficient_formula (detectorUnit ℝ false) 1 one_pos
    (by norm_num [detectorUnit])).1
  rw [h]
  norm_num [detectorUnit, DIGITAL_TC]

/-- Counterexample to C15 as stated: at 1 sample per second, a time of 1 s and
`analogTC = false` the stored attack coefficient is `exp (-2)`, which is below 1,
whereas `exp (-ln 0.01 / (1 * 1))` is above 1; nor is it `exp (ln 0.01 / (1 * 1))`,
which is 0.01. -/
theorem setAttackTime_not_natural_log :
    ((detectorUnit ℝ false).setAttackTime Real.exp 1).attackTime = Real.exp (-2)
      ∧ ((detectorUnit ℝ false).setAttackTime Real.exp 1).attackTime
          ≠ Real.exp (-Real.log (1 / 100) / (1 * 1))
      ∧ ((detectorUnit ℝ false).setAttackTime Real.exp 1).attackTime
          ≠ Real.exp (Real.log (1 / 100) / (1 * 1)) := by
  have hval : ((detectorUnit ℝ false).setAttackTime Real.exp 1).attackTime
      = Real.exp (-2) := by
    rw [setAttackTime_attackTime]
    norm_num [detectorUnit, DIGITAL_TC]
  have hlt : Real.exp (-2) < 1 := Real.exp_lt_one_iff.mpr (by norm_num)
  have hlog : Real.log (1 / 100) < 0 := Real.log_neg (by norm_num) (by norm_num)
  refine ⟨hval, ?_, ?_⟩
  · rw [hval]
    have hgt : 1 < Real.exp (-Real.log (1 / 100) / (1 * 1)) := by
      rw [Real.one_lt_exp_iff]
      simp only [mul_one, div_one]
      linarith
    exact ne_of_lt (hlt.trans hgt)
  · rw [hval]
    simp only [mul_one, div_one]
    rw [Real.exp_log (by norm_num)]
    have hexp2 : Real.exp 2 < 100 := by
      have h1 : Real.exp 1 < 3 := by
        have := Real.exp_one_lt_d9
        linarith
      have h2 : Real.exp 2 = Real.exp 1 * Real.exp 1 := by
        rw [← Real.exp_add]; norm_num
      rw [h2]
      nlinarith [Real.exp_pos 1]
    have hinv : Real.exp (-2) = (Real.exp 2)⁻¹ := Real.exp_neg 2
    rw [hinv]
    intro h
    have h100 : Real.exp 2 = 100 := by
      have := congrArg (fun x => x⁻¹) h
      simpa using this
    linarith

end CoefficientTheorems

/-! ### `Dynamics::process`: causality and metering -/

section ProcessTheorems

variable {K σ : Type} [LinearOrderedField K]

/-- The results for the first `n` frames do not depend on the frames after them. -/
theorem sampleLoop_take (d : DynamicsProcessor K) (F : BallisticsFilter σ K)
    (gainToDecibels decibelsToGain : K → K) (frames : List (List K)) :
    ∀ (st : σ) (n : Nat),
      (d.sampleLoop F gainToDecibels decibelsToGain st (frames.take n)).1
        = (d.sampleLoop F gainToDecibels decibelsToGain st frames).1.take n := by
  induction frames with
  | nil =>
    intro st n
    simp [DynamicsProcessor.sampleLoop]
  | cons frame frames ih =>
    intro st n
    cases n with
    | zero => simp [DynamicsProcessor.sampleLoop]
    | succ n =>
      simp only [List.take_succ_cons, DynamicsProcessor.sampleLoop]
      rw [ih]

/-- `process` on the first `n` frames gives the first `n` results of `process`. -/
theorem process_take (d : DynamicsProcessor K) (F : BallisticsFilter σ K)
    (gainToDecibels decibelsToGain : K → K) (st : σ) (buffer : List (List K)) (n : Nat) :
    (d.process F gainToDecibels decibelsToGain st (buffer.take n)).1
      = (d.process F gainToDecibels decibelsToGain st buffer).1.take n := by
  unfold DynamicsProcessor.process
  rw [List.map_take, sampleLoop_take]

/-- Lists that agree at the indices `0..k` have the same first `k + 1` entries. -/
theorem take_eq_of_agree {α : Type} (l₁ l₂ : List α) (k : Nat)
    (h : ∀ i, i ≤ k → l₁[i]? = l₂[i]?) : l₁.take (k + 1) = l₂.take (k + 1) := by
  apply List.ext_getElem?
  intro i
  by_cases hi : i < k + 1
  · rw [List.getElem?_take_of_lt hi, List.getElem?_take_of_lt hi]
    exact h i (Nat.lt_succ_iff.mp hi)
  · rw [List.getElem?_take_eq_none (not_lt.mp hi), List.getElem?_take_eq_none (not_lt.mp hi)]

/-- C13. Causality of `Dynamics::process`: for every parameter setting (linked or
unlinked), every filter and initial filter state, two input buffers that agree on all
channels at the sample indices `0..k` give results that agree at the sample indices
`0..k`: the same values written to the output buffer, and the same envelope and
gain-reduction values. -/
theorem process_causal (d : DynamicsProcessor K) (F : BallisticsFilter σ K)
    (gainToDecibels decibelsToGain : K → K) (st : σ) (buf₁ buf₂ : List (List K)) (k : Nat)
    (hagree : ∀ i, i ≤ k → buf₁[i]? = buf₂[i]?) :
    ∀ i, i ≤ k →
      (d.process F gainToDecibels decibelsToGain st buf₁).1[i]?
          = (d.process F gainToDecibels decibelsToGain st buf₂).1[i]?
        ∧ ((d.process F gainToDecibels decibelsToGain st buf₁).1.map SampleResult.output)[i]?
          = ((d.process F gainToDecibels decibelsToGain st buf₂).1.map
              SampleResult.output)[i]? := by
  have htake := take_eq_of_agree buf₁ buf₂ k hagree
  have hres : (d.process F gainToDecibels decibelsToGain st buf₁).1.take (k + 1)
      = (d.process F gainToDecibels decibelsToGain st buf₂).1.take (k + 1) := by
    rw [← process_take, ← process_take, htake]
  intro i hi
  have hlt : i < k + 1 := Nat.lt_succ_iff.mpr hi
  have hget : (d.process F gainToDecibels decibelsToGain st buf₁).1[i]?
      = (d.process F gainToDecibels decibelsToGain st buf₂).1[i]? := by
    rw [← List.getElem?_take_of_lt hlt, hres, List.getElem?_take_of_lt hlt]
  refine ⟨hget, ?_⟩
  rw [List.getElem?_map, List.getElem?_map, hget]

/-- Witness for C13: with the identity-curve processor (input gain 2) in unlinked mode
on two channels, a memoryless filter and any conversions with `decibelsToGain 0 = 1`,
the buffers `[[1, 1], [5, 5]]` and `[[1, 1], [7, 7]]` agree at sample 0 and both give
the output `[4, 4]` there. -/
theorem process_causal_witness :
    (∀ g h : ℚ → ℚ,
        ((processorUnityCurve ℚ false).process (absFilter ℚ) g h ()
            [[1, 1], [5, 5]]).1[0]?
          = ((processorUnityCurve ℚ false).process (absFilter ℚ) g h ()
            [[1, 1], [7, 7]]).1[0]?)
      ∧ (∀ g h : ℚ → ℚ, h 0 = 1 →
        (((processorUnityCurve ℚ false).process (absFilter ℚ) g h ()
            [[1, 1], [5, 5]]).1.map SampleResult.output)[0]? = some [4, 4]) := by
  refine ⟨fun g h => ?_, fun g h h0 => ?_⟩
  · exact (process_causal (processorUnityCurve ℚ false) (absFilter ℚ) g h ()
      [[1, 1], [5, 5]] [[1, 1], [7, 7]] 0
      (by intro i hi; obtain rfl : i = 0 := Nat.le_zero.mp hi; rfl) 0 le_rfl).1
  · norm_num [DynamicsProcessor.process, DynamicsProcessor.sampleLoop,
      DynamicsProcessor.sampleStep, DynamicsProcessor.unlinkedLoop, processorUnityCurve,
      absFilter, Dynamics.calcCurve, h0]

end ProcessTheorems

/-! ### `Dynamics::process`: gain-reduction metering -/

section MeteringTheorems

variable {K σ : Type} [LinearOrderedField K]

/-- A running minimum never exceeds its start value. -/
theorem foldl_min_le_init (l : List K) : ∀ a : K, l.foldl min a ≤ a := by
  induction l with
  | nil => intro a; exact le_rfl
  | cons x xs ih => intro a; exact le_trans (ih (min a x)) (min_le_left a x)

/-- A running minimum never exceeds a member of the list. -/
theorem foldl_min_le_mem (l : List K) : ∀ a : K, ∀ g ∈ l, l.foldl min a ≤ g := by
  induction l with
  | nil => intro a g hg; cases hg
  | cons x xs ih =>
    intro a g hg
    rcases List.mem_cons.mp hg with h | h
    · rw [h]
      exact le_trans (foldl_min_le_init xs (min a x)) (min_le_right a x)
    · exact ih (min a x) g h

/-- A running minimum is its start value or a member of the list. -/
theorem foldl_min_eq_or_mem (l : List K) : ∀ a : K, l.foldl min a = a ∨ l.foldl min a ∈ l := by
  induction l with
  | nil => intro a; exact Or.inl rfl
  | cons x xs ih =>
    intro a
    rcases ih (min a x) with h | h
    · rcases min_choice a x with hm | hm
      · left
        rw [List.foldl_cons, h, hm]
      · right
        rw [List.foldl_cons, h, hm]
        exact List.mem_cons_self _ _
    · right
      exact List.mem_cons_of_mem _ h

/-- The unlinked channel loop ends with the running minimum of `peak` and the gains. -/
theorem unlinkedLoop_peakReduction (d : DynamicsProcessor K) (F : BallisticsFilter σ K)
    (decibelsToGain : K → K) (frame : List K) :
    ∀ (c : Nat) (st : σ) (peak : K),
      (d.unlinkedLoop F decibelsToGain c frame st peak).1.peakReduction
        = (d.unlinkedLoop F decibelsToGain c frame st peak).1.gains.foldl min peak := by
  induction frame with
  | nil => intro c st peak; rfl
  | cons x xs ih =>
    intro c st peak
    simp only [DynamicsProcessor.unlinkedLoop, List.foldl_cons]
    exact ih _ _ _

/-- One pass of the sample loop hands the running minimum of 1 and the gains to the
reduction tracker. -/
theorem sampleStep_peakReduction (d : DynamicsProcessor K) (F : BallisticsFilter σ K)
    (gainToDecibels decibelsToGain : K → K) (st : σ) (frame : List K) :
    (d.sampleStep F gainToDecibels decibelsToGain st frame).1.peakReduction
      = (d.sampleStep F gainToDecibels decibelsToGain st frame).1.gains.foldl min 1 := by
  unfold DynamicsProcessor.sampleStep
  by_cases h : d.channelsLinked
  · simp [h, DynamicsProcessor.linkedSample]
  · simp only [h]
    exact unlinkedLoop_peakReduction d F decibelsToGain frame 0 st 1

/-- Every result of the sample loop is the result of one pass on some frame. -/
theorem sampleLoop_mem (d : DynamicsProcessor K) (F : BallisticsFilter σ K)
    (gainToDecibels decibelsToGain : K → K) (frames : List (List K)) :
    ∀ (st : σ), ∀ r ∈ (d.sampleLoop F gainToDecibels decibelsToGain st frames).1,
      ∃ (t : σ) (frame : List K),
        r = (d.sampleStep F gainToDecibels decibelsToGain t frame).1 := by
  induction frames with
  | nil => intro st r hr; simp [DynamicsProcessor.sampleLoop] at hr
  | cons frame frames ih =>
    intro st r hr
    simp only [DynamicsProcessor.sampleLoop, List.mem_cons] at hr
    rcases hr with h | h
    · exact ⟨st, frame, h⟩
    · exact ih _ r h

/-- C17 (amended). Gain-reduction metering: for every sample index, the value
`Dynamics::process` passes to `reductionTracker.trackSample` is the minimum of 1 and the
linear gains computed for that sample across the channels (of 1 and the single shared
gain in linked mode): it is the running minimum started at 1, it is at most 1 and at
most every gain, and it is 1 or one of the gains. -/
theorem process_reduction_is_capped_min (d : DynamicsProcessor K) (F : BallisticsFilter σ K)
    (gainToDecibels decibelsToGain : K → K) (st : σ) (buffer : List (List K)) :
    ∀ r ∈ (d.process F gainToDecibels decibelsToGain st buffer).1,
      r.peakReduction = r.gains.foldl min 1
        ∧ r.peakReduction ≤ 1
        ∧ (∀ g ∈ r.gains, r.peakReduction ≤ g)
        ∧ (r.peakReduction = 1 ∨ r.peakReduction ∈ r.gains) := by
  intro r hr
  obtain ⟨t, frame, hstep⟩ := sampleLoop_mem d F gainToDecibels decibelsToGain _ st r hr
  have hmin : r.peakReduction = r.gains.foldl min 1 := by
    rw [hstep]
    exact sampleStep_peakReduction d F gainToDecibels decibelsToGain t frame
  refine ⟨hmin, ?_, ?_, ?_⟩
  · rw [hmin]; exact foldl_min_le_init _ _
  · intro g hg
    rw [hmin]; exact foldl_min_le_mem _ _ g hg
  · rw [hmin]; exact foldl_min_eq_or_mem _ _

/-- Witness for C17 (amended): the identity-curve processor in unlinked mode on the
buffer `[[1, 1], [5, 5]]`, with a memoryless filter and `decibelsToGain 0 = 1`, hands 1
to the reduction tracker at both sample indices, and every value it hands over is at
most 1. -/
theorem process_reduction_is_capped_min_witness :
    (∀ g h : ℚ → ℚ, h 0 = 1 →
        ((processorUnityCurve ℚ false).process (absFilter ℚ) g h ()
            [[1, 1], [5, 5]]).1.map SampleResult.peakReduction = [1, 1])
      ∧ (∀ g h : ℚ → ℚ,
        ∀ r ∈ ((processorUnityCurve ℚ false).process (absFilter ℚ) g h ()
            [[1, 1], [5, 5]]).1, r.peakReduction ≤ 1) := by
  refine ⟨fun g h h0 => ?_, fun g h r hr => ?_⟩
  · norm_num [DynamicsProcessor.process, DynamicsProcessor.sampleLoop,
      DynamicsProcessor.sampleStep, DynamicsProcessor.unlinkedLoop, processorUnityCurve,
      absFilter, Dynamics.calcCurve, h0]
  · exact (process_reduction_is_capped_min (processorUnityCurve ℚ false) (absFilter ℚ) g h ()
      [[1, 1], [5, 5]] r hr).2.1

/-- The linked expander example: whenever the filter reports the level 1 for the
sample 1, `gainToDecibels 1 = 0` and `decibelsToGain 5 > 1`, the only gain computed is
`decibelsToGain 5` and the value handed to the reduction tracker is 1. -/
theorem process_expanding_reduction (F : BallisticsFilter σ ℝ) (st : σ)
    (gainToDecibels decibelsToGain : ℝ → ℝ)
    (hF : (F.processSample st 0 1).1 = 1) (hg : gainToDecibels 1 = 0)
    (hd : 1 < decibelsToGain 5) :
    ((processorExpanding ℝ).process F gainToDecibels decibelsToGain st [[1]]).1.map
        (fun r => (r.gains, r.peakReduction))
      = [([decibelsToGain 5], 1)] := by
  have hcurve : (processorExpanding ℝ).toDynamics.calcCurve 0 = 5 := by
    norm_num [processorExpanding, Dynamics.calcCurve]
  simp only [DynamicsProcessor.process, DynamicsProcessor.sampleLoop,
    DynamicsProcessor.sampleStep, DynamicsProcessor.linkedSample, linkedSum, List.map]
  have hin : (1 : ℝ) * (processorExpanding ℝ).inputGain = 1 := by
    norm_num [processorExpanding]
  have hl : (processorExpanding ℝ).channelsLinked = true := rfl
  have hc : (((processorExpanding ℝ).channels : ℕ) : ℝ) = 1 := by
    norm_num [processorExpanding]
  simp only [hin, hl, hc, if_true, hF, zero_add, div_one, hg, hcurve, sub_zero,
    min_eq_left hd.le]

/-- Counterexample to C17 as stated: linked expander with threshold 10 dB, ratio 1/2,
hard knee, unit gains, one channel, one sample of value 1.  For every filter that
reports the level 1 and conversions with `gainToDecibels 1 = 0` and
`decibelsToGain 5 > 1`, the single gain is `decibelsToGain 5 > 1` but the value handed
to the reduction tracker is 1; the decibel conversions `20·log10` and `10^(dB/20)` and
the memoryless absolute-value filter are such a setting. -/
theorem process_reduction_not_min_of_gains :
    (∀ (F : BallisticsFilter Unit ℝ) (gainToDecibels decibelsToGain : ℝ → ℝ),
        (F.processSample () 0 1).1 = 1 → gainToDecibels 1 = 0 → 1 < decibelsToGain 5 →
        ((processorExpanding ℝ).process F gainToDecibels decibelsToGain () [[1]]).1.map
            (fun r => (r.gains, r.peakReduction))
          = [([decibelsToGain 5], 1)])
      ∧ ((processorExpanding ℝ).process (absFilter ℝ) (fun g => 20 * Real.logb 10 g)
            (fun x => (10 : ℝ) ^ (x / 20)) () [[1]]).1.map
            (fun r => (r.gains, r.peakReduction))
          = [([(10 : ℝ) ^ ((5 : ℝ) / 20)], 1)]
      ∧ (1 : ℝ) < (10 : ℝ) ^ ((5 : ℝ) / 20)
      ∧ (1 : ℝ) ≠ [(10 : ℝ) ^ ((5 : ℝ) / 20)].foldr min ((10 : ℝ) ^ ((5 : ℝ) / 20)) := by
  have hpow : (1 : ℝ) < (10 : ℝ) ^ ((5 : ℝ) / 20) :=
    Real.one_lt_rpow (by norm_num) (by norm_num)
  refine ⟨fun F g h hF hg hd => process_expanding_reduction F () g h hF hg hd, ?_, hpow, ?_⟩
  · exact process_expanding_reduction (absFilter ℝ) () _ _ (by simp [absFilter])
      (by simp) hpow
  · simp only [List.foldr, min_self]
    exact ne_of_lt hpow

end MeteringTheorems

/-! ### `Dynamics::process`: linked against unlinked mode, and the limiter knee -/

section DivergenceTheorems

/-- The identity curve: a hard-knee compressor with ratio 1 maps every level to
itself. -/
theorem processorUnityCurve_calcCurve (linked : Bool) (x : ℚ) :
    (processorUnityCurve ℚ linked).toDynamics.calcCurve x = x := by
  by_cases h : 0 < x
  · simp [processorUnityCurve, Dynamics.calcCurve, h]
  · simp [processorUnityCurve, Dynamics.calcCurve, h]

/-- C12, evaluation of the code where linked and unlinked mode differ on identical
channels.  (1) Identity curve, input gain 2, output gain 1, two channels, one frame
`[1, 1]`: for every filter and all conversions with `decibelsToGain 0 = 1` linked mode
writes `[2, 2]` and unlinked mode writes `[4, 4]`.  (2) Compressor with threshold 1/2,
ratio 2, hard knee, unit gains, one channel, one frame `[1]`: when the filter reports
the level 1, `gainToDecibels 1 = 0` and `decibelsToGain 0 = 1`, linked mode writes
`[1]` and unlinked mode, which hands the level to `calcCurve` without converting it to
decibels, writes `[decibelsToGain (-1/4)]`. -/
theorem process_linked_unlinked_differ :
    (∀ (σ : Type) (F : BallisticsFilter σ ℚ) (st : σ) (g h : ℚ → ℚ), h 0 = 1 →
        ((processorUnityCurve ℚ true).process F g h st [[1, 1]]).1.map SampleResult.output
            = [[2, 2]]
          ∧ ((processorUnityCurve ℚ false).process F g h st [[1, 1]]).1.map
              SampleResult.output = [[4, 4]])
      ∧ (∀ (σ : Type) (F : BallisticsFilter σ ℚ) (st : σ) (g h : ℚ → ℚ),
          (F.processSample st 0 1).1 = 1 → g 1 = 0 → h 0 = 1 →
          ((processorCompressing ℚ true).process F g h st [[1]]).1.map SampleResult.output
              = [[1]]
            ∧ ((processorCompressing ℚ false).process F g h st [[1]]).1.map
                SampleResult.output = [[h (-1 / 4)]]) := by
  refine ⟨fun σ F st g h h0 => ⟨?_, ?_⟩, fun σ F st g h hF hg h0 => ⟨?_, ?_⟩⟩
  · have hl : (processorUnityCurve ℚ true).channelsLinked = true := rfl
    simp only [DynamicsProcessor.process, DynamicsProcessor.sampleLoop,
      DynamicsProcessor.sampleStep, DynamicsProcessor.linkedSample, hl, if_true, List.map,
      processorUnityCurve_calcCurve, sub_self, h0]
    norm_num [processorUnityCurve]
  · have hl : (processorUnityCurve ℚ false).channelsLinked = false := rfl
    simp only [DynamicsProcessor.process, DynamicsProcessor.sampleLoop,
      DynamicsProcessor.sampleStep, DynamicsProcessor.unlinkedLoop, hl, List.map,
      processorUnityCurve_calcCurve, sub_self, h0]
    norm_num [processorUnityCurve]
  · have hl : (processorCompressing ℚ true).channelsLinked = true := rfl
    have hin : (1 : ℚ) * (processorCompressing ℚ true).inputGain = 1 := by
      norm_num [processorCompressing]
    have hc : (((processorCompressing ℚ true).channels : ℕ) : ℚ) = 1 := by
      norm_num [processorCompressing]
    have hcurve : (processorCompressing ℚ true).toDynamics.calcCurve 0 = 0 := by
      norm_num [processorCompressing, Dynamics.calcCurve]
    simp only [DynamicsProcessor.process, DynamicsProcessor.sampleLoop,
      DynamicsProcessor.sampleStep, DynamicsProcessor.linkedSample, linkedSum, hl, if_true,
      List.map, hin, hF, zero_add, hc, div_one, hg, hcurve, sub_self, h0]
    norm_num [processorCompressing]
  · have hl : (processorCompressing ℚ false).channelsLinked = false := rfl
    have hin : (1 : ℚ) * (processorCompressing ℚ false).inputGain = 1 := by
      norm_num [processorCompressing]
    have hin2 : (processorCompressing ℚ false).inputGain * 1 = 1 := by
      norm_num [processorCompressing]
    have hcurve : (processorCompressing ℚ false).toDynamics.calcCurve 1 = 3 / 4 := by
      norm_num [processorCompressing, Dynamics.calcCurve]
    have hsub : (3 / 4 : ℚ) - 1 = -1 / 4 := by norm_num
    simp only [DynamicsProcessor.process, DynamicsProcessor.sampleLoop,
      DynamicsProcessor.sampleStep, DynamicsProcessor.unlinkedLoop, hl, List.map, hin, hin2,
      hF, hcurve, hsub]
    norm_num [processorCompressing]

/-- C19, evaluation of the code where the limiter raises the level.  For the limiter
with threshold 0 and a 6 dB knee `calcCurve 0 = 3/4 > 0` and `calcCurve 3 = 6 > 3`;
in general a limiter with a soft knee returns more than its input everywhere in the
knee window above its lower edge, whereas with a hard knee it never returns more than
its input. -/
theorem calcCurve_limiter_knee_raises_level :
    limiterSoft.calcCurve 0 = 3 / 4
      ∧ ¬ (limiterSoft.calcCurve 0 ≤ 0)
      ∧ limiterSoft.calcCurve 3 = 6
      ∧ (∀ d : Dynamics ℚ, d.type = DynamicsType.limiter → 0 < d.kneeWidth →
          ∀ x : ℚ, d.threshold - d.kneeWidth / 2 < x → x ≤ d.threshold + d.kneeWidth / 2 →
            x < d.calcCurve x)
      ∧ (∀ d : Dynamics ℚ, d.type = DynamicsType.limiter → d.kneeWidth = 0 →
          ∀ x : ℚ, d.calcCurve x ≤ x) := by
  refine ⟨?_, ?_, ?_, ?_, ?_⟩
  · norm_num [limiterSoft, Dynamics.calcCurve]
  · norm_num [limiterSoft, Dynamics.calcCurve]
  · norm_num [limiterSoft, Dynamics.calcCurve]
  · intro d htype hk x h1 h2
    have hknee : d.kneeWidth > 0 ∧ x ≥ d.threshold - d.kneeWidth / 2
        ∧ x ≤ d.threshold + d.kneeWidth / 2 := ⟨hk, h1.le, h2⟩
    simp only [Dynamics.calcCurve, htype, if_pos hknee]
    have hsq : 0 < (x - d.threshold + d.kneeWidth / 2) ^ 2 := by
      apply pow_pos
      linarith
    have hpos : 0 < 1 * (x - d.threshold + d.kneeWidth / 2) ^ 2 / (2 * d.kneeWidth) := by
      positivity
    linarith
  · intro d htype hk x
    by_cases hx : d.threshold < x
    · simp [Dynamics.calcCurve, htype, hk, hx, hx.le]
    · simp [Dynamics.calcCurve, htype, hk, hx]

end DivergenceTheorems

/-! ### Binary floating point: rounding to nearest, ties to even -/

namespace FloatingPoint

section OrderedField

variable {K : Type} [LinearOrderedField K]

/-- A coefficient `a` with `a * p ≤ p - 1` shrinks a positive value. -/
theorem mul_lt_of_mul_le_sub_one (a p x : K) (hp : 0 < p) (hx : 0 < x)
    (ha : a * p ≤ p - 1) : a * x < x := by
  have h := mul_le_mul_of_nonneg_right ha hx.le
  have h2 : a * x * p < x * p := by linarith
  exact lt_of_mul_lt_mul_right h2 hp.le

/-- A coefficient `a` with `a * p ≤ p - 1`, `p = 2 * e`, scales `n + 1` below `n + 1 / 2`
when `e ≤ n`. -/
theorem mul_succ_lt_add_half (a p e n v : K) (hp : p = 2 * e) (he : 0 < e) (hn : e ≤ n)
    (hv : 0 < v) (ha : a * p ≤ p - 1) : a * ((n + 1) * v) < (n + 1 / 2) * v := by
  have hn1 : 0 ≤ n + 1 := by linarith
  have h := mul_le_mul_of_nonneg_right ha hn1
  have hp0 : 0 < p := by linarith
  have h2 : a * (n + 1) * p < (n + 1 / 2) * p := by
    rw [hp] at h ⊢
    linarith
  have h3 : a * (n + 1) < n + 1 / 2 := lt_of_mul_lt_mul_right h2 hp0.le
  have := mul_lt_mul_of_pos_right h3 hv
  linarith

/-- The grid of the format is closed under subtraction. -/
theorem onGrid_sub (f : Format) (x y : K) (hx : OnGrid f x) (hy : OnGrid f y) :
    OnGrid f (x - y) := by
  obtain ⟨m, hm⟩ := hx
  obtain ⟨n, hn⟩ := hy
  refine ⟨m - n, ?_⟩
  rw [hm, hn]
  push_cast
  ring

/-- The clamp `std::max (0.0f, e)` leaves a finite `e ≥ 0` in place. -/
theorem fmax_zero_fin (e : K) (he : 0 ≤ e) : fmax (fin 0) (fin e) = fin e := by
  unfold fmax flt
  by_cases h : (0 : K) < e
  · rw [if_pos (decide_eq_true h)]
  · have h0 : e = 0 := le_antisymm (not_lt.mp h) he
    rw [if_neg (by simpa using h), h0]

end OrderedField

variable {K : Type} [LinearOrderedField K] [FloorRing K]

/-- An integer closer than 1/2 is the rounded value. -/
theorem roundHalfEven_eq_of_abs_lt (r : K) (n : ℤ) (h : |r - n| < 1 / 2) :
    roundHalfEven r = n := by
  rw [abs_lt] at h
  unfold roundHalfEven
  rcases le_or_lt (n : K) r with hle | hlt
  · have hf : ⌊r⌋ = n := by
      rw [Int.floor_eq_iff]
      constructor
      · exact hle
      · linarith
    rw [hf, if_pos (by linarith)]
  · have hf : ⌊r⌋ = n - 1 := by
      rw [Int.floor_eq_iff]
      push_cast
      constructor
      · linarith
      · linarith
    rw [hf]
    push_cast
    rw [if_neg (by linarith), if_pos (by linarith)]
    ring

/-- An integer rounds to itself. -/
theorem roundHalfEven_intCast (n : ℤ) : roundHalfEven (n : K) = n :=
  roundHalfEven_eq_of_abs_lt _ n (by simp)

/-- A tie rounds down to an even integer. -/
theorem roundHalfEven_tie_even (r : K) (n : ℤ) (h : r = n + 1 / 2) (he : n % 2 = 0) :
    roundHalfEven r = n := by
  have hf : ⌊r⌋ = n := by
    rw [Int.floor_eq_iff]
    constructor <;> linarith
  unfold roundHalfEven
  rw [hf, if_neg (by rw [h]; simp), if_neg (by rw [h]; simp), if_pos he]

/-- A tie above an odd integer rounds up. -/
theorem roundHalfEven_tie_odd (r : K) (n : ℤ) (h : r = n + 1 / 2) (ho : n % 2 = 1) :
    roundHalfEven r = n + 1 := by
  have hf : ⌊r⌋ = n := by
    rw [Int.floor_eq_iff]
    constructor <;> linarith
  unfold roundHalfEven
  rw [hf, if_neg (by rw [h]; simp), if_neg (by rw [h]; simp), if_neg (by omega)]

/-- The rounded value is within 1/2. -/
theorem roundHalfEven_sub_le (r : K) : |r - roundHalfEven r| ≤ 1 / 2 := by
  have h1 := Int.floor_le r
  have h2 := Int.lt_floor_add_one r
  unfold roundHalfEven
  split_ifs with c1 c2 c3
  · rw [abs_le]; constructor <;> linarith
  · push_cast; rw [abs_le]; constructor <;> linarith
  · have : r - ⌊r⌋ = 1 / 2 := le_antisymm (not_lt.mp c2) (not_lt.mp c1)
    rw [abs_le]; constructor <;> linarith
  · have : r - ⌊r⌋ = 1 / 2 := le_antisymm (not_lt.mp c2) (not_lt.mp c1)
    push_cast; rw [abs_le]; constructor <;> linarith

/-- Rounding does not cross an integer from below. -/
theorem roundHalfEven_le_of_le_int (r : K) (m : ℤ) (h : r ≤ m) : roundHalfEven r ≤ m := by
  have hb := roundHalfEven_sub_le r
  rw [abs_le] at hb
  by_contra hlt
  push_neg at hlt
  have h1 : (m : K) + 1 ≤ (roundHalfEven r : K) := by exact_mod_cast hlt
  linarith [hb.1, hb.2]

/-- Rounding does not cross an integer from above. -/
theorem roundHalfEven_ge_of_int_le (r : K) (m : ℤ) (h : (m : K) ≤ r) : m ≤ roundHalfEven r := by
  have hb := roundHalfEven_sub_le r
  rw [abs_le] at hb
  by_contra hlt
  push_neg at hlt
  have h1 : (roundHalfEven r : K) + 1 ≤ (m : K) := by exact_mod_cast hlt
  linarith [hb.1, hb.2]

/-- A tie is rounded to an even integer. -/
theorem roundHalfEven_even_of_tie (r : K) (h : |r - roundHalfEven r| = 1 / 2) :
    roundHalfEven r % 2 = 0 := by
  have h1 := Int.floor_le r
  have h2 := Int.lt_floor_add_one r
  unfold roundHalfEven at h ⊢
  split_ifs at h ⊢ with c1 c2 c3
  · exfalso
    rw [abs_of_nonneg (by linarith)] at h
    linarith
  · exfalso
    push_cast at h
    rw [abs_of_nonpos (by linarith)] at h
    linarith
  · exact c3
  · omega

/-- The rounded value is the nearest integer, the even one in a tie. -/
theorem roundHalfEven_unique (r : K) (n : ℤ) (h : |r - n| ≤ 1 / 2)
    (he : |r - n| = 1 / 2 → n % 2 = 0) : roundHalfEven r = n := by
  have hb := roundHalfEven_sub_le r
  have hm := roundHalfEven_even_of_tie r
  by_contra hne
  rw [abs_le] at h hb
  have hd : (roundHalfEven r : K) - n ≤ 1 ∧ (n : K) - roundHalfEven r ≤ 1 := by
    constructor <;> linarith [h.1, h.2, hb.1, hb.2]
  have hd1 : roundHalfEven r - n ≤ 1 := by exact_mod_cast hd.1
  have hd2 : n - roundHalfEven r ≤ 1 := by exact_mod_cast hd.2
  rcases lt_or_gt_of_ne hne with hlt | hgt
  · have e : n = roundHalfEven r + 1 := by omega
    have ek : (n : K) = roundHalfEven r + 1 := by exact_mod_cast e
    have t1 : |r - roundHalfEven r| = 1 / 2 := by
      rw [abs_of_nonneg (by linarith [h.1, hb.1])]
      linarith [h.1, h.2, hb.1, hb.2]
    have t2 : |r - n| = 1 / 2 := by
      rw [abs_of_nonpos (by linarith [h.1, hb.2])]
      linarith [h.1, h.2, hb.1, hb.2]
    have := hm t1
    have := he t2
    omega
  · have e : roundHalfEven r = n + 1 := by omega
    have ek : (roundHalfEven r : K) = n + 1 := by exact_mod_cast e
    have t1 : |r - roundHalfEven r| = 1 / 2 := by
      rw [abs_of_nonpos (by linarith [h.2, hb.1])]
      linarith [h.1, h.2, hb.1, hb.2]
    have t2 : |r - n| = 1 / 2 := by
      rw [abs_of_nonneg (by linarith [h.1, hb.2])]
      linarith [h.1, h.2, hb.1, hb.2]
    have := hm t1
    have := he t2
    omega

/-- Rounding to nearest even is odd-symmetric. -/
theorem roundHalfEven_neg (r : K) : roundHalfEven (-r) = -roundHalfEven r := by
  apply roundHalfEven_unique
  · have := roundHalfEven_sub_le r
    have e : -r - ((-roundHalfEven r : ℤ) : K) = -(r - roundHalfEven r) := by push_cast; ring
    rw [e, abs_neg]
    exact this
  · intro h
    have e : -r - ((-roundHalfEven r : ℤ) : K) = -(r - roundHalfEven r) := by push_cast; ring
    rw [e, abs_neg] at h
    have := roundHalfEven_even_of_tie r h
    omega

/-- The exponent is never below the smallest normal exponent. -/
theorem exponent_ge (f : Format) (x : K) : f.emin ≤ exponent f x := by
  unfold exponent
  split_ifs
  · exact le_rfl
  · exact le_max_right _ _

/-- The spacing is positive. -/
theorem ulp_pos (f : Format) (x : K) : 0 < ulp f x := zpow_pos (by norm_num) _

/-- Zero is placed in the lowest binade. -/
theorem exponent_zero (f : Format) : exponent f (0 : K) = f.emin := by
  unfold exponent
  rw [if_pos rfl]

/-- The exponent of a value in the binade `[2 ^ k, 2 ^ (k + 1))`. -/
theorem exponent_eq_of (f : Format) (x : K) (k : ℤ) (hk : f.emin ≤ k) (hlo : (2 : K) ^ k ≤ |x|)
    (hhi : |x| < (2 : K) ^ (k + 1)) : exponent f x = k := by
  have hpos : 0 < |x| := lt_of_lt_of_le (zpow_pos (by norm_num) k) hlo
  have h1 : k ≤ Int.log 2 |x| := by
    rw [← Int.zpow_le_iff_le_log (by norm_num) hpos]
    exact_mod_cast hlo
  have h2 : Int.log 2 |x| < k + 1 := by
    rw [← Int.lt_zpow_iff_log_lt (by norm_num) hpos]
    exact_mod_cast hhi
  unfold exponent
  rw [if_neg (abs_pos.mp hpos), max_eq_left (by omega)]
  omega

/-- The exponent of a value below the normal range. -/
theorem exponent_eq_of_subnormal (f : Format) (x : K) (hhi : |x| < (2 : K) ^ f.emin) :
    exponent f x = f.emin := by
  unfold exponent
  split_ifs with h0
  · rfl
  · have hpos : 0 < |x| := abs_pos.mpr h0
    have h2 : Int.log 2 |x| < f.emin := by
      rw [← Int.lt_zpow_iff_log_lt (by norm_num) hpos]
      exact_mod_cast hhi
    exact max_eq_right h2.le

/-- A value lies below the upper end of its binade. -/
theorem abs_lt_zpow_exponent (f : Format) (x : K) : |x| < (2 : K) ^ (exponent f x + 1) := by
  by_cases h0 : x = 0
  · rw [h0, abs_zero]
    exact zpow_pos (by norm_num) _
  · have h := Int.lt_zpow_succ_log_self (b := 2) (by norm_num) |x|
    have h2 : ((2 : ℕ) : K) ^ (Int.log 2 |x| + 1) ≤ (2 : K) ^ (exponent f x + 1) := by
      push_cast
      apply zpow_le_zpow_right₀ (by norm_num)
      have := le_max_left (Int.log 2 |x|) f.emin
      unfold exponent
      rw [if_neg h0]
      omega
    exact lt_of_lt_of_le h h2

/-- A value above the lowest binade lies above the lower end of its binade. -/
theorem zpow_exponent_le_of_gt (f : Format) (z : K) (h : f.emin < exponent f z) :
    (2 : K) ^ (exponent f z) ≤ |z| := by
  have hz : z ≠ 0 := fun hz => by
    rw [hz, exponent_zero] at h
    exact absurd h (lt_irrefl _)
  have hpos : 0 < |z| := abs_pos.mpr hz
  unfold exponent at h ⊢
  rw [if_neg hz] at h ⊢
  have hlog : f.emin < Int.log 2 |z| := by
    rcases max_choice (Int.log 2 |z|) f.emin with hm | hm
    · rw [hm] at h; exact h
    · rw [hm] at h; exact absurd h (lt_irrefl _)
  rw [max_eq_left hlog.le]
  have := Int.zpow_log_le_self (b := 2) (by norm_num) hpos
  exact_mod_cast this

/-- The exponent does not depend on the sign. -/
theorem exponent_neg (f : Format) (x : K) : exponent f (-x) = exponent f x := by
  unfold exponent
  rw [abs_neg]
  by_cases h : x = 0
  · rw [if_pos h, if_pos (neg_eq_zero.mpr h)]
  · rw [if_neg h, if_neg (fun hn => h (neg_eq_zero.mp hn))]

/-- The exponent is monotone in the magnitude. -/
theorem exponent_mono (f : Format) (z b : K) (h : |z| ≤ |b|) :
    exponent f z ≤ exponent f b := by
  by_cases hz : z = 0
  · rw [hz, exponent_zero]
    exact exponent_ge f b
  · have hzpos : 0 < |z| := abs_pos.mpr hz
    have hb : b ≠ 0 := fun hb => by
      rw [hb, abs_zero] at h
      exact absurd hzpos (not_lt.mpr h)
    unfold exponent
    rw [if_neg hz, if_neg hb]
    exact max_le_max (Int.log_mono_right hzpos h) le_rfl

/-- The spacing does not depend on the sign. -/
theorem ulp_neg (f : Format) (x : K) : ulp f (-x) = ulp f x := by
  unfold ulp
  rw [exponent_neg]

/-- The lower end of a binade in units of its spacing. -/
theorem two_pow_mul_ulp (f : Format) (z : K) :
    ((2 ^ f.prec : ℤ) : K) * ulp f z = (2 : K) ^ (exponent f z) := by
  unfold ulp
  have h : ((2 ^ f.prec : ℤ) : K) = (2 : K) ^ (f.prec : ℤ) := by
    rw [zpow_natCast]
    norm_num
  rw [h, ← zpow_add₀ (by norm_num)]
  congr 1
  ring

/-- The upper end of a binade in units of its spacing. -/
theorem two_pow_succ_mul_ulp (f : Format) (z : K) :
    ((2 ^ (f.prec + 1) : ℤ) : K) * ulp f z = (2 : K) ^ (exponent f z + 1) := by
  unfold ulp
  have h : ((2 ^ (f.prec + 1) : ℤ) : K) = (2 : K) ^ ((f.prec : ℤ) + 1) := by
    have e : ((f.prec : ℤ) + 1) = ((f.prec + 1 : ℕ) : ℤ) := by push_cast; ring
    rw [e, zpow_natCast]
    norm_num
  rw [h, ← zpow_add₀ (by norm_num)]
  congr 1
  ring

/-- A value has fewer than `2 ^ (prec + 1)` units of its spacing. -/
theorem abs_div_ulp_lt (f : Format) (x : K) :
    |x / ulp f x| < ((2 ^ (f.prec + 1) : ℤ) : K) := by
  rw [abs_div, abs_of_pos (ulp_pos f x), div_lt_iff₀ (ulp_pos f x), two_pow_succ_mul_ulp]
  exact abs_lt_zpow_exponent f x

/-- Zero rounds to zero. -/
theorem nearest_zero (f : Format) : nearest f (0 : K) = 0 := by
  unfold nearest
  rw [zero_div]
  have := roundHalfEven_intCast (K := K) 0
  simp only [Int.cast_zero] at this
  rw [this]
  simp

/-- Zero rounds to the finite value zero. -/
theorem roundTo_zero (f : Format) : roundTo f (0 : K) = fin 0 := by
  unfold roundTo
  rw [nearest_zero]
  simp

/-- Rounding to nearest is odd-symmetric. -/
theorem nearest_neg (f : Format) (x : K) : nearest f (-x) = -nearest f x := by
  unfold nearest
  rw [ulp_neg, neg_div, roundHalfEven_neg]
  push_cast
  ring

/-- Evaluation of `roundTo` in a normal binade. -/
theorem roundTo_eq_of (f : Format) (x : K) (k n : ℤ) (hk : f.emin ≤ k) (hlo : (2 : K) ^ k ≤ |x|)
    (hhi : |x| < (2 : K) ^ (k + 1)) (hn : roundHalfEven (x / (2 : K) ^ (k - f.prec)) = n)
    (hfin : |(n : K) * (2 : K) ^ (k - f.prec)| < (2 : K) ^ f.emax) :
    roundTo f x = fin ((n : K) * (2 : K) ^ (k - f.prec)) := by
  unfold roundTo nearest ulp
  rw [exponent_eq_of f x k hk hlo hhi, hn, if_neg (not_le.mpr hfin)]

/-- Evaluation of `roundTo` below the normal range. -/
theorem roundTo_eq_of_subnormal (f : Format) (x : K) (n : ℤ)
    (hhi : |x| < (2 : K) ^ f.emin) (hn : roundHalfEven (x / (2 : K) ^ (f.emin - f.prec)) = n)
    (hfin : |(n : K) * (2 : K) ^ (f.emin - f.prec)| < (2 : K) ^ f.emax) :
    roundTo f x = fin ((n : K) * (2 : K) ^ (f.emin - f.prec)) := by
  unfold roundTo nearest ulp
  rw [exponent_eq_of_subnormal f x hhi, hn, if_neg (not_le.mpr hfin)]

/-- Evaluation of `roundTo` at an overflowing value. -/
theorem roundTo_eq_inf_of (f : Format) (x : K) (k n : ℤ) (hk : f.emin ≤ k)
    (hlo : (2 : K) ^ k ≤ |x|) (hhi : |x| < (2 : K) ^ (k + 1))
    (hn : roundHalfEven (x / (2 : K) ^ (k - f.prec)) = n)
    (hinf : (2 : K) ^ f.emax ≤ |(n : K) * (2 : K) ^ (k - f.prec)|) :
    roundTo f x = inf (decide (x < 0)) := by
  unfold roundTo nearest ulp
  rw [exponent_eq_of f x k hk hlo hhi, hn, if_pos hinf]

/-- A value of the format is a fixed point of rounding below the overflow threshold. -/
theorem representable_iff (f : Format) (x : K) :
    Representable f x ↔ nearest f x = x ∧ |x| < (2 : K) ^ f.emax := by
  unfold Representable roundTo
  constructor
  · intro h
    split_ifs at h with c
    · have hx : nearest f x = x := by injection h
      exact ⟨hx, hx ▸ not_le.mp c⟩
  · rintro ⟨h1, h2⟩
    rw [h1, if_neg (not_le.mpr h2)]

/-- Zero is a value of every format. -/
theorem representable_zero (f : Format) : Representable f (0 : K) := roundTo_zero f

/-- The values of a format are closed under negation. -/
theorem representable_neg (f : Format) (x : K) (h : Representable f x) :
    Representable f (-x) := by
  rw [representable_iff] at h ⊢
  rw [nearest_neg, h.1, abs_neg]
  exact ⟨rfl, h.2⟩

/-- The values of a format are closed under `std::fabs`. -/
theorem representable_abs (f : Format) (x : K) (h : Representable f x) :
    Representable f |x| := by
  rcases abs_choice x with e | e
  · rw [e]; exact h
  · rw [e]; exact representable_neg f x h

/-- A non-negative value rounds to a non-negative value. -/
theorem nearest_nonneg (f : Format) (z : K) (h : 0 ≤ z) : 0 ≤ nearest f z := by
  unfold nearest
  apply mul_nonneg _ (ulp_pos f z).le
  have : (0 : ℤ) ≤ roundHalfEven (z / ulp f z) :=
    roundHalfEven_ge_of_int_le _ 0 (by simpa using div_nonneg h (ulp_pos f z).le)
  exact_mod_cast this

/-- A non-positive value rounds to a non-positive value. -/
theorem nearest_nonpos (f : Format) (z : K) (h : z ≤ 0) : nearest f z ≤ 0 := by
  have := nearest_nonneg f (-z) (neg_nonneg.mpr h)
  rw [nearest_neg] at this
  linarith

/-- The ulp of a larger binade is an integer multiple of the ulp of a smaller one. -/
theorem ulp_eq_mul_of_le (f : Format) (z b : K) (h : exponent f z ≤ exponent f b) :
    ulp f b = ((2 ^ (exponent f b - exponent f z).toNat : ℤ) : K) * ulp f z := by
  unfold ulp
  have hd : ((exponent f b - exponent f z).toNat : ℤ) = exponent f b - exponent f z :=
    Int.toNat_of_nonneg (by omega)
  push_cast
  rw [← zpow_natCast, hd, ← zpow_add₀ (by norm_num)]
  congr 1
  ring

/-- Rounding a non-negative value never crosses a value of the format above it. -/
theorem nearest_le_of_nonneg (f : Format) (z b : K) (hz : 0 ≤ z) (h : z ≤ b)
    (hb1 : nearest f b = b) : nearest f z ≤ b := by
  have hexp : exponent f z ≤ exponent f b :=
    exponent_mono f z b (by rw [abs_of_nonneg hz, abs_of_nonneg (hz.trans h)]; exact h)
  have hu := ulp_eq_mul_of_le f z b hexp
  have hbu : b = ((roundHalfEven (b / ulp f b)
      * 2 ^ (exponent f b - exponent f z).toNat : ℤ) : K) * ulp f z := by
    conv_lhs => rw [← hb1]
    unfold nearest
    rw [hu]
    push_cast
    ring
  have hle : z / ulp f z
      ≤ ((roundHalfEven (b / ulp f b) * 2 ^ (exponent f b - exponent f z).toNat : ℤ) : K) := by
    rw [div_le_iff₀ (ulp_pos f z), ← hbu]
    exact h
  have hr := roundHalfEven_le_of_le_int _ _ hle
  have hr' : (roundHalfEven (z / ulp f z) : K)
      ≤ ((roundHalfEven (b / ulp f b) * 2 ^ (exponent f b - exponent f z).toNat : ℤ) : K) := by
    exact_mod_cast hr
  unfold nearest
  calc (roundHalfEven (z / ulp f z) : K) * ulp f z
      ≤ ((roundHalfEven (b / ulp f b) * 2 ^ (exponent f b - exponent f z).toNat : ℤ) : K)
          * ulp f z := mul_le_mul_of_nonneg_right hr' (ulp_pos f z).le
    _ = b := hbu.symm

/-- Rounding never crosses a non-negative value of the format below. -/
theorem le_nearest_of_nonneg (f : Format) (b z : K) (hb0 : 0 ≤ b) (h : b ≤ z)
    (hb1 : nearest f b = b) : b ≤ nearest f z := by
  have hz0 : 0 ≤ z := hb0.trans h
  have hexp : exponent f b ≤ exponent f z :=
    exponent_mono f b z (by rw [abs_of_nonneg hb0, abs_of_nonneg hz0]; exact h)
  rcases hexp.lt_or_eq with hlt | heq
  · have hnorm := zpow_exponent_le_of_gt f z (lt_of_le_of_lt (exponent_ge f b) hlt)
    rw [abs_of_nonneg hz0] at hnorm
    have e := two_pow_mul_ulp f z
    have hge : ((2 ^ f.prec : ℤ) : K) ≤ z / ulp f z := by
      rw [le_div_iff₀ (ulp_pos f z), e]
      exact hnorm
    have hr := roundHalfEven_ge_of_int_le _ _ hge
    have hr' : ((2 ^ f.prec : ℤ) : K) ≤ (roundHalfEven (z / ulp f z) : K) := by
      exact_mod_cast hr
    have hb_lt := abs_lt_zpow_exponent f b
    rw [abs_of_nonneg hb0] at hb_lt
    have hpow : (2 : K) ^ (exponent f b + 1) ≤ (2 : K) ^ (exponent f z) :=
      zpow_le_zpow_right₀ (by norm_num) (by omega)
    unfold nearest
    calc b ≤ (2 : K) ^ (exponent f z) := (hb_lt.trans_le hpow).le
      _ = ((2 ^ f.prec : ℤ) : K) * ulp f z := e.symm
      _ ≤ (roundHalfEven (z / ulp f z) : K) * ulp f z :=
        mul_le_mul_of_nonneg_right hr' (ulp_pos f z).le
  · have hu : ulp f b = ulp f z := by unfold ulp; rw [heq]
    have hbu : b = (roundHalfEven (b / ulp f b) : K) * ulp f z := by
      conv_lhs => rw [← hb1]
      unfold nearest
      rw [hu]
    have hle : (roundHalfEven (b / ulp f b) : K) ≤ z / ulp f z := by
      rw [le_div_iff₀ (ulp_pos f z), ← hbu]
      exact h
    have hr := roundHalfEven_ge_of_int_le _ _ hle
    have hr' : (roundHalfEven (b / ulp f b) : K) ≤ (roundHalfEven (z / ulp f z) : K) := by
      exact_mod_cast hr
    unfold nearest
    calc b = (roundHalfEven (b / ulp f b) : K) * ulp f z := hbu
      _ ≤ (roundHalfEven (z / ulp f z) : K) * ulp f z :=
        mul_le_mul_of_nonneg_right hr' (ulp_pos f z).le

/-- Rounding never crosses a value of the format from below. -/
theorem nearest_le_of_le (f : Format) (z b : K) (h : z ≤ b) (hb : nearest f b = b) :
    nearest f z ≤ b := by
  rcases le_or_lt 0 z with hz | hz
  · exact nearest_le_of_nonneg f z b hz h hb
  · rcases le_or_lt 0 b with hb0 | hb0
    · exact (nearest_nonpos f z hz.le).trans hb0
    · have := le_nearest_of_nonneg f (-b) (-z) (by linarith) (by linarith)
        (by rw [nearest_neg, hb])
      rw [nearest_neg] at this
      linarith

/-- Rounding never crosses a value of the format from above. -/
theorem le_nearest_of_le (f : Format) (b z : K) (h : b ≤ z) (hb : nearest f b = b) :
    b ≤ nearest f z := by
  have := nearest_le_of_le f (-z) (-b) (by linarith) (by rw [nearest_neg, hb])
  rw [nearest_neg] at this
  linarith

/-- An exact result between two values of the format rounds to a finite value between
them. -/
theorem roundTo_of_between (f : Format) (z lo hi : K) (h1 : lo ≤ z) (h2 : z ≤ hi)
    (hlo : Representable f lo) (hhi : Representable f hi) :
    roundTo f z = fin (nearest f z) ∧ lo ≤ nearest f z ∧ nearest f z ≤ hi := by
  rw [representable_iff] at hlo hhi
  have a1 := le_nearest_of_le f lo z h1 hlo.1
  have a2 := nearest_le_of_le f z hi h2 hhi.1
  have b1 := hlo.2
  have b2 := hhi.2
  refine ⟨?_, a1, a2⟩
  unfold roundTo
  rw [if_neg]
  rw [not_le, abs_lt]
  rw [abs_lt] at b1 b2
  constructor <;> linarith [b1.1, b1.2, b2.1, b2.2]

/-- A value that is an integer multiple of its own ulp is a fixed point of rounding. -/
theorem nearest_eq_self_of (f : Format) (w : K) (n : ℤ) (h : w = n * ulp f w) :
    nearest f w = w := by
  unfold nearest
  have e : w / ulp f w = n := by
    rw [div_eq_iff (ulp_pos f w).ne']
    exact h
  rw [e, roundHalfEven_intCast]
  exact h.symm

/-- An integer multiple of the spacing of its own binade is a fixed point of
rounding. -/
theorem nearest_eq_self_of_exponent (f : Format) (w : K) (n k : ℤ)
    (h : w = n * (2 : K) ^ (k - f.prec)) (hk : exponent f w = k) : nearest f w = w := by
  apply nearest_eq_self_of f w n
  unfold ulp
  rw [hk]
  exact h

/-- Rounding is idempotent. -/
theorem nearest_nearest (f : Format) (z : K) : nearest f (nearest f z) = nearest f z := by
  wlog hz : 0 ≤ z with H
  · have := H f (-z) (by linarith)
    rw [nearest_neg, nearest_neg] at this
    linarith
  have hw0 := nearest_nonneg f z hz
  set k := exponent f z with hk
  set n := roundHalfEven (z / ulp f z) with hn
  have hw : nearest f z = n * ulp f z := rfl
  have hu : ulp f z = (2 : K) ^ (k - f.prec) := rfl
  have hupos := ulp_pos f z
  have hn0 : 0 ≤ n := by
    have : (0 : K) ≤ n * ulp f z := hw ▸ hw0
    have h' : (0 : K) ≤ n := nonneg_of_mul_nonneg_left this hupos
    exact_mod_cast h'
  have hn24 : n ≤ 2 ^ (f.prec + 1) :=
    roundHalfEven_le_of_le_int _ _ ((le_abs_self _).trans (abs_div_ulp_lt f z).le)
  have e23 := two_pow_mul_ulp f z
  have e24 := two_pow_succ_mul_ulp f z
  rw [← hk] at e23 e24
  rcases hn24.lt_or_eq with hlt | heq
  · by_cases hge : 2 ^ f.prec ≤ n
    · -- same binade
      apply nearest_eq_self_of_exponent f _ n k (by rw [hw, hu])
      apply exponent_eq_of f _ k (exponent_ge f z)
      · rw [abs_of_nonneg hw0, hw, ← e23]
        apply mul_le_mul_of_nonneg_right _ hupos.le
        exact_mod_cast hge
      · rw [abs_of_nonneg hw0, hw, ← e24]
        apply mul_lt_mul_of_pos_right _ hupos
        exact_mod_cast hlt
    · -- below the normal range
      push_neg at hge
      have hkmin : k = f.emin := by
        by_contra hne
        have hgt : f.emin < exponent f z :=
          lt_of_le_of_ne (exponent_ge f z) (fun h => hne (hk ▸ h.symm))
        have hnorm := zpow_exponent_le_of_gt f z hgt
        rw [abs_of_nonneg hz, ← hk, ← e23] at hnorm
        have h1 : ((2 ^ f.prec : ℤ) : K) ≤ z / ulp f z := by
          rw [le_div_iff₀ hupos]
          exact hnorm
        have := roundHalfEven_ge_of_int_le _ _ h1
        omega
      apply nearest_eq_self_of_exponent f _ n k (by rw [hw, hu])
      rw [hkmin]
      apply exponent_eq_of_subnormal
      rw [abs_of_nonneg hw0, hw, ← hkmin, ← e23]
      apply mul_lt_mul_of_pos_right _ hupos
      exact_mod_cast hge
  · -- rounded up to the next power of two
    have hwv : nearest f z = (2 : K) ^ (k + 1) := by
      rw [hw, heq, e24]
    have hkk : exponent f (nearest f z) = k + 1 := by
      apply exponent_eq_of f _ (k + 1) (by have := exponent_ge f z; omega)
      · rw [hwv, abs_of_pos (zpow_pos (by norm_num) _)]
      · rw [hwv, abs_of_pos (zpow_pos (by norm_num) _)]
        exact zpow_lt_zpow_right₀ (by norm_num) (by omega)
    apply nearest_eq_self_of_exponent f _ (2 ^ f.prec) (k + 1) _ hkk
    rw [hwv]
    have h : ((2 ^ f.prec : ℤ) : K) = (2 : K) ^ (f.prec : ℤ) := by
      rw [zpow_natCast]
      norm_num
    rw [h, ← zpow_add₀ (by norm_num)]
    congr 1
    ring

/-- The finite result of a rounding is a value of the format. -/
theorem representable_of_roundTo (f : Format) (z w : K) (h : roundTo f z = fin w) :
    Representable f w := by
  unfold roundTo at h
  split_ifs at h with c
  have hw : nearest f z = w := by injection h
  rw [representable_iff, ← hw, nearest_nearest]
  exact ⟨rfl, not_le.mp c⟩

/-- Rounding gives the floor or the integer above it. -/
theorem roundHalfEven_eq_floor_or (r : K) :
    roundHalfEven r = ⌊r⌋ ∨ roundHalfEven r = ⌊r⌋ + 1 := by
  unfold roundHalfEven
  split_ifs
  · exact Or.inl rfl
  · exact Or.inr rfl
  · exact Or.inl rfl
  · exact Or.inr rfl

/-- A value below `n + 1 / 2` rounds to at most `n`. -/
theorem roundHalfEven_le_of_lt_half (r : K) (n : ℤ) (h : r < n + 1 / 2) :
    roundHalfEven r ≤ n := by
  have hb := roundHalfEven_sub_le r
  rw [abs_le] at hb
  by_contra hlt
  push_neg at hlt
  have h1 : (n : K) + 1 ≤ (roundHalfEven r : K) := by exact_mod_cast hlt
  linarith [hb.1, hb.2]

/-- A fixed point of rounding lies on the grid of the format. -/
theorem onGrid_of_nearest_eq (f : Format) (x : K) (h : nearest f x = x) : OnGrid f x := by
  have hk := exponent_ge f x
  have hd : ((exponent f x - f.emin).toNat : ℤ) = exponent f x - f.emin :=
    Int.toNat_of_nonneg (by omega)
  refine ⟨roundHalfEven (x / ulp f x) * 2 ^ (exponent f x - f.emin).toNat, ?_⟩
  conv_lhs => rw [← h]
  unfold nearest ulp
  push_cast
  rw [mul_assoc, ← zpow_natCast, hd, ← zpow_add₀ (by norm_num)]
  congr 2
  ring

/-- A value of the format lies on its grid. -/
theorem onGrid_of_representable (f : Format) (x : K) (h : Representable f x) : OnGrid f x :=
  onGrid_of_nearest_eq f x ((representable_iff f x).mp h).1

/-- Below the normal range every grid point is a fixed point of rounding. -/
theorem nearest_eq_self_of_onGrid (f : Format) (y : K) (hg : OnGrid f y)
    (hy : |y| < (2 : K) ^ f.emin) : nearest f y = y := by
  obtain ⟨m, hm⟩ := hg
  exact nearest_eq_self_of_exponent f y m f.emin hm (exponent_eq_of_subnormal f y hy)

/-- A value of the format below 1 is at most the largest value of the format below 1. -/
theorem mul_two_pow_le_of_lt_one (f : Format) (hf : f.emin ≤ -1) (a : K)
    (ha : nearest f a = a) (h1 : a < 1) :
    a * ((2 ^ (f.prec + 1) : ℤ) : K) ≤ ((2 ^ (f.prec + 1) : ℤ) : K) - 1 := by
  have hP : (1 : K) ≤ ((2 ^ f.prec : ℤ) : K) := by
    push_cast
    exact one_le_pow₀ (by norm_num)
  have hP2 : ((2 ^ (f.prec + 1) : ℤ) : K) = 2 * ((2 ^ f.prec : ℤ) : K) := by
    push_cast
    ring
  rcases lt_or_le a (1 / 2) with hlt | hge
  · rw [hP2]
    nlinarith
  · have ha0 : 0 ≤ a := by linarith
    have hk : exponent f a = -1 := by
      apply exponent_eq_of f a (-1) hf
      · rw [abs_of_nonneg ha0]
        norm_num
        linarith
      · rw [abs_of_nonneg ha0]
        norm_num
        exact h1
    have e24 := two_pow_succ_mul_ulp f a
    rw [hk] at e24
    norm_num at e24
    have hupos := ulp_pos f a
    have hau : a = (roundHalfEven (a / ulp f a) : K) * ulp f a := by
      conv_lhs => rw [← ha]
      rfl
    set n := roundHalfEven (a / ulp f a) with hn
    have hlt : (n : K) < ((2 ^ (f.prec + 1) : ℤ) : K) := by
      by_contra hc
      push_neg at hc
      have : ((2 ^ (f.prec + 1) : ℤ) : K) * ulp f a ≤ (n : K) * ulp f a :=
        mul_le_mul_of_nonneg_right hc hupos.le
      push_cast at this
      rw [e24, ← hau] at this
      linarith
    have hle : n ≤ 2 ^ (f.prec + 1) - 1 := by
      have : n < 2 ^ (f.prec + 1) := by exact_mod_cast hlt
      omega
    have hle' : (n : K) ≤ ((2 ^ (f.prec + 1) : ℤ) : K) - 1 := by exact_mod_cast hle
    have hu1 : ulp f a * ((2 ^ (f.prec + 1) : ℤ) : K) = 1 := by
      rw [mul_comm]
      push_cast
      exact e24
    calc a * ((2 ^ (f.prec + 1) : ℤ) : K)
        = (n : K) * ulp f a * ((2 ^ (f.prec + 1) : ℤ) : K) := by rw [← hau]
      _ = (n : K) * (ulp f a * ((2 ^ (f.prec + 1) : ℤ) : K)) := by ring
      _ = n := by rw [hu1, mul_one]
      _ ≤ _ := hle'

/-- Rounding a difference, scaling it by a coefficient below 1 and rounding again never
gives more than the exact difference. -/
theorem nearest_mul_nearest_le (f : Format) (a y : K)
    (ha : a * ((2 ^ (f.prec + 1) : ℤ) : K) ≤ ((2 ^ (f.prec + 1) : ℤ) : K) - 1)
    (hy : 0 ≤ y) (hg : OnGrid f y) : nearest f (a * nearest f y) ≤ y := by
  have hPpos : (0 : K) < ((2 ^ (f.prec + 1) : ℤ) : K) := by
    push_cast
    exact pow_pos (by norm_num) _
  have hEpos : (0 : K) < ((2 ^ f.prec : ℤ) : K) := by
    push_cast
    exact pow_pos (by norm_num) _
  have hP2 : ((2 ^ (f.prec + 1) : ℤ) : K) = 2 * ((2 ^ f.prec : ℤ) : K) := by
    push_cast
    ring
  have ha1 : a ≤ 1 := by
    by_contra hc
    push_neg at hc
    have := mul_lt_mul_of_pos_right hc hPpos
    linarith
  have hscale : ∀ x : K, 0 ≤ x → a * x ≤ x := fun x hx => by
    have := mul_le_mul_of_nonneg_right ha1 hx
    linarith
  rcases lt_or_le y ((2 : K) ^ f.emin) with hsub | hnorm
  · have hyy : nearest f y = y :=
      nearest_eq_self_of_onGrid f y hg (by rw [abs_of_nonneg hy]; exact hsub)
    rw [hyy]
    exact nearest_le_of_le f (a * y) y (hscale y hy) hyy
  · obtain ⟨k, hk⟩ : ∃ k, k = exponent f y := ⟨_, rfl⟩
    obtain ⟨v, hv⟩ : ∃ v, v = ulp f y := ⟨_, rfl⟩
    have hupos : 0 < v := hv ▸ ulp_pos f y
    have hu : v = (2 : K) ^ (k - f.prec) := by rw [hv, hk]; rfl
    have e23 : ((2 ^ f.prec : ℤ) : K) * v = (2 : K) ^ k := by
      rw [hv, hk]; exact two_pow_mul_ulp f y
    have e24 : ((2 ^ (f.prec + 1) : ℤ) : K) * v = (2 : K) ^ (k + 1) := by
      rw [hv, hk]; exact two_pow_succ_mul_ulp f y
    have hkmin : f.emin ≤ k := hk ▸ exponent_ge f y
    have hlo : (2 : K) ^ k ≤ y := by
      rcases hkmin.lt_or_eq with hlt | heq
      · have := zpow_exponent_le_of_gt f y (hk ▸ hlt)
        rwa [abs_of_nonneg hy, ← hk] at this
      · rw [← heq]
        exact hnorm
    have hhi : y < (2 : K) ^ (k + 1) := by
      have := abs_lt_zpow_exponent f y
      rwa [abs_of_nonneg hy, ← hk] at this
    obtain ⟨n, hn⟩ : ∃ n : ℤ, n = ⌊y / v⌋ := ⟨_, rfl⟩
    have hfl1 : ((2 ^ f.prec : ℤ) : K) ≤ y / v := by
      rw [le_div_iff₀ hupos, e23]
      exact hlo
    have hfl2 : y / v < ((2 ^ (f.prec + 1) : ℤ) : K) := by
      rw [div_lt_iff₀ hupos, e24]
      exact hhi
    have hn1 : 2 ^ f.prec ≤ n := hn ▸ Int.le_floor.mpr hfl1
    have hn2 : n < 2 ^ (f.prec + 1) := hn ▸ Int.floor_lt.mpr hfl2
    have hn1K : ((2 ^ f.prec : ℤ) : K) ≤ (n : K) := by exact_mod_cast hn1
    have hn2K : (n : K) + 1 ≤ ((2 ^ (f.prec + 1) : ℤ) : K) := by
      have : n + 1 ≤ 2 ^ (f.prec + 1) := by omega
      exact_mod_cast this
    have hfpos : (0 : K) < (n : K) := by linarith
    -- the value of the format just below `y`
    have hBy : (n : K) * v ≤ y := by
      have := Int.floor_le (y / v)
      rw [← hn, le_div_iff₀ hupos] at this
      exact this
    have hB0 : 0 ≤ (n : K) * v := mul_nonneg hfpos.le hupos.le
    have hBlo : (2 : K) ^ k ≤ (n : K) * v := by
      rw [← e23]
      exact mul_le_mul_of_nonneg_right hn1K hupos.le
    have hBexp : exponent f ((n : K) * v) = k := by
      apply exponent_eq_of f _ k hkmin
      · rwa [abs_of_nonneg hB0]
      · rw [abs_of_nonneg hB0]
        exact lt_of_le_of_lt hBy hhi
    have hBB : nearest f ((n : K) * v) = (n : K) * v :=
      nearest_eq_self_of_exponent f _ n k (by rw [hu]) hBexp
    have hD : nearest f y = (roundHalfEven (y / v) : K) * v := by rw [hv]; rfl
    rcases roundHalfEven_eq_floor_or (y / v) with hc | hc
    · rw [hD, hc, ← hn]
      refine le_trans ?_ hBy
      exact nearest_le_of_le f _ _ (hscale _ hB0) hBB
    · rw [hD, hc, ← hn]
      push_cast
      refine le_trans ?_ hBy
      have hX : 0 < ((n : K) + 1) * v := mul_pos (by linarith) hupos
      rcases le_or_lt (a * (((n : K) + 1) * v)) ((n : K) * v) with hzB | hzB
      · exact nearest_le_of_le f _ _ hzB hBB
      · obtain ⟨z, hz⟩ : ∃ z, z = a * (((n : K) + 1) * v) := ⟨_, rfl⟩
        rw [← hz] at hzB ⊢
        have hz0 : 0 ≤ z := hB0.trans hzB.le
        have hzX : z < ((n : K) + 1) * v := by
          rw [hz]
          exact mul_lt_of_mul_le_sub_one a _ _ hPpos hX ha
        have hzhi : z < (2 : K) ^ (k + 1) := by
          rw [← e24]
          exact lt_of_lt_of_le hzX (mul_le_mul_of_nonneg_right hn2K hupos.le)
        have hzexp : exponent f z = k := by
          apply exponent_eq_of f z k hkmin
          · rw [abs_of_nonneg hz0]
            exact hBlo.trans hzB.le
          · rwa [abs_of_nonneg hz0]
        have hzu : ulp f z = v := by
          unfold ulp
          rw [hzexp, hu]
        have hratio : z / ulp f z < (n : K) + 1 / 2 := by
          rw [hzu, div_lt_iff₀ hupos, hz]
          exact mul_succ_lt_add_half a _ _ _ v hP2 hEpos hn1K hupos ha
        have hrne := roundHalfEven_le_of_lt_half _ _ hratio
        have hrne' : (roundHalfEven (z / ulp f z) : K) ≤ (n : K) := by exact_mod_cast hrne
        unfold nearest
        rw [hzu] at hrne' ⊢
        exact mul_le_mul_of_nonneg_right hrne' hupos.le

/-- The one-pole update `c * (p - q) + q` of lines 50 and 59 in the format `f`: for
finite non-negative `p` and `q` and a coefficient `0 ≤ c < 1` every intermediate result
is finite, and the rounded result lies between `p` and `q`. -/
theorem onePole_between (f : Format) (hf : f.emin ≤ -1) (c p q : K)
    (hc0 : 0 ≤ c) (hc1 : c < 1) (hrc : Representable f c)
    (hp : 0 ≤ p) (hq : 0 ≤ q) (hrp : Representable f p) (hrq : Representable f q) :
    fadd f (fmul f (fin c) (fsub f (fin p) (fin q))) (fin q)
        = fin (nearest f (nearest f (c * nearest f (p - q)) + q))
      ∧ min p q ≤ nearest f (nearest f (c * nearest f (p - q)) + q)
      ∧ nearest f (nearest f (c * nearest f (p - q)) + q) ≤ max p q := by
  have hcP := mul_two_pow_le_of_lt_one f hf c ((representable_iff f c).mp hrc).1 hc1
  have hgp := onGrid_of_representable f p hrp
  have hgq := onGrid_of_representable f q hrq
  have hrnq := representable_neg f q hrq
  have hrnp := representable_neg f p hrp
  have hr0 := representable_zero (K := K) f
  have hscale : ∀ x : K, 0 ≤ x → c * x ≤ x := fun x hx => by
    have := mul_le_mul_of_nonneg_right hc1.le hx
    linarith
  have step1 : fsub f (fin p) (fin q) = roundTo f (p - q) := by
    unfold fsub fneg fadd
    rw [sub_eq_add_neg]
  rcases le_total p q with hpq | hqp
  · -- the input is not below the envelope
    rw [min_eq_left hpq, max_eq_right hpq]
    have hL := nearest_mul_nearest_le f c (q - p) hcP (by linarith) (onGrid_sub f q p hgq hgp)
    have hneg : p - q = -(q - p) := by ring
    have hD0 : 0 ≤ nearest f (q - p) := nearest_nonneg f _ (by linarith)
    have hT0 : 0 ≤ nearest f (c * nearest f (q - p)) :=
      nearest_nonneg f _ (mul_nonneg hc0 hD0)
    obtain ⟨e1, l1, u1⟩ := roundTo_of_between f (p - q) (-q) 0 (by linarith) (by linarith)
      hrnq hr0
    have hcd1 : -q ≤ c * nearest f (p - q) := by
      have := hscale (-nearest f (p - q)) (by linarith)
      linarith
    have hcd2 : c * nearest f (p - q) ≤ 0 :=
      mul_nonpos_of_nonneg_of_nonpos hc0 u1
    obtain ⟨e2, l2, u2⟩ := roundTo_of_between f (c * nearest f (p - q)) (-q) 0 hcd1 hcd2
      hrnq hr0
    have hT : nearest f (c * nearest f (p - q)) = -nearest f (c * nearest f (q - p)) := by
      rw [hneg, nearest_neg, mul_neg, nearest_neg]
    obtain ⟨e3, l3, u3⟩ := roundTo_of_between f (nearest f (c * nearest f (p - q)) + q) p q
      (by rw [hT]; linarith) (by rw [hT]; linarith) hrp hrq
    refine ⟨?_, l3, u3⟩
    rw [step1, e1]
    unfold fmul
    simp only
    rw [e2]
    unfold fadd
    simp only
    rw [e3]
  · -- the input is not above the envelope
    rw [min_eq_right hqp, max_eq_left hqp]
    have hL := nearest_mul_nearest_le f c (p - q) hcP (by linarith) (onGrid_sub f p q hgp hgq)
    obtain ⟨e1, l1, u1⟩ := roundTo_of_between f (p - q) 0 p (by linarith) (by linarith)
      hr0 hrp
    have hcd1 : 0 ≤ c * nearest f (p - q) := mul_nonneg hc0 l1
    have hcd2 : c * nearest f (p - q) ≤ p := (hscale _ l1).trans u1
    obtain ⟨e2, l2, u2⟩ := roundTo_of_between f (c * nearest f (p - q)) 0 p hcd1 hcd2
      hr0 hrp
    obtain ⟨e3, l3, u3⟩ := roundTo_of_between f (nearest f (c * nearest f (p - q)) + q) q p
      (by linarith) (by linarith) hrq hrp
    refine ⟨?_, l3, u3⟩
    rw [step1, e1]
    unfold fmul
    simp only
    rw [e2]
    unfold fadd
    simp only
    rw [e3]

/-- Evaluation of `nearest` in a normal binade. -/
theorem nearest_eq_of (f : Format) (x : K) (k n : ℤ) (hk : f.emin ≤ k) (hlo : (2 : K) ^ k ≤ |x|)
    (hhi : |x| < (2 : K) ^ (k + 1)) (hn : roundHalfEven (x / (2 : K) ^ (k - f.prec)) = n) :
    nearest f x = (n : K) * (2 : K) ^ (k - f.prec) := by
  unfold nearest ulp
  rw [exponent_eq_of f x k hk hlo hhi, hn]

/-- Binary32 rounding in the normal binade of exponent `k`. -/
theorem roundTo_binary32_eq (x : K) (k n : ℤ) (hk : -126 ≤ k) (hlo : (2 : K) ^ k ≤ |x|)
    (hhi : |x| < (2 : K) ^ (k + 1)) (hn : roundHalfEven (x / (2 : K) ^ (k - 23)) = n)
    (hfin : |(n : K) * (2 : K) ^ (k - 23)| < (2 : K) ^ (128 : ℕ)) :
    roundTo binary32 x = fin ((n : K) * (2 : K) ^ (k - 23)) :=
  roundTo_eq_of binary32 x k n hk hlo hhi hn hfin

/-- Binary32 rounding of a value that needs no rounding. -/
theorem roundTo_binary32_exact (x : K) (k n : ℤ) (hk : -126 ≤ k) (hlo : (2 : K) ^ k ≤ |x|)
    (hhi : |x| < (2 : K) ^ (k + 1)) (hx : x = (n : K) * (2 : K) ^ (k - 23))
    (hfin : |x| < (2 : K) ^ (128 : ℕ)) :
    roundTo binary32 x = fin x := by
  have hn : roundHalfEven (x / (2 : K) ^ (k - 23)) = n := by
    have e : x / (2 : K) ^ (k - 23) = n := by
      rw [div_eq_iff (zpow_pos (by norm_num) _).ne']
      exact hx
    rw [e, roundHalfEven_intCast]
  have h := roundTo_binary32_eq x k n hk hlo hhi hn (by rw [← hx]; exact hfin)
  rw [h, ← hx]

/-- Binary32 rounding below the normal range. -/
theorem roundTo_binary32_subnormal (x : K) (n : ℤ) (hhi : |x| < (2 : K) ^ (-126 : ℤ))
    (hn : roundHalfEven (x / (2 : K) ^ (-149 : ℤ)) = n)
    (hfin : |(n : K) * (2 : K) ^ (-149 : ℤ)| < (2 : K) ^ (128 : ℕ)) :
    roundTo binary32 x = fin ((n : K) * (2 : K) ^ (-149 : ℤ)) :=
  roundTo_eq_of_subnormal binary32 x n hhi hn hfin

/-- Binary32 rounding of a value whose rounded magnitude reaches `2 ^ 128`. -/
theorem roundTo_binary32_inf (x : K) (k n : ℤ) (hk : -126 ≤ k) (hlo : (2 : K) ^ k ≤ |x|)
    (hhi : |x| < (2 : K) ^ (k + 1)) (hn : roundHalfEven (x / (2 : K) ^ (k - 23)) = n)
    (hinf : (2 : K) ^ (128 : ℕ) ≤ |(n : K) * (2 : K) ^ (k - 23)|) :
    roundTo binary32 x = inf (decide (x < 0)) :=
  roundTo_eq_inf_of binary32 x k n hk hlo hhi hn hinf

/-- Subtraction of finite values: the rounded difference. -/
theorem fsub_fin (f : Format) (a b : K) : fsub f (fin a) (fin b) = roundTo f (a - b) := by
  unfold fsub fneg fadd
  rw [sub_eq_add_neg]

/-- Multiplication of finite values: the rounded product. -/
theorem fmul_fin (f : Format) (a b : K) : fmul f (fin a) (fin b) = roundTo f (a * b) := rfl

/-- Addition of finite values: the rounded sum. -/
theorem fadd_fin (f : Format) (a b : K) : fadd f (fin a) (fin b) = roundTo f (a + b) := rfl

/-- A value with at most 24 significant bits in the normal range is a binary32 value. -/
theorem representable_binary32 (x : K) (k n : ℤ) (hk : -126 ≤ k) (hlo : (2 : K) ^ k ≤ |x|)
    (hhi : |x| < (2 : K) ^ (k + 1)) (hx : x = (n : K) * (2 : K) ^ (k - 23))
    (hfin : |x| < (2 : K) ^ (128 : ℕ)) : Representable binary32 x :=
  roundTo_binary32_exact x k n hk hlo hhi hx hfin

/-- A value of the format is a fixed point of rounding. -/
theorem nearest_of_representable (f : Format) (x : K) (h : Representable f x) :
    nearest f x = x := ((representable_iff f x).mp h).1

/-- Evaluation of the binary32 `nearest` in the normal binade of exponent `k`. -/
theorem nearest_binary32_eq (x : K) (k n : ℤ) (hk : -126 ≤ k) (hlo : (2 : K) ^ k ≤ |x|)
    (hhi : |x| < (2 : K) ^ (k + 1)) (hn : roundHalfEven (x / (2 : K) ^ (k - 23)) = n) :
    nearest binary32 x = (n : K) * (2 : K) ^ (k - 23) :=
  nearest_eq_of binary32 x k n hk hlo hhi hn

/-- The sample period `1.0f / float (sampleRate)` of line 55, when finite, is a
binary32 value. -/
theorem samplePeriod_representable (v : FloatingPoint K) (δ : K)
    (h : fdiv binary32 (fin 1) v = fin δ) : Representable binary32 δ := by
  cases v with
  | fin b =>
    unfold fdiv at h
    simp only at h
    split_ifs at h with hb
    exact representable_of_roundTo binary32 _ _ h
  | inf s =>
    have : δ = 0 := by
      unfold fdiv at h
      injection h with h
      exact h.symm
    rw [this]
    exact representable_zero binary32
  | nan => exact absurd h (by simp [fdiv])

/-- A finite result of rounding a non-negative value is non-negative. -/
theorem nonneg_of_roundTo (f : Format) (z w : K) (hz : 0 ≤ z) (h : roundTo f z = fin w) :
    0 ≤ w := by
  unfold roundTo at h
  split_ifs at h
  have hw : nearest f z = w := by injection h
  rw [← hw]
  exact nearest_nonneg f z hz

/-- The sample period for a positive sample rate, when finite, is non-negative. -/
theorem samplePeriod_nonneg (sr δ : K) (hsr : 0 < sr)
    (h : fdiv binary32 (fin 1) (convert binary32 (fin sr)) = fin δ) : 0 ≤ δ := by
  have hc : convert binary32 (fin sr) = roundTo binary32 sr := rfl
  rw [hc] at h
  unfold roundTo at h
  split_ifs at h with c
  · have : δ = 0 := by
      unfold fdiv at h
      injection h with h
      exact h.symm
    rw [this]
  · unfold fdiv at h
    simp only at h
    split_ifs at h with hb
    exact nonneg_of_roundTo binary32 _ _
      (div_nonneg zero_le_one (nearest_nonneg binary32 sr hsr.le)) h

/-- Binary64 rounding of a value that needs no rounding. -/
theorem roundTo_binary64_exact (x : K) (k n : ℤ) (hk : -1022 ≤ k) (hlo : (2 : K) ^ k ≤ |x|)
    (hhi : |x| < (2 : K) ^ (k + 1)) (hx : x = (n : K) * (2 : K) ^ (k - 52))
    (hfin : |x| < (2 : K) ^ (1024 : ℕ)) :
    roundTo binary64 x = fin x := by
  have hn : roundHalfEven (x / (2 : K) ^ (k - 52)) = n := by
    have e : x / (2 : K) ^ (k - 52) = n := by
      rw [div_eq_iff (zpow_pos (by norm_num) _).ne']
      exact hx
    rw [e, roundHalfEven_intCast]
  have h := roundTo_eq_of binary64 x k n hk hlo hhi hn (by
    show |(n : K) * (2 : K) ^ (k - 52)| < (2 : K) ^ (1024 : ℕ)
    rw [← hx]
    exact hfin)
  rw [h]
  congr 1
  exact hx.symm

/-- A rounding result is an infinity of the sign of the exact value, or finite. -/
theorem roundTo_nonneg_cases (f : Format) (z : K) (hz : 0 ≤ z) :
    roundTo f z = inf false ∨ ∃ w : K, roundTo f z = fin w ∧ 0 ≤ w := by
  unfold roundTo
  split_ifs with c
  · left
    rw [decide_eq_false (not_lt.mpr hz)]
  · exact Or.inr ⟨_, rfl, nearest_nonneg f z hz⟩

/-- The rounding of a negative value is `-inf` or finite and `≤ 0`. -/
theorem roundTo_neg_cases (f : Format) (z : K) (hz : z < 0) :
    roundTo f z = inf true ∨ ∃ w : K, roundTo f z = fin w ∧ w ≤ 0 := by
  unfold roundTo
  split_ifs with c
  · left
    rw [decide_eq_true hz]
  · exact Or.inr ⟨_, rfl, nearest_nonpos f z hz.le⟩

/-- The number 1 is a binary32 value. -/
theorem representable_one_binary32 : Representable binary32 (1 : K) :=
  representable_binary32 _ 0 8388608 (by norm_num) (by norm_num [abs_of_pos])
    (by norm_num [abs_of_pos]) (by norm_num) (by norm_num [abs_of_pos])

end FloatingPoint

/-! ### Envelope detector in binary32 -/

namespace EnvelopeDetector32

open FloatingPoint

section OrderedField

variable {K : Type} [LinearOrderedField K]

/-- Both binary32 time constants are negative. -/
theorem timeConstant32_neg (analog : Bool) :
    (if analog then (ANALOG_TC : K) else DIGITAL_TC) < 0 := by
  split_ifs
  · norm_num [ANALOG_TC]
  · norm_num [DIGITAL_TC]

end OrderedField

variable {K : Type} [LinearOrderedField K] [FloorRing K]

/-- The state left by the binary32 `process`: the ballistic update followed by the
clamp at 0. -/
theorem process32_fst (powHalf gainToDecibels : FloatingPoint K → FloatingPoint K)
    (s : EnvelopeDetector32 K) (input : FloatingPoint K) :
    (s.process powHalf gainToDecibels input).1
      = { s.ballistics (rectify powHalf s.mode input) with
          envelope := fmax (fin 0) (s.ballistics (rectify powHalf s.mode input)).envelope } := by
  unfold process
  simp only
  split_ifs <;> rfl

/-- The attack branch of the binary32 `ballistics`. -/
theorem ballistics32_attack (s : EnvelopeDetector32 K) (v : FloatingPoint K)
    (h : flt s.envelope v = true) :
    s.ballistics v
      = { s with envelope := fadd binary32 (fmul binary32 s.attackTime
                              (fsub binary32 s.envelope v)) v
                 holdRemaining := s.holdTime } := by
  unfold ballistics
  rw [if_pos h]

/-- The hold branch of the binary32 `ballistics`. -/
theorem ballistics32_hold (s : EnvelopeDetector32 K) (v : FloatingPoint K)
    (h : flt s.envelope v = false) (hT : flt (fin 0) s.holdTime = true)
    (hR : flt (fin 0) s.holdRemaining = true) :
    s.ballistics v
      = { s with holdRemaining := fsub binary32 s.holdRemaining
                   (fdiv binary32 (fin 1) (convert binary32 s.sampleRate)) } := by
  unfold ballistics
  rw [if_neg (by simp [h]), if_pos ⟨hT, hR⟩]

/-- The release branch of the binary32 `ballistics`. -/
theorem ballistics32_release (s : EnvelopeDetector32 K) (v : FloatingPoint K)
    (h : flt s.envelope v = false)
    (hH : ¬ (flt (fin 0) s.holdTime = true ∧ flt (fin 0) s.holdRemaining = true)) :
    s.ballistics v
      = { s with envelope := fadd binary32 (fmul binary32 s.releaseTime
                              (fsub binary32 s.envelope v)) v } := by
  unfold ballistics
  rw [if_neg (by simp [h]), if_neg hH]

/-- C9 (amended). Attack step in binary32: from a finite envelope `e ≥ 0` with a finite
attack coefficient `a` in `(0, 1)`, an input whose rectified value `x` is finite and
exceeds `e` sets `holdRemaining = holdTime` and leaves the finite envelope
`e' = fl (fl (a * fl (e - x)) + x)`, every operation rounded to nearest, with
`e ≤ e' ≤ x`; when none of the three operations rounds, `e' = a * (e - x) + x` and
`e < e' < x`. -/
theorem process32_attack_step (powHalf gainToDecibels : FloatingPoint K → FloatingPoint K)
    (s : EnvelopeDetector32 K) (input : FloatingPoint K) (e a x : K)
    (he : s.envelope = fin e) (ha : s.attackTime = fin a)
    (hx : rectify powHalf s.mode input = fin x)
    (hre : Representable binary32 e) (hra : Representable binary32 a)
    (hrx : Representable binary32 x)
    (he0 : 0 ≤ e) (ha0 : 0 < a) (ha1 : a < 1) (hex : e < x) :
    (s.process powHalf gainToDecibels input).1.holdRemaining = s.holdTime
      ∧ (s.process powHalf gainToDecibels input).1.envelope
          = fin (nearest binary32 (nearest binary32 (a * nearest binary32 (e - x)) + x))
      ∧ e ≤ nearest binary32 (nearest binary32 (a * nearest binary32 (e - x)) + x)
      ∧ nearest binary32 (nearest binary32 (a * nearest binary32 (e - x)) + x) ≤ x
      ∧ (nearest binary32 (e - x) = e - x →
          nearest binary32 (a * (e - x)) = a * (e - x) →
          nearest binary32 (a * (e - x) + x) = a * (e - x) + x →
          nearest binary32 (nearest binary32 (a * nearest binary32 (e - x)) + x)
              = a * (e - x) + x
            ∧ e < a * (e - x) + x ∧ a * (e - x) + x < x) := by
  have hflt : flt s.envelope (rectify powHalf s.mode input) = true := by
    rw [he, hx]
    exact decide_eq_true hex
  obtain ⟨h1, h2, h3⟩ := onePole_between binary32 (by decide) a e x ha0.le ha1 hra he0
    (he0.trans hex.le) hre hrx
  rw [min_eq_left hex.le] at h2
  rw [max_eq_right hex.le] at h3
  have hb := ballistics32_attack s _ hflt
  rw [he, ha, hx, h1] at hb
  refine ⟨?_, ?_, h2, h3, ?_⟩
  · rw [process32_fst, hx, hb]
  · rw [process32_fst, hx, hb]
    exact fmax_zero_fin _ (he0.trans h2)
  · intro e1 e2 e3
    rw [e1, e2, e3]
    refine ⟨rfl, ?_, ?_⟩
    · nlinarith [mul_pos (sub_pos.mpr ha1) (sub_pos.mpr hex)]
    · nlinarith [mul_pos ha0 (sub_pos.mpr hex)]

/-- C20 (amended). Envelope bounds in binary32: from a finite envelope `e ≥ 0`, with
finite attack and release coefficients in `(0, 1)`, an input whose rectified value `x`
is finite and non-negative leaves a finite envelope `e'` with
`min e x ≤ e' ≤ max e x`; in particular when `x ≤ e` (hold or release) `x ≤ e' ≤ e`. -/
theorem process32_envelope_between
    (powHalf gainToDecibels : FloatingPoint K → FloatingPoint K)
    (s : EnvelopeDetector32 K) (input : FloatingPoint K) (e a r x : K)
    (he : s.envelope = fin e) (ha : s.attackTime = fin a) (hr : s.releaseTime = fin r)
    (hx : rectify powHalf s.mode input = fin x)
    (hre : Representable binary32 e) (hra : Representable binary32 a)
    (hrr : Representable binary32 r) (hrx : Representable binary32 x)
    (he0 : 0 ≤ e) (hx0 : 0 ≤ x) (ha0 : 0 < a) (ha1 : a < 1) (hr0 : 0 < r) (hr1 : r < 1) :
    ∃ e' : K, (s.process powHalf gainToDecibels input).1.envelope = fin e'
      ∧ min e x ≤ e' ∧ e' ≤ max e x ∧ (x ≤ e → x ≤ e' ∧ e' ≤ e) := by
  have hmin : 0 ≤ min e x := le_min he0 hx0
  have key : ∃ e' : K, (s.process powHalf gainToDecibels input).1.envelope = fin e'
      ∧ min e x ≤ e' ∧ e' ≤ max e x := by
    by_cases hflt : flt s.envelope (rectify powHalf s.mode input) = true
    · obtain ⟨h1, h2, h3⟩ := onePole_between binary32 (by decide) a e x ha0.le ha1 hra he0
        hx0 hre hrx
      have hb := ballistics32_attack s _ hflt
      rw [he, ha, hx, h1] at hb
      refine ⟨_, ?_, h2, h3⟩
      rw [process32_fst, hx, hb]
      exact fmax_zero_fin _ (hmin.trans h2)
    · have hflt' : flt s.envelope (rectify powHalf s.mode input) = false := by
        simpa using hflt
      by_cases hH : flt (fin 0) s.holdTime = true ∧ flt (fin 0) s.holdRemaining = true
      · have hb := ballistics32_hold s _ hflt' hH.1 hH.2
        refine ⟨e, ?_, min_le_left _ _, le_max_left _ _⟩
        rw [process32_fst, hb]
        show fmax (fin 0) s.envelope = fin e
        rw [he]
        exact fmax_zero_fin e he0
      · obtain ⟨h1, h2, h3⟩ := onePole_between binary32 (by decide) r e x hr0.le hr1 hrr he0
          hx0 hre hrx
        have hb := ballistics32_release s _ hflt' hH
        rw [he, hr, hx, h1] at hb
        refine ⟨_, ?_, h2, h3⟩
        rw [process32_fst, hx, hb]
        exact fmax_zero_fin _ (hmin.trans h2)
  obtain ⟨e', h1, h2, h3⟩ := key
  refine ⟨e', h1, h2, h3, fun hxe => ?_⟩
  rw [min_eq_right hxe] at h2
  rw [max_eq_left hxe] at h3
  exact ⟨h2, h3⟩

/-- Evaluation of an attack step from the three rounded operations of line 50. -/
theorem process32_attack_eval (powHalf gainToDecibels : FloatingPoint K → FloatingPoint K)
    (s : EnvelopeDetector32 K) (input : FloatingPoint K) (e a x d t w : K)
    (he : s.envelope = fin e) (ha : s.attackTime = fin a)
    (hx : rectify powHalf s.mode input = fin x) (hex : e < x)
    (h1 : roundTo binary32 (e - x) = fin d) (h2 : roundTo binary32 (a * d) = fin t)
    (h3 : roundTo binary32 (t + x) = fin w) (hw : 0 ≤ w) :
    (s.process powHalf gainToDecibels input).1.envelope = fin w := by
  have hflt : flt s.envelope (fin x) = true := by
    rw [he]
    exact decide_eq_true hex
  rw [process32_fst, hx, ballistics32_attack s _ hflt, he, ha]
  show fmax (fin 0) _ = _
  rw [fsub_fin, h1, fmul_fin, h2, fadd_fin, h3]
  exact fmax_zero_fin w hw

/-- Evaluation of a release step from the three rounded operations of line 59. -/
theorem process32_release_eval (powHalf gainToDecibels : FloatingPoint K → FloatingPoint K)
    (s : EnvelopeDetector32 K) (input : FloatingPoint K) (e r x d t w : K)
    (he : s.envelope = fin e) (hr : s.releaseTime = fin r)
    (hx : rectify powHalf s.mode input = fin x) (hxe : x ≤ e)
    (hH : ¬ (flt (fin 0) s.holdTime = true ∧ flt (fin 0) s.holdRemaining = true))
    (h1 : roundTo binary32 (e - x) = fin d) (h2 : roundTo binary32 (r * d) = fin t)
    (h3 : roundTo binary32 (t + x) = fin w) (hw : 0 ≤ w) :
    (s.process powHalf gainToDecibels input).1.envelope = fin w := by
  have hflt : flt s.envelope (fin x) = false := by
    rw [he]
    exact decide_eq_false (not_lt.mpr hxe)
  rw [process32_fst, hx, ballistics32_release s _ hflt hH, he, hr]
  show fmax (fin 0) _ = _
  rw [fsub_fin, h1, fmul_fin, h2, fadd_fin, h3]
  exact fmax_zero_fin w hw

/-- One more step of the countdown is one step from the once-decremented start. -/
theorem holdCountdown_succ_start (δ c : K) (k : ℕ) :
    holdCountdown δ c (k + 1) = holdCountdown δ (nearest binary32 (c - δ)) k := by
  induction k with
  | zero => rfl
  | succ k ih =>
    show nearest binary32 (holdCountdown δ c (k + 1) - δ)
      = nearest binary32 (holdCountdown δ (nearest binary32 (c - δ)) k - δ)
    rw [ih]

/-- The binary32 `processAll` on an extended sequence: one more call of `process`. -/
theorem processAll32_append_singleton
    (powHalf gainToDecibels : FloatingPoint K → FloatingPoint K)
    (s : EnvelopeDetector32 K) (pre : List (FloatingPoint K)) (x : FloatingPoint K) :
    s.processAll powHalf gainToDecibels (pre ++ [x])
      = ((s.processAll powHalf gainToDecibels pre).process powHalf gainToDecibels x).1 := by
  simp [processAll, List.foldl_append]

/-- The whole state after a binary32 hold step. -/
theorem process32_hold_state (powHalf gainToDecibels : FloatingPoint K → FloatingPoint K)
    (t : EnvelopeDetector32 K) (v : FloatingPoint K) (e h c δ : K)
    (he : t.envelope = fin e) (he0 : 0 ≤ e) (hT : t.holdTime = fin h) (hh0 : 0 < h)
    (hR : t.holdRemaining = fin c) (hc0 : 0 < c) (hc : Representable binary32 c)
    (hδ : fdiv binary32 (fin 1) (convert binary32 t.sampleRate) = fin δ) (hδ0 : 0 ≤ δ)
    (hv : flt (fin e) (rectify powHalf t.mode v) = false) :
    (t.process powHalf gainToDecibels v).1
      = { t with holdRemaining := fin (nearest binary32 (c - δ)) } := by
  have hrδ := samplePeriod_representable _ δ hδ
  obtain ⟨hfin, _, _⟩ := roundTo_of_between binary32 (c - δ) (-δ) c (by linarith)
    (by linarith) (representable_neg _ _ hrδ) hc
  have hb : t.ballistics (rectify powHalf t.mode v)
      = { t with holdRemaining := fin (nearest binary32 (c - δ)) } := by
    rw [ballistics32_hold t _ (by rw [he]; exact hv) (by rw [hT]; exact decide_eq_true hh0)
      (by rw [hR]; exact decide_eq_true hc0), hδ, hR, fsub_fin, hfin]
  rw [process32_fst, hb]
  show ({ t with holdRemaining := _, envelope := fmax (fin 0) t.envelope }
    : EnvelopeDetector32 K) = _
  rw [he, fmax_zero_fin e he0, ← he]

/-- A run of calls during which the binary32 hold stays active: the state changes in
`holdRemaining` only, which follows the rounded countdown. -/
theorem processAll32_hold_run (powHalf gainToDecibels : FloatingPoint K → FloatingPoint K)
    (e h δ : K) (he0 : 0 ≤ e) (hh0 : 0 < h) (hδ0 : 0 ≤ δ) (l : List (FloatingPoint K)) :
    ∀ (t : EnvelopeDetector32 K) (c : K), t.envelope = fin e → t.holdTime = fin h →
      t.holdRemaining = fin c → Representable binary32 c →
      fdiv binary32 (fin 1) (convert binary32 t.sampleRate) = fin δ →
      (∀ v ∈ l, flt (fin e) (rectify powHalf t.mode v) = false) →
      (∀ k < l.length, 0 < holdCountdown δ c k) →
      t.processAll powHalf gainToDecibels l
        = { t with holdRemaining := fin (holdCountdown δ c l.length) } := by
  induction l with
  | nil =>
    intro t c _ _ hR _ _ _ _
    show t = { t with holdRemaining := fin c }
    rw [← hR]
  | cons x xs ih =>
    intro t c he hT hR hc hδ hin hpos
    have hc0 : 0 < c := hpos 0 (by simp)
    have hstep := process32_hold_state powHalf gainToDecibels t x e h c δ he he0 hT hh0 hR
      hc0 hc hδ hδ0 (hin x (List.mem_cons_self _ _))
    have hrδ := samplePeriod_representable _ δ hδ
    obtain ⟨hfin, _, _⟩ := roundTo_of_between binary32 (c - δ) (-δ) c (by linarith)
      (by linarith) (representable_neg _ _ hrδ) hc
    have hc' : Representable binary32 (nearest binary32 (c - δ)) :=
      representable_of_roundTo binary32 _ _ hfin
    have hfold : t.processAll powHalf gainToDecibels (x :: xs)
        = ((t.process powHalf gainToDecibels x).1).processAll powHalf gainToDecibels xs := by
      simp [processAll]
    rw [hfold, hstep]
    rw [ih { t with holdRemaining := fin (nearest binary32 (c - δ)) }
      (nearest binary32 (c - δ)) he hT rfl hc' hδ
      (fun y hy => hin y (List.mem_cons_of_mem _ hy))
      (fun k hk => by
        rw [← holdCountdown_succ_start]
        exact hpos (k + 1) (by simpa using hk))]
    simp only [List.length_cons]
    rw [holdCountdown_succ_start]

/-- C18 (amended). Hold duration in binary32: with `sampleRate > 0` and a finite
`holdTime = h > 0`, from a state with `holdRemaining = holdTime` and finite envelope
`e ≥ 0`, and for inputs whose rectified values never exceed `e`, the countdown after
`k` hold steps is `c 0 = h`, `c (k + 1) = fl (c k - δ)` with `δ` the binary32 sample
period `1.0f / float (sampleRate)`.  If `n` is the first index with `c n ≤ 0`, the
envelope is still `e` after each of the first `n` calls (only `holdRemaining` has
changed, to `c k` after `k` calls) and call `n + 1` takes the release branch.  When
neither the sample period nor any countdown value is rounded (`δ * sampleRate = 1` and
`c k = h - k * δ`), `n = ⌈holdTime * sampleRate⌉`. -/
theorem process32_hold_duration (powHalf gainToDecibels : FloatingPoint K → FloatingPoint K)
    (s : EnvelopeDetector32 K) (inputs : List (FloatingPoint K)) (n : ℕ) (e h δ sr : K)
    (hsr : s.sampleRate = fin sr) (hsr0 : 0 < sr)
    (hδ : fdiv binary32 (fin 1) (convert binary32 s.sampleRate) = fin δ)
    (hT : s.holdTime = fin h) (hrem : s.holdRemaining = fin h) (hh0 : 0 < h)
    (hrh : Representable binary32 h) (he : s.envelope = fin e) (he0 : 0 ≤ e)
    (hin : ∀ v ∈ inputs, flt (fin e) (rectify powHalf s.mode v) = false)
    (hpos : ∀ k < n, 0 < holdCountdown δ h k) (hend : holdCountdown δ h n ≤ 0) :
    (∀ pre rest : List (FloatingPoint K), inputs = pre ++ rest → pre.length ≤ n →
        (s.processAll powHalf gainToDecibels pre).envelope = fin e
          ∧ s.processAll powHalf gainToDecibels pre
              = { s with holdRemaining := fin (holdCountdown δ h pre.length) })
      ∧ (∀ (pre : List (FloatingPoint K)) (x : FloatingPoint K)
          (rest : List (FloatingPoint K)), inputs = pre ++ x :: rest → pre.length = n →
          (s.processAll powHalf gainToDecibels (pre ++ [x])).envelope
            = fmax (fin 0) (fadd binary32 (fmul binary32 s.releaseTime
                (fsub binary32 (fin e) (rectify powHalf s.mode x)))
                (rectify powHalf s.mode x)))
      ∧ (δ * sr = 1 → (∀ k ≤ n, holdCountdown δ h k = h - k * δ) → n = ⌈h * sr⌉₊) := by
  have hδ0 : 0 ≤ δ := samplePeriod_nonneg sr δ hsr0 (hsr ▸ hδ)
  have hrun : ∀ pre rest : List (FloatingPoint K), inputs = pre ++ rest → pre.length ≤ n →
      s.processAll powHalf gainToDecibels pre
        = { s with holdRemaining := fin (holdCountdown δ h pre.length) } := by
    intro pre rest hsplit hlen
    exact processAll32_hold_run powHalf gainToDecibels e h δ he0 hh0 hδ0 pre s h he hT hrem
      hrh hδ (fun v hv => hin v (by rw [hsplit]; exact List.mem_append_left _ hv))
      (fun k hk => hpos k (lt_of_lt_of_le hk hlen))
  refine ⟨fun pre rest hsplit hlen => ?_, fun pre x rest hsplit hlen => ?_, fun h1 hex => ?_⟩
  · have h := hrun pre rest hsplit hlen
    exact ⟨by rw [h]; exact he, h⟩
  · have hpre := hrun pre (x :: rest) hsplit hlen.le
    have hx : flt (fin e) (rectify powHalf s.mode x) = false :=
      hin x (by rw [hsplit]; simp)
    rw [processAll32_append_singleton, process32_fst, hpre]
    have hH : ¬ (flt (fin 0) s.holdTime = true
        ∧ flt (fin 0) (fin (holdCountdown δ h pre.length)) = true) := by
      rintro ⟨_, h2⟩
      rw [hlen] at h2
      have : 0 < holdCountdown δ h n := of_decide_eq_true h2
      linarith
    have hb := ballistics32_release
      ({ s with holdRemaining := fin (holdCountdown δ h pre.length) } : EnvelopeDetector32 K)
      (rectify powHalf s.mode x) (by show flt s.envelope _ = false; rw [he]; exact hx) hH
    show fmax (fin 0) (ballistics _ (rectify powHalf s.mode x)).envelope = _
    rw [hb]
    show fmax (fin 0) (fadd binary32 (fmul binary32 s.releaseTime
      (fsub binary32 s.envelope (rectify powHalf s.mode x))) (rectify powHalf s.mode x)) = _
    rw [he]
  · have hn0 : n ≠ 0 := by
      rintro rfl
      have : holdCountdown δ h 0 = h := rfl
      rw [this] at hend
      linarith
    have hsrδ : δ = 1 / sr := by
      field_simp
      linarith
    have hlast := hpos (n - 1) (by omega)
    rw [hex (n - 1) (by omega)] at hlast
    rw [hex n le_rfl] at hend
    symm
    rw [Nat.ceil_eq_iff hn0]
    rw [hsrδ] at hlast hend
    constructor
    · have : ((n - 1 : ℕ) : K) * (1 / sr) < h := by linarith
      rw [mul_one_div, div_lt_iff₀ hsr0] at this
      exact this
    · have : h ≤ (n : K) * (1 / sr) := by linarith
      rw [mul_one_div, le_div_iff₀ hsr0] at this
      exact this

/-- The coefficient stored by the binary32 `setAttackTime`, as one expression. -/
theorem setAttackTime32_attackTime (exp : FloatingPoint K → FloatingPoint K)
    (s : EnvelopeDetector32 K) (v : FloatingPoint K) :
    (s.setAttackTime exp v).attackTime
      = convert binary32 (exp (fdiv binary64
          (fin (if s.analogTC then ANALOG_TC else DIGITAL_TC))
          (fmul binary64 v s.sampleRate))) := by
  unfold setAttackTime
  split_ifs <;> rfl

/-- The coefficient stored by the binary32 `setReleaseTime`, as one expression. -/
theorem setReleaseTime32_releaseTime (exp : FloatingPoint K → FloatingPoint K)
    (s : EnvelopeDetector32 K) (v : FloatingPoint K) :
    (s.setReleaseTime exp v).releaseTime
      = convert binary32 (exp (fdiv binary64
          (fin (if s.analogTC then ANALOG_TC else DIGITAL_TC))
          (fmul binary64 v s.sampleRate))) := by
  unfold setReleaseTime
  split_ifs <;> rfl

/-- The `double` argument handed to `std::exp` for positive finite time and sample
rate is `-inf` or a finite value `≤ 0`. -/
theorem timeConstant32_div_cases (analog : Bool) (t sr : K) (ht : 0 < t) (hsr : 0 < sr) :
    fdiv binary64 (fin (if analog then (ANALOG_TC : K) else DIGITAL_TC))
        (fmul binary64 (fin t) (fin sr)) = inf true
      ∨ ∃ y : K, fdiv binary64 (fin (if analog then (ANALOG_TC : K) else DIGITAL_TC))
        (fmul binary64 (fin t) (fin sr)) = fin y ∧ y ≤ 0 := by
  have hTC := timeConstant32_neg (K := K) analog
  rw [fmul_fin]
  rcases roundTo_nonneg_cases binary64 (t * sr) (mul_pos ht hsr).le with h | ⟨m, h, hm⟩
  · right
    rw [h]
    exact ⟨0, rfl, le_rfl⟩
  · rw [h]
    unfold fdiv
    simp only
    by_cases hm0 : m = 0
    · left
      rw [if_pos hm0, if_neg hTC.ne, decide_eq_true hTC]
    · rw [if_neg hm0]
      have hmpos : 0 < m := lt_of_le_of_ne hm (Ne.symm hm0)
      exact roundTo_neg_cases binary64 _ (div_neg_of_neg_of_pos hTC hmpos)

/-- The smallest positive binary32 value. -/
theorem representable_min_binary32 : Representable binary32 ((2 : K) ^ (-149 : ℤ)) := by
  have h := roundTo_binary32_subnormal ((2 : K) ^ (-149 : ℤ)) 1
    (by
      rw [abs_of_pos (zpow_pos (by norm_num) _)]
      exact zpow_lt_zpow_right₀ (by norm_num) (by norm_num))
    (by
      rw [div_self (zpow_pos (by norm_num) _).ne']
      exact_mod_cast roundHalfEven_intCast (K := K) 1)
    (by
      rw [Int.cast_one, one_mul, abs_of_pos (zpow_pos (by norm_num) _)]
      calc (2 : K) ^ (-149 : ℤ) < (2 : K) ^ (0 : ℤ) :=
            zpow_lt_zpow_right₀ (by norm_num) (by norm_num)
        _ = 1 := zpow_zero _
        _ < (2 : K) ^ (128 : ℕ) := one_lt_pow₀ (by norm_num) (by norm_num))
  show roundTo binary32 ((2 : K) ^ (-149 : ℤ)) = fin ((2 : K) ^ (-149 : ℤ))
  rw [h, Int.cast_one, one_mul]

/-- The largest binary32 value below 1. -/
theorem representable_pred_one_binary32 :
    Representable binary32 (1 - (2 : K) ^ (-24 : ℤ)) :=
  representable_binary32 _ (-1) 16777215 (by norm_num) (by norm_num [abs_of_pos])
    (by norm_num [abs_of_pos]) (by norm_num) (by norm_num [abs_of_pos])

/-- The cast to `float` of a `double` in `[0, 1]` is a binary32 value in `[0, 1]`,
strictly inside when the `double` lies between the smallest positive binary32 value and
the largest binary32 value below 1. -/
theorem convert_unit_interval (r : K) (h0 : 0 ≤ r) (h1 : r ≤ 1) :
    ∃ c : K, convert binary32 (fin r) = fin c ∧ 0 ≤ c ∧ c ≤ 1
      ∧ ((2 : K) ^ (-149 : ℤ) ≤ r → r ≤ 1 - (2 : K) ^ (-24 : ℤ) → 0 < c ∧ c < 1) := by
  obtain ⟨e, l, u⟩ := roundTo_of_between binary32 r 0 1 h0 h1 (representable_zero _)
    representable_one_binary32
  refine ⟨_, e, l, u, fun hlo hhi => ?_⟩
  obtain ⟨_, l', u'⟩ := roundTo_of_between binary32 r _ _ hlo hhi
    representable_min_binary32 representable_pred_one_binary32
  have hpos : (0 : K) < (2 : K) ^ (-149 : ℤ) := zpow_pos (by norm_num) _
  have hpos' : (0 : K) < (2 : K) ^ (-24 : ℤ) := zpow_pos (by norm_num) _
  constructor <;> linarith

/-- The coefficient computed from a time constant: a binary32 value in `[0, 1]`,
strictly inside when the `double` result of `exp` lies between the smallest positive
binary32 value and the largest binary32 value below 1. -/
theorem coefficient32_range (exp : FloatingPoint K → FloatingPoint K) (analog : Bool)
    (t sr : K) (ht : 0 < t) (hsr : 0 < sr)
    (hexp : ∀ y : K, y ≤ 0 → ∃ r : K, exp (fin y) = fin r ∧ 0 ≤ r ∧ r ≤ 1)
    (hexpInf : exp (inf true) = fin 0) :
    ∃ c : K, convert binary32 (exp (fdiv binary64
        (fin (if analog then (ANALOG_TC : K) else DIGITAL_TC))
        (fmul binary64 (fin t) (fin sr)))) = fin c ∧ 0 ≤ c ∧ c ≤ 1
      ∧ (∀ r : K, exp (fdiv binary64 (fin (if analog then (ANALOG_TC : K) else DIGITAL_TC))
            (fmul binary64 (fin t) (fin sr))) = fin r →
          (2 : K) ^ (-149 : ℤ) ≤ r → r ≤ 1 - (2 : K) ^ (-24 : ℤ) → 0 < c ∧ c < 1) := by
  have main : ∀ r : K, exp (fdiv binary64
      (fin (if analog then (ANALOG_TC : K) else DIGITAL_TC))
      (fmul binary64 (fin t) (fin sr))) = fin r → 0 ≤ r → r ≤ 1 →
      ∃ c : K, convert binary32 (exp (fdiv binary64
        (fin (if analog then (ANALOG_TC : K) else DIGITAL_TC))
        (fmul binary64 (fin t) (fin sr)))) = fin c ∧ 0 ≤ c ∧ c ≤ 1
      ∧ (∀ r : K, exp (fdiv binary64 (fin (if analog then (ANALOG_TC : K) else DIGITAL_TC))
            (fmul binary64 (fin t) (fin sr))) = fin r →
          (2 : K) ^ (-149 : ℤ) ≤ r → r ≤ 1 - (2 : K) ^ (-24 : ℤ) → 0 < c ∧ c < 1) := by
    intro r hr r0 r1
    obtain ⟨c, hc, c0, c1, hstrict⟩ := convert_unit_interval r r0 r1
    refine ⟨c, by rw [hr]; exact hc, c0, c1, fun r' hr' hlo hhi => ?_⟩
    have : r' = r := by
      rw [hr] at hr'
      injection hr' with h
      exact h.symm
    rw [this] at hlo hhi
    exact hstrict hlo hhi
  rcases timeConstant32_div_cases analog t sr ht hsr with h | ⟨y, h, hy⟩
  · exact main 0 (by rw [h, hexpInf]) le_rfl zero_le_one
  · obtain ⟨r, hr, r0, r1⟩ := hexp y hy
    exact main r (by rw [h, hr]) r0 r1

/-- C14 (amended). Coefficient range in binary32: for a finite time `seconds > 0` and a
finite `sampleRate > 0`, either value of `analogTC`, and a `std::exp` that maps a
`double` `y ≤ 0` into `[0, 1]` and `-inf` to 0, the coefficient stored by
`setAttackTime` and by `setReleaseTime` after the cast to `float` is a finite binary32
value in the closed interval `[0, 1]`; it lies strictly between 0 and 1 whenever the
`double` result of `std::exp` lies between `2 ^ (-149)`, the smallest positive binary32
value, and `1 - 2 ^ (-24)`, the largest binary32 value below 1. -/
theorem setTime32_coefficient_range (exp : FloatingPoint K → FloatingPoint K)
    (s : EnvelopeDetector32 K) (seconds sr : K)
    (hs : 0 < seconds) (hrate : s.sampleRate = fin sr) (hsr : 0 < sr)
    (hexp : ∀ y : K, y ≤ 0 → ∃ r : K, exp (fin y) = fin r ∧ 0 ≤ r ∧ r ≤ 1)
    (hexpInf : exp (inf true) = fin 0) :
    (∃ c : K, (s.setAttackTime exp (fin seconds)).attackTime = fin c ∧ 0 ≤ c ∧ c ≤ 1
        ∧ (∀ r : K, exp (fdiv binary64
              (fin (if s.analogTC then (ANALOG_TC : K) else DIGITAL_TC))
              (fmul binary64 (fin seconds) (fin sr))) = fin r →
            (2 : K) ^ (-149 : ℤ) ≤ r → r ≤ 1 - (2 : K) ^ (-24 : ℤ) → 0 < c ∧ c < 1))
      ∧ (∃ c : K, (s.setReleaseTime exp (fin seconds)).releaseTime = fin c
        ∧ 0 ≤ c ∧ c ≤ 1
        ∧ (∀ r : K, exp (fdiv binary64
              (fin (if s.analogTC then (ANALOG_TC : K) else DIGITAL_TC))
              (fmul binary64 (fin seconds) (fin sr))) = fin r →
            (2 : K) ^ (-149 : ℤ) ≤ r → r ≤ 1 - (2 : K) ^ (-24 : ℤ) → 0 < c ∧ c < 1)) := by
  rw [setAttackTime32_attackTime, setReleaseTime32_releaseTime, hrate]
  exact ⟨coefficient32_range exp s.analogTC seconds sr hs hsr hexp hexpInf,
    coefficient32_range exp s.analogTC seconds sr hs hsr hexp hexpInf⟩

end EnvelopeDetector32

/-! ### Envelope detector in binary32: evaluations on concrete inputs -/

section Binary32Examples

open FloatingPoint EnvelopeDetector32

/-- The rational 1 is a binary32 value. -/
theorem representable_one : Representable binary32 (1 : ℚ) :=
  representable_binary32 _ 0 8388608 (by norm_num) (by norm_num [abs_of_pos])
    (by norm_num [abs_of_pos]) (by norm_num) (by norm_num [abs_of_pos])

/-- The rational 1/2 is a binary32 value. -/
theorem representable_half : Representable binary32 (1 / 2 : ℚ) :=
  representable_binary32 _ (-1) 8388608 (by norm_num) (by norm_num [abs_of_pos])
    (by norm_num [abs_of_pos]) (by norm_num) (by norm_num [abs_of_pos])

/-- The rational 1/4 is a binary32 value. -/
theorem representable_quarter : Representable binary32 (1 / 4 : ℚ) :=
  representable_binary32 _ (-2) 8388608 (by norm_num) (by norm_num [abs_of_pos])
    (by norm_num [abs_of_pos]) (by norm_num) (by norm_num [abs_of_pos])

/-- The rational 3/4 is a binary32 value. -/
theorem representable_three_quarters : Representable binary32 (3 / 4 : ℚ) :=
  representable_binary32 _ (-1) 12582912 (by norm_num) (by norm_num [abs_of_pos])
    (by norm_num [abs_of_pos]) (by norm_num) (by norm_num [abs_of_pos])

/-- The rational -1/2 is a binary32 value. -/
theorem representable_neg_half : Representable binary32 (-(1 / 2) : ℚ) :=
  representable_neg _ _ representable_half

/-- The rational -1/4 is a binary32 value. -/
theorem representable_neg_quarter : Representable binary32 (-(1 / 4) : ℚ) :=
  representable_neg _ _ representable_quarter

/-- Witness for C9: in peak mode at envelope 1/2 and attack coefficient 1/2 the input 1
is an attack step in which no operation rounds; the new envelope is 3/4, strictly
between 1/2 and 1, and the hold countdown is reloaded with the hold time 1. -/
theorem process32_attack_step_witness :
    (∀ p g : FloatingPoint ℚ → FloatingPoint ℚ,
        ((detector32 ℚ Mode.peak false 4 (1 / 2) 1).process p g (fin 1)).1.envelope
          = fin (3 / 4))
      ∧ (∀ p g : FloatingPoint ℚ → FloatingPoint ℚ,
        ((detector32 ℚ Mode.peak false 4 (1 / 2) 1).process p g (fin 1)).1.holdRemaining
          = fin 1) := by
  have key : ∀ p g : FloatingPoint ℚ → FloatingPoint ℚ, _ := fun p g =>
    process32_attack_step p g (detector32 ℚ Mode.peak false 4 (1 / 2) 1) (fin 1)
      (1 / 2) (1 / 2) 1 rfl rfl (by simp [rectify, fabs, detector32])
      representable_half representable_half representable_one
      (by norm_num) (by norm_num) (by norm_num) (by norm_num)
  have e1 : nearest binary32 ((1 / 2 : ℚ) - 1) = 1 / 2 - 1 := by
    rw [show (1 / 2 : ℚ) - 1 = -(1 / 2) by norm_num]
    exact nearest_of_representable _ _ representable_neg_half
  have e2 : nearest binary32 ((1 / 2 : ℚ) * (1 / 2 - 1)) = 1 / 2 * (1 / 2 - 1) := by
    rw [show (1 / 2 : ℚ) * (1 / 2 - 1) = -(1 / 4) by norm_num]
    exact nearest_of_representable _ _ representable_neg_quarter
  have e3 : nearest binary32 ((1 / 2 : ℚ) * (1 / 2 - 1) + 1) = 1 / 2 * (1 / 2 - 1) + 1 := by
    rw [show (1 / 2 : ℚ) * (1 / 2 - 1) + 1 = 3 / 4 by norm_num]
    exact nearest_of_representable _ _ representable_three_quarters
  refine ⟨fun p g => ?_, fun p g => (key p g).1⟩
  rw [(key p g).2.1, ((key p g).2.2.2.2 e1 e2 e3).1]
  norm_num

/-- Counterexample to C9 as stated: in peak mode at envelope 1 and attack coefficient
1/2 the input `1 + 2 ^ (-23)`, the binary32 value next above 1, exceeds the envelope,
yet the attack step leaves the envelope 1: `fl (1 - x) = -2 ^ (-23)`,
`fl (a * -2 ^ (-23)) = -2 ^ (-24)` and `fl (-2 ^ (-24) + x)` is the tie `1 + 2 ^ (-24)`,
which rounds to the even neighbour 1.  So `e < e'` fails, and `e'` is not
`a * (e - x) + x = 1 + 2 ^ (-24)`. -/
theorem process32_attack_step_not_strict :
    Representable binary32 (8388609 / 8388608 : ℚ)
      ∧ (∀ p : FloatingPoint ℚ → FloatingPoint ℚ,
          rectify p Mode.peak (fin (8388609 / 8388608)) = fin (8388609 / 8388608))
      ∧ (1 : ℚ) < 8388609 / 8388608
      ∧ (∀ p g : FloatingPoint ℚ → FloatingPoint ℚ,
          ((detector32 ℚ Mode.peak false 4 1 1).process p g
            (fin (8388609 / 8388608))).1.envelope = fin 1)
      ∧ (1 / 2 : ℚ) * (1 - 8388609 / 8388608) + 8388609 / 8388608 ≠ 1 := by
  have hrect : ∀ p : FloatingPoint ℚ → FloatingPoint ℚ,
      rectify p Mode.peak (fin (8388609 / 8388608)) = fin (8388609 / 8388608) := by
    intro p
    simp [rectify, fabs, abs_of_pos]
  refine ⟨?_, hrect, by norm_num, fun p g => ?_, by norm_num⟩
  · exact representable_binary32 _ 0 8388609 (by norm_num) (by norm_num [abs_of_pos])
      (by norm_num [abs_of_pos]) (by norm_num) (by norm_num [abs_of_pos])
  · have h1 : roundTo binary32 ((1 : ℚ) - 8388609 / 8388608) = fin (-(1 / 8388608)) := by
      have h := roundTo_binary32_exact ((1 : ℚ) - 8388609 / 8388608) (-23) (-8388608)
        (by norm_num) (by norm_num [abs_of_neg]) (by norm_num [abs_of_neg]) (by norm_num)
        (by norm_num [abs_of_neg])
      rw [h]
      norm_num
    have h2 : roundTo binary32 ((1 / 2 : ℚ) * -(1 / 8388608)) = fin (-(1 / 16777216)) := by
      have h := roundTo_binary32_exact ((1 / 2 : ℚ) * -(1 / 8388608)) (-24) (-8388608)
        (by norm_num) (by norm_num [abs_of_neg]) (by norm_num [abs_of_neg]) (by norm_num)
        (by norm_num [abs_of_neg])
      rw [h]
      norm_num
    have h3 : roundTo binary32 (-(1 / 16777216) + 8388609 / 8388608 : ℚ) = fin 1 := by
      have h := roundTo_binary32_eq (-(1 / 16777216) + 8388609 / 8388608 : ℚ) 0 8388608
        (by norm_num) (by norm_num [abs_of_pos]) (by norm_num [abs_of_pos])
        (roundHalfEven_tie_even _ 8388608 (by norm_num) (by norm_num))
        (by norm_num [abs_of_pos])
      rw [h]
      norm_num
    exact process32_attack_eval p g (detector32 ℚ Mode.peak false 4 1 1) _ 1 (1 / 2)
      (8388609 / 8388608) _ _ 1 rfl rfl (hrect p) (by norm_num) h1 h2 h3 (by norm_num)

/-- The rational 3/8 is a binary32 value. -/
theorem representable_three_eighths : Representable binary32 (3 / 8 : ℚ) :=
  representable_binary32 _ (-2) 12582912 (by norm_num) (by norm_num [abs_of_pos])
    (by norm_num [abs_of_pos]) (by norm_num) (by norm_num [abs_of_pos])

/-- The rational 1/8 is a binary32 value. -/
theorem representable_one_eighth : Representable binary32 (1 / 8 : ℚ) :=
  representable_binary32 _ (-3) 8388608 (by norm_num) (by norm_num [abs_of_pos])
    (by norm_num [abs_of_pos]) (by norm_num) (by norm_num [abs_of_pos])

/-- The hold branch is not taken when the hold time is 0. -/
theorem hold_inactive_of_zero (mode : Mode) (analog : Bool) (rate e : ℚ) :
    ¬ (flt (fin 0) (detector32 ℚ mode analog rate e 0).holdTime = true
        ∧ flt (fin 0) (detector32 ℚ mode analog rate e 0).holdRemaining = true) := by
  simp [detector32, flt]

/-- Witness for C20: in peak mode with no hold, envelope 1/2 and release coefficient
1/2, the input 1/4 is a release step that leaves the envelope 3/8, between the input
and the old envelope. -/
theorem process32_envelope_between_witness :
    (∀ p g : FloatingPoint ℚ → FloatingPoint ℚ,
        ((detector32 ℚ Mode.peak false 4 (1 / 2) 0).process p g (fin (1 / 4))).1.envelope
          = fin (3 / 8))
      ∧ (∀ p g : FloatingPoint ℚ → FloatingPoint ℚ, ∃ e' : ℚ,
        ((detector32 ℚ Mode.peak false 4 (1 / 2) 0).process p g (fin (1 / 4))).1.envelope
          = fin e' ∧ 1 / 4 ≤ e' ∧ e' ≤ 1 / 2) := by
  have hrect : ∀ p : FloatingPoint ℚ → FloatingPoint ℚ,
      rectify p (detector32 ℚ Mode.peak false 4 (1 / 2) 0).mode (fin (1 / 4))
        = fin (1 / 4) := by
    intro p
    simp [rectify, fabs, detector32, abs_of_pos]
  refine ⟨fun p g => ?_, fun p g => ?_⟩
  · have h1 : roundTo binary32 ((1 / 2 : ℚ) - 1 / 4) = fin (1 / 4) := by
      rw [show (1 / 2 : ℚ) - 1 / 4 = 1 / 4 by norm_num]
      exact representable_quarter
    have h2 : roundTo binary32 ((1 / 2 : ℚ) * (1 / 4)) = fin (1 / 8) := by
      rw [show (1 / 2 : ℚ) * (1 / 4) = 1 / 8 by norm_num]
      exact representable_one_eighth
    have h3 : roundTo binary32 ((1 / 8 : ℚ) + 1 / 4) = fin (3 / 8) := by
      rw [show (1 / 8 : ℚ) + 1 / 4 = 3 / 8 by norm_num]
      exact representable_three_eighths
    exact process32_release_eval p g _ _ (1 / 2) (1 / 2) (1 / 4) _ _ _ rfl rfl (hrect p)
      (by norm_num) (hold_inactive_of_zero _ _ _ _) h1 h2 h3 (by norm_num)
  · obtain ⟨e', h1, _, _, h4⟩ := process32_envelope_between p g
      (detector32 ℚ Mode.peak false 4 (1 / 2) 0) (fin (1 / 4)) (1 / 2) (1 / 2) (1 / 2) (1 / 4)
      rfl rfl rfl (hrect p) representable_half representable_half representable_half
      representable_quarter (by norm_num) (by norm_num) (by norm_num) (by norm_num)
      (by norm_num) (by norm_num)
    exact ⟨e', h1, h4 (by norm_num)⟩

/-- Counterexample to C20 as stated: in ms mode the input `2 ^ 100` is a finite
binary32 value whose square overflows, so the rectified value is `+inf`; from envelope
1 the attack update is `a * (1 - inf) + inf = -inf + inf`, a NaN, and
`std::max (0.0f, NaN)` stores 0, which is below both the old envelope 1 and the
rectified input. -/
theorem process32_envelope_overflow :
    Representable binary32 ((2 : ℚ) ^ (100 : ℕ))
      ∧ (∀ p : FloatingPoint ℚ → FloatingPoint ℚ,
          rectify p Mode.ms (fin ((2 : ℚ) ^ (100 : ℕ))) = inf false)
      ∧ (∀ p g : FloatingPoint ℚ → FloatingPoint ℚ,
          ((detector32 ℚ Mode.ms false 4 1 0).process p g
            (fin ((2 : ℚ) ^ (100 : ℕ)))).1.envelope = fin 0)
      ∧ (0 : ℚ) < min 1 (((2 : ℚ) ^ (100 : ℕ)) * ((2 : ℚ) ^ (100 : ℕ))) := by
  have hsq : roundTo binary32 (|(2 : ℚ) ^ (100 : ℕ)| * |(2 : ℚ) ^ (100 : ℕ)|) = inf false := by
    have h := roundTo_binary32_inf (|(2 : ℚ) ^ (100 : ℕ)| * |(2 : ℚ) ^ (100 : ℕ)|) 200 8388608
      (by norm_num) (by norm_num [abs_of_pos]) (by norm_num [abs_of_pos])
      (roundHalfEven_eq_of_abs_lt _ _ (by norm_num [abs_of_pos]))
      (by norm_num [abs_of_pos])
    rw [h]
    norm_num [abs_of_pos]
  have hrect : ∀ p : FloatingPoint ℚ → FloatingPoint ℚ,
      rectify p Mode.ms (fin ((2 : ℚ) ^ (100 : ℕ))) = inf false := by
    intro p
    simp only [rectify, fabs, fmul_fin]
    exact hsq
  refine ⟨?_, hrect, fun p g => ?_, by norm_num⟩
  · exact representable_binary32 _ 100 8388608 (by norm_num) (by norm_num [abs_of_pos])
      (by norm_num [abs_of_pos]) (by norm_num) (by norm_num [abs_of_pos])
  · have hflt : flt (detector32 ℚ Mode.ms false 4 1 0).envelope (inf false) = true := rfl
    have hr := hrect p
    rw [process32_fst]
    simp only [show (detector32 ℚ Mode.ms false 4 1 0).mode = Mode.ms from rfl, hr,
      ballistics32_attack _ _ hflt]
    norm_num [detector32, fsub, fneg, fadd, fmul, fmax, flt]

/-- The rational 4 is a binary32 value. -/
theorem representable_four : Representable binary32 (4 : ℚ) :=
  representable_binary32 _ 2 8388608 (by norm_num) (by norm_num [abs_of_pos])
    (by norm_num [abs_of_pos]) (by norm_num) (by norm_num [abs_of_pos])

/-- The rational 5 is a binary32 value. -/
theorem representable_five : Representable binary32 (5 : ℚ) :=
  representable_binary32 _ 2 10485760 (by norm_num) (by norm_num [abs_of_pos])
    (by norm_num [abs_of_pos]) (by norm_num) (by norm_num [abs_of_pos])

/-- In peak mode a zero input never exceeds a non-negative envelope. -/
theorem zero_input_not_above (p : FloatingPoint ℚ → FloatingPoint ℚ) (rate e h : ℚ)
    (he : 0 ≤ e) (l : List (FloatingPoint ℚ)) (hl : ∀ v ∈ l, v = fin 0) :
    ∀ v ∈ l, flt (fin e) (rectify p (detector32 ℚ Mode.peak false rate e h).mode v)
      = false := by
  intro v hv
  rw [hl v hv]
  simp [rectify, fabs, flt, detector32, he]

/-- The release update from envelope 1/2 with coefficient 1/2 on a zero input gives
1/4. -/
theorem release_half_zero (p : FloatingPoint ℚ → FloatingPoint ℚ) (rate h : ℚ) :
    fmax (fin 0) (fadd binary32 (fmul binary32
        (detector32 ℚ Mode.peak false rate (1 / 2) h).releaseTime
        (fsub binary32 (fin (1 / 2))
          (rectify p (detector32 ℚ Mode.peak false rate (1 / 2) h).mode (fin 0))))
        (rectify p (detector32 ℚ Mode.peak false rate (1 / 2) h).mode (fin 0)))
      = fin (1 / 4) := by
  have hr : rectify p (detector32 ℚ Mode.peak false rate (1 / 2) h).mode (fin 0) = fin 0 := by
    simp [rectify, fabs, detector32]
  have h1 : roundTo binary32 ((1 / 2 : ℚ) - 0) = fin (1 / 2) := by
    rw [sub_zero]
    exact representable_half
  have h2 : roundTo binary32 ((1 / 2 : ℚ) * (1 / 2)) = fin (1 / 4) := by
    rw [show (1 / 2 : ℚ) * (1 / 2) = 1 / 4 by norm_num]
    exact representable_quarter
  have h3 : roundTo binary32 ((1 / 4 : ℚ) + 0) = fin (1 / 4) := by
    rw [add_zero]
    exact representable_quarter
  rw [hr, show (detector32 ℚ Mode.peak false rate (1 / 2) h).releaseTime = fin (1 / 2) from rfl,
    fsub_fin, h1, fmul_fin, h2, fadd_fin, h3]
  exact fmax_zero_fin _ (by norm_num)

/-- The sample period at 4 samples per second is 1/4, without rounding. -/
theorem samplePeriod_four (mode : Mode) (e h : ℚ) :
    fdiv binary32 (fin 1) (convert binary32 (detector32 ℚ mode false 4 e h).sampleRate)
      = fin (1 / 4) := by
  show fdiv binary32 (fin 1) (roundTo binary32 (4 : ℚ)) = fin (1 / 4)
  rw [show roundTo binary32 (4 : ℚ) = fin 4 from representable_four]
  unfold fdiv
  simp only
  rw [if_neg (by norm_num)]
  exact representable_quarter

/-- The countdown from 1 in steps of 1/4: no step rounds. -/
theorem holdCountdown_quarter :
    holdCountdown (1 / 4 : ℚ) 1 1 = 3 / 4 ∧ holdCountdown (1 / 4 : ℚ) 1 2 = 1 / 2
      ∧ holdCountdown (1 / 4 : ℚ) 1 3 = 1 / 4 ∧ holdCountdown (1 / 4 : ℚ) 1 4 = 0 := by
  have h1 : holdCountdown (1 / 4 : ℚ) 1 1 = 3 / 4 := by
    show nearest binary32 ((1 : ℚ) - 1 / 4) = 3 / 4
    rw [show (1 : ℚ) - 1 / 4 = 3 / 4 by norm_num]
    exact nearest_of_representable _ _ representable_three_quarters
  have h2 : holdCountdown (1 / 4 : ℚ) 1 2 = 1 / 2 := by
    show nearest binary32 (holdCountdown (1 / 4 : ℚ) 1 1 - 1 / 4) = 1 / 2
    rw [h1, show (3 / 4 : ℚ) - 1 / 4 = 1 / 2 by norm_num]
    exact nearest_of_representable _ _ representable_half
  have h3 : holdCountdown (1 / 4 : ℚ) 1 3 = 1 / 4 := by
    show nearest binary32 (holdCountdown (1 / 4 : ℚ) 1 2 - 1 / 4) = 1 / 4
    rw [h2, show (1 / 2 : ℚ) - 1 / 4 = 1 / 4 by norm_num]
    exact nearest_of_representable _ _ representable_quarter
  have h4 : holdCountdown (1 / 4 : ℚ) 1 4 = 0 := by
    show nearest binary32 (holdCountdown (1 / 4 : ℚ) 1 3 - 1 / 4) = 0
    rw [h3, sub_self]
    exact nearest_zero _
  exact ⟨h1, h2, h3, h4⟩

/-- Witness for C18: at 4 samples per second with hold time 1 s, envelope 1/2 and
release coefficient 1/2, no countdown step rounds; on zero inputs the envelope is still
1/2 after 4 calls, the fifth call releases to 1/4, and `4 = ⌈1 * 4⌉`. -/
theorem process32_hold_duration_witness :
    (∀ p g : FloatingPoint ℚ → FloatingPoint ℚ,
        ((detector32 ℚ Mode.peak false 4 (1 / 2) 1).processAll p g
          [fin 0, fin 0, fin 0, fin 0]).envelope = fin (1 / 2))
      ∧ (∀ p g : FloatingPoint ℚ → FloatingPoint ℚ,
        ((detector32 ℚ Mode.peak false 4 (1 / 2) 1).processAll p g
          [fin 0, fin 0, fin 0, fin 0, fin 0]).envelope = fin (1 / 4))
      ∧ 4 = ⌈(1 : ℚ) * 4⌉₊ := by
  obtain ⟨c1, c2, c3, c4⟩ := holdCountdown_quarter
  have key : ∀ p g : FloatingPoint ℚ → FloatingPoint ℚ, _ := fun p g =>
    process32_hold_duration p g (detector32 ℚ Mode.peak false 4 (1 / 2) 1)
      [fin 0, fin 0, fin 0, fin 0, fin 0] 4 (1 / 2) 1 (1 / 4) 4 rfl (by norm_num)
      (samplePeriod_four _ _ _) rfl rfl (by norm_num) representable_one rfl (by norm_num)
      (zero_input_not_above p 4 (1 / 2) 1 (by norm_num) _ (by simp))
      (by
        intro k hk
        interval_cases k
        · show (0 : ℚ) < 1
          norm_num
        · rw [c1]; norm_num
        · rw [c2]; norm_num
        · rw [c3]; norm_num)
      (by rw [c4])
  refine ⟨fun p g => ?_, fun p g => ?_, ?_⟩
  · exact ((key p g).1 [fin 0, fin 0, fin 0, fin 0] [fin 0] rfl (by simp)).1
  · have h := (key p g).2.1 [fin 0, fin 0, fin 0, fin 0] (fin 0) [] rfl rfl
    rw [release_half_zero] at h
    exact h
  · refine (key id id).2.2 (by norm_num) ?_
    intro k hk
    interval_cases k
    · show (1 : ℚ) = _
      norm_num
    · rw [c1]; norm_num
    · rw [c2]; norm_num
    · rw [c3]; norm_num
    · rw [c4]; norm_num

/-- The sample period at 5 samples per second: `1.0f / 5.0f` rounds to
`13421773 / 2 ^ 26`, above 1/5. -/
theorem samplePeriod_five (mode : Mode) (e h : ℚ) :
    fdiv binary32 (fin 1) (convert binary32 (detector32 ℚ mode false 5 e h).sampleRate)
      = fin (13421773 / 67108864) := by
  show fdiv binary32 (fin 1) (roundTo binary32 (5 : ℚ)) = fin (13421773 / 67108864)
  rw [show roundTo binary32 (5 : ℚ) = fin 5 from representable_five]
  unfold fdiv
  simp only
  rw [if_neg (by norm_num)]
  have h := roundTo_binary32_eq (1 / 5 : ℚ) (-3) 13421773 (by norm_num)
    (by norm_num [abs_of_pos]) (by norm_num [abs_of_pos])
    (roundHalfEven_eq_of_abs_lt _ _ (by norm_num [abs_lt]))
    (by norm_num [abs_of_pos])
  rw [h]
  norm_num

/-- The countdown from 1 in steps of the binary32 sample period at 5 samples per
second: after 5 steps `2 ^ (-25)` is left. -/
theorem holdCountdown_fifth :
    holdCountdown (13421773 / 67108864 : ℚ) 1 1 = 13421773 / 16777216
      ∧ holdCountdown (13421773 / 67108864 : ℚ) 1 2 = 5033165 / 8388608
      ∧ holdCountdown (13421773 / 67108864 : ℚ) 1 3 = 6710887 / 16777216
      ∧ holdCountdown (13421773 / 67108864 : ℚ) 1 4 = 13421775 / 67108864
      ∧ holdCountdown (13421773 / 67108864 : ℚ) 1 5 = 1 / 33554432 := by
  have h1 : holdCountdown (13421773 / 67108864 : ℚ) 1 1 = 13421773 / 16777216 := by
    show nearest binary32 ((1 : ℚ) - 13421773 / 67108864) = 13421773 / 16777216
    rw [nearest_binary32_eq _ (-1) 13421773 (by norm_num) (by norm_num [abs_of_pos])
      (by norm_num [abs_of_pos]) (roundHalfEven_eq_of_abs_lt _ _ (by norm_num [abs_lt]))]
    norm_num
  have h2 : holdCountdown (13421773 / 67108864 : ℚ) 1 2 = 5033165 / 8388608 := by
    show nearest binary32 (holdCountdown (13421773 / 67108864 : ℚ) 1 1 - 13421773 / 67108864)
      = 5033165 / 8388608
    rw [h1, nearest_binary32_eq _ (-1) 10066330 (by norm_num) (by norm_num [abs_of_pos])
      (by norm_num [abs_of_pos]) (roundHalfEven_eq_of_abs_lt _ _ (by norm_num [abs_lt]))]
    norm_num
  have h3 : holdCountdown (13421773 / 67108864 : ℚ) 1 3 = 6710887 / 16777216 := by
    show nearest binary32 (holdCountdown (13421773 / 67108864 : ℚ) 1 2 - 13421773 / 67108864)
      = 6710887 / 16777216
    rw [h2, nearest_binary32_eq _ (-2) (13421773 + 1) (by norm_num)
      (by norm_num [abs_of_pos]) (by norm_num [abs_of_pos])
      (roundHalfEven_tie_odd _ 13421773 (by norm_num) (by norm_num))]
    norm_num
  have h4 : holdCountdown (13421773 / 67108864 : ℚ) 1 4 = 13421775 / 67108864 := by
    show nearest binary32 (holdCountdown (13421773 / 67108864 : ℚ) 1 3 - 13421773 / 67108864)
      = 13421775 / 67108864
    rw [h3, nearest_binary32_eq _ (-3) 13421775 (by norm_num) (by norm_num [abs_of_pos])
      (by norm_num [abs_of_pos]) (roundHalfEven_eq_of_abs_lt _ _ (by norm_num [abs_lt]))]
    norm_num
  have h5 : holdCountdown (13421773 / 67108864 : ℚ) 1 5 = 1 / 33554432 := by
    show nearest binary32 (holdCountdown (13421773 / 67108864 : ℚ) 1 4 - 13421773 / 67108864)
      = 1 / 33554432
    rw [h4, nearest_binary32_eq _ (-25) 8388608 (by norm_num) (by norm_num [abs_of_pos])
      (by norm_num [abs_of_pos]) (roundHalfEven_eq_of_abs_lt _ _ (by norm_num [abs_lt]))]
    norm_num
  exact ⟨h1, h2, h3, h4, h5⟩

/-- Counterexample to C18 as stated: at 5 samples per second with hold time 1 s,
`⌈holdTime * sampleRate⌉ = 5`, but the binary32 sample period is `13421773 / 2 ^ 26`
and the rounded countdown reads `2 ^ (-25) > 0` after 5 calls; the sixth call is
therefore another hold step and leaves the envelope 1/2, where the release update
would give 1/4. -/
theorem process32_hold_duration_longer :
    ⌈(1 : ℚ) * 5⌉₊ = 5
      ∧ (∀ p g : FloatingPoint ℚ → FloatingPoint ℚ,
          ((detector32 ℚ Mode.peak false 5 (1 / 2) 1).processAll p g
            [fin 0, fin 0, fin 0, fin 0, fin 0]).holdRemaining = fin (1 / 33554432))
      ∧ (∀ p g : FloatingPoint ℚ → FloatingPoint ℚ,
          ((detector32 ℚ Mode.peak false 5 (1 / 2) 1).processAll p g
            [fin 0, fin 0, fin 0, fin 0, fin 0, fin 0]).envelope = fin (1 / 2))
      ∧ (∀ p : FloatingPoint ℚ → FloatingPoint ℚ,
          fmax (fin 0) (fadd binary32 (fmul binary32
            (detector32 ℚ Mode.peak false 5 (1 / 2) 1).releaseTime
            (fsub binary32 (fin (1 / 2))
              (rectify p (detector32 ℚ Mode.peak false 5 (1 / 2) 1).mode (fin 0))))
            (rectify p (detector32 ℚ Mode.peak false 5 (1 / 2) 1).mode (fin 0)))
          = fin (1 / 4))
      ∧ (fin (1 / 4) : FloatingPoint ℚ) ≠ fin (1 / 2) := by
  obtain ⟨c1, c2, c3, c4, c5⟩ := holdCountdown_fifth
  have hpos : ∀ k < 6, 0 < holdCountdown (13421773 / 67108864 : ℚ) 1 k := by
    intro k hk
    interval_cases k
    · show (0 : ℚ) < 1
      norm_num
    · rw [c1]; norm_num
    · rw [c2]; norm_num
    · rw [c3]; norm_num
    · rw [c4]; norm_num
    · rw [c5]; norm_num
  have hrun : ∀ (p g : FloatingPoint ℚ → FloatingPoint ℚ) (l : List (FloatingPoint ℚ)),
      (∀ v ∈ l, v = fin 0) → l.length ≤ 6 →
      (detector32 ℚ Mode.peak false 5 (1 / 2) 1).processAll p g l
        = { detector32 ℚ Mode.peak false 5 (1 / 2) 1 with
            holdRemaining := fin (holdCountdown (13421773 / 67108864 : ℚ) 1 l.length) } :=
    fun p g l hl hlen =>
      processAll32_hold_run p g (1 / 2) 1 (13421773 / 67108864) (by norm_num) (by norm_num)
        (by norm_num) l _ 1 rfl rfl rfl representable_one (samplePeriod_five _ _ _)
        (zero_input_not_above p 5 (1 / 2) 1 (by norm_num) l hl)
        (fun k hk => hpos k (lt_of_lt_of_le hk hlen))
  refine ⟨?_, fun p g => ?_, fun p g => ?_, fun p => release_half_zero p 5 1, ?_⟩
  · norm_num
  · rw [hrun p g _ (by simp) (by simp)]
    show fin (holdCountdown (13421773 / 67108864 : ℚ) 1 5) = _
    rw [c5]
  · rw [hrun p g _ (by simp) (by simp)]
    rfl
  · intro h
    have : (1 / 4 : ℚ) = 1 / 2 := by injection h
    norm_num at this

/-- The stand-in exponential maps a finite `y ≤ 0` into `[0, 1]`. -/
theorem expStandIn_unit (y : ℚ) (hy : y ≤ 0) :
    ∃ r : ℚ, expStandIn (fin y) = fin r ∧ 0 ≤ r ∧ r ≤ 1 := by
  refine ⟨1 / (1 - y), ?_, ?_, ?_⟩
  · simp only [expStandIn, if_pos hy]
  · exact div_nonneg zero_le_one (by linarith)
  · rw [div_le_one (by linarith)]
    linarith

/-- Witness for C14: at 1 sample per second and a time of 1 s, with the stand-in
exponential, the digital attack coefficient and the analog release coefficient are
binary32 values in `[0, 1]`; and the real exponential maps `y ≤ 0` into `[0, 1]`. -/
theorem setTime32_coefficient_range_witness :
    (∃ c : ℚ, ((detector32 ℚ Mode.peak false 1 0 0).setAttackTime expStandIn
        (fin 1)).attackTime = fin c ∧ 0 ≤ c ∧ c ≤ 1)
      ∧ (∃ c : ℚ, ((detector32 ℚ Mode.peak true 1 0 0).setReleaseTime expStandIn
        (fin 1)).releaseTime = fin c ∧ 0 ≤ c ∧ c ≤ 1)
      ∧ (∀ y : ℝ, y ≤ 0 → 0 ≤ Real.exp y ∧ Real.exp y ≤ 1) := by
  obtain ⟨c, h, c0, c1, _⟩ := (setTime32_coefficient_range expStandIn
    (detector32 ℚ Mode.peak false 1 0 0) 1 1 one_pos rfl one_pos expStandIn_unit rfl).1
  obtain ⟨d, h', d0, d1, _⟩ := (setTime32_coefficient_range expStandIn
    (detector32 ℚ Mode.peak true 1 0 0) 1 1 one_pos rfl one_pos expStandIn_unit rfl).2
  exact ⟨⟨c, h, c0, c1⟩, ⟨d, h', d0, d1⟩,
    fun y hy => ⟨(Real.exp_pos y).le, Real.exp_le_one_iff.mpr hy⟩⟩

/-- Counterexample to C14 as stated: at 32768 samples per second the product, the
quotient and the argument of `std::exp` are exact in `double`.  For a time of 32768 s
the argument is `-2 ^ (-29)` and any `std::exp` within `2 ^ (-30)` of the exponential
returns a `double` that the cast to `float` rounds to exactly 1; for a time of
`2 ^ (-22)` s the argument is -256 and any `std::exp` that returns at most twice the
exponential gives a `double` below `2 ^ (-150)`, which the cast rounds to exactly 0. -/
theorem setAttackTime32_stores_endpoints :
    (∀ (exp : FloatingPoint ℝ → FloatingPoint ℝ) (r : ℝ),
        exp (fin (-(1 / 2 ^ 29))) = fin r → |r - Real.exp (-(1 / 2 ^ 29))| ≤ 1 / 2 ^ 30 →
        ((detector32 ℝ Mode.peak false 32768 0 0).setAttackTime exp (fin 32768)).attackTime
          = fin 1)
      ∧ (∀ (exp : FloatingPoint ℝ → FloatingPoint ℝ) (r : ℝ),
        exp (fin (-256)) = fin r → 0 ≤ r → r ≤ 2 * Real.exp (-256) →
        ((detector32 ℝ Mode.peak false 32768 0 0).setAttackTime exp
          (fin (1 / 2 ^ 22))).attackTime = fin 0) := by
  constructor
  · intro exp r hexp hr
    have hmul : fmul binary64 (fin (32768 : ℝ)) (fin 32768) = fin (32768 * 32768) := by
      rw [fmul_fin]
      exact roundTo_binary64_exact _ 30 4503599627370496 (by norm_num)
        (by norm_num [abs_of_pos]) (by norm_num [abs_of_pos]) (by norm_num)
        (by norm_num [abs_of_pos])
    have hdiv : fdiv binary64 (fin (EnvelopeDetector32.DIGITAL_TC : ℝ)) (fin (32768 * 32768))
        = fin (-(1 / 2 ^ 29)) := by
      unfold fdiv
      simp only
      rw [if_neg (by norm_num)]
      rw [roundTo_binary64_exact (EnvelopeDetector32.DIGITAL_TC / (32768 * 32768) : ℝ) (-29)
        (-4503599627370496) (by norm_num) (by norm_num [EnvelopeDetector32.DIGITAL_TC, abs_of_neg])
        (by norm_num [EnvelopeDetector32.DIGITAL_TC, abs_of_neg]) (by norm_num [EnvelopeDetector32.DIGITAL_TC])
        (by norm_num [EnvelopeDetector32.DIGITAL_TC, abs_of_neg])]
      congr 1
      norm_num [EnvelopeDetector32.DIGITAL_TC]
    have hlo : 1 - 1 / 2 ^ 29 ≤ Real.exp (-(1 / 2 ^ 29)) := by
      have := Real.add_one_le_exp (-(1 / 2 ^ 29) : ℝ)
      linarith
    have hhi : Real.exp (-(1 / 2 ^ 29)) ≤ 1 := Real.exp_le_one_iff.mpr (by norm_num)
    rw [abs_le] at hr
    have hr1 : 1 - 1 / 2 ^ 29 - 1 / 2 ^ 30 ≤ r := by linarith [hr.1]
    have hr2 : r ≤ 1 + 1 / 2 ^ 30 := by linarith [hr.2]
    have hround : roundTo binary32 r = fin 1 := by
      rcases lt_or_le r 1 with hlt | hge
      · have h := roundTo_binary32_eq r (-1) 16777216 (by norm_num)
          (by rw [abs_of_pos (by linarith)]; norm_num at hr1 ⊢; linarith)
          (by rw [abs_of_pos (by linarith)]; norm_num; exact hlt)
          (roundHalfEven_eq_of_abs_lt _ _ (by
            have e : r / (2 : ℝ) ^ ((-1 : ℤ) - 23) = r * 16777216 := by
              norm_num
              ring
            rw [e, abs_lt]
            norm_num at hr1 ⊢
            constructor <;> linarith))
          (by norm_num)
        rw [h]
        norm_num
      · have h := roundTo_binary32_eq r 0 8388608 (by norm_num)
          (by rw [abs_of_pos (by linarith)]; norm_num; exact hge)
          (by rw [abs_of_pos (by linarith)]; norm_num at hr2 ⊢; linarith)
          (roundHalfEven_eq_of_abs_lt _ _ (by
            have e : r / (2 : ℝ) ^ ((0 : ℤ) - 23) = r * 8388608 := by
              norm_num
              ring
            rw [e, abs_lt]
            norm_num at hr2 ⊢
            constructor <;> linarith))
          (by norm_num)
        rw [h]
        norm_num
    rw [setAttackTime32_attackTime]
    show convert binary32 (exp (fdiv binary64 (fin EnvelopeDetector32.DIGITAL_TC)
      (fmul binary64 (fin 32768) (fin 32768)))) = fin 1
    rw [hmul, hdiv, hexp]
    exact hround
  · intro exp r hexp hr0 hr
    have hmul : fmul binary64 (fin (1 / 2 ^ 22 : ℝ)) (fin 32768) = fin (1 / 2 ^ 22 * 32768) := by
      rw [fmul_fin]
      exact roundTo_binary64_exact _ (-7) 4503599627370496 (by norm_num)
        (by norm_num [abs_of_pos]) (by norm_num [abs_of_pos]) (by norm_num)
        (by norm_num [abs_of_pos])
    have hdiv : fdiv binary64 (fin (EnvelopeDetector32.DIGITAL_TC : ℝ)) (fin (1 / 2 ^ 22 * 32768))
        = fin (-256) := by
      unfold fdiv
      simp only
      rw [if_neg (by norm_num)]
      rw [roundTo_binary64_exact (EnvelopeDetector32.DIGITAL_TC / (1 / 2 ^ 22 * 32768) : ℝ) 8
        (-4503599627370496) (by norm_num) (by norm_num [EnvelopeDetector32.DIGITAL_TC, abs_of_neg])
        (by norm_num [EnvelopeDetector32.DIGITAL_TC, abs_of_neg]) (by norm_num [EnvelopeDetector32.DIGITAL_TC])
        (by norm_num [EnvelopeDetector32.DIGITAL_TC, abs_of_neg])]
      congr 1
      norm_num [EnvelopeDetector32.DIGITAL_TC]
    have hexp256 : Real.exp (-256) ≤ 1 / 2 ^ 256 := by
      have h2 : (2 : ℝ) ≤ Real.exp 1 := by
        have := Real.add_one_le_exp (1 : ℝ)
        linarith
      have h3 : (2 : ℝ) ^ 256 ≤ Real.exp 256 := by
        have e : Real.exp 256 = Real.exp 1 ^ 256 := by
          rw [← Real.exp_nat_mul]
          norm_num
        rw [e]
        exact pow_le_pow_left₀ (by norm_num) h2 256
      rw [Real.exp_neg, ← one_div]
      exact one_div_le_one_div_of_le (by positivity) h3
    have hr' : r ≤ 1 / 2 ^ 255 := by
      have : (2 : ℝ) * (1 / 2 ^ 256) = 1 / 2 ^ 255 := by norm_num
      linarith
    have hround : roundTo binary32 r = fin 0 := by
      have hsmall : r < 1 / 2 ^ 150 := lt_of_le_of_lt hr' (by norm_num)
      have h := roundTo_binary32_subnormal r 0
        (by rw [abs_of_nonneg hr0]; exact lt_of_lt_of_le hsmall (by norm_num))
        (roundHalfEven_eq_of_abs_lt _ _ (by
          have e : r / (2 : ℝ) ^ (-149 : ℤ) = r * 2 ^ 149 := by
            rw [zpow_neg, div_inv_eq_mul]
            norm_num
          rw [e, Int.cast_zero, sub_zero, abs_of_nonneg (by positivity)]
          have : r * 2 ^ 149 < 1 / 2 ^ 150 * 2 ^ 149 :=
            mul_lt_mul_of_pos_right hsmall (by positivity)
          calc r * 2 ^ 149 < 1 / 2 ^ 150 * 2 ^ 149 := this
            _ = 1 / 2 := by norm_num))
        (by norm_num)
      rw [h]
      norm_num
    rw [setAttackTime32_attackTime]
    show convert binary32 (exp (fdiv binary64 (fin EnvelopeDetector32.DIGITAL_TC)
      (fmul binary64 (fin (1 / 2 ^ 22)) (fin 32768)))) = fin 0
    rw [hmul, hdiv, hexp]
    exact hround

end Binary32Examples

end Gin
